import Mathlib

/-!
# FileVault: access control and version lifecycle

A shallow embedding of the project and version engine of the FileVault backend
(`backend/models/project.model.js`, `backend/models/version.model.js`,
`backend/controllers/project.controller.js`,
`backend/controllers/version.controller.js`, `backend/services/activity.service.js`).

MongoDB collections are lists of documents, a controller is a function from the
database (and the request) to an HTTP status and the next database.  ObjectIds are
natural numbers; two ids are equal exactly when their `toString()` are equal.
`Date.now()` and the ObjectId that MongoDB assigns to a new document are inputs.
-/

namespace FileVault

/-! ## Data model -/

abbrev UserId := Nat
abbrev ProjectId := Nat
abbrev VersionId := Nat
abbrev RequestId := Nat

/-- The `accessType` enum of an `accessibleBy` entry (project.model.js, line 34). -/
inductive AccessType where
  | creator
  | editor
  | viewer
  deriving DecidableEq, Repr

/-- Schema validation of an `accessType` string against the enum
`['creator', 'editor', 'viewer']`. -/
def AccessType.ofString? (s : String) : Option AccessType :=
  if s = "creator" then some .creator
  else if s = "editor" then some .editor
  else if s = "viewer" then some .viewer
  else none

/-- An entry of `accessibleBy` (project.model.js, lines 27-41).  Every write site of
the repository stores a user id in the entry. -/
structure AccessEntry where
  user : UserId
  accessType : AccessType
  addedAt : Nat
  deriving DecidableEq, Repr

/-- The `status` enum shared by access requests and versions. -/
inductive Status where
  | pending
  | approved
  | rejected
  deriving DecidableEq, Repr

/-- The `requestType` enum of an access request: `['editor']`
(project.model.js, line 50). -/
inductive RequestType where
  | editor
  deriving DecidableEq, Repr

/-- The string stored for a request type. -/
def RequestType.toString : RequestType → String
  | .editor => "editor"

/-- Schema validation of a `requestType` string against the enum `['editor']`. -/
def RequestType.ofString? (s : String) : Option RequestType :=
  if s = "editor" then some .editor else none

/-- An entry of `accessRequests` (project.model.js, lines 42-66). -/
structure AccessRequest where
  id : RequestId
  user : UserId
  requestType : RequestType
  message : String
  requestedAt : Nat
  status : Status
  deriving DecidableEq, Repr

/-- A Project document (project.model.js, lines 3-69). -/
structure Project where
  id : ProjectId
  name : String
  description : String
  creator : UserId
  currentVersion : Option VersionId
  versions : List VersionId
  accessibleBy : List AccessEntry
  accessRequests : List AccessRequest
  deriving DecidableEq, Repr

/-- A Version document (version.model.js, lines 3-56).  `versionNumber` is a
JavaScript number, an IEEE 754 double; the embedding keeps the integer-valued
doubles, and arithmetic on them goes through `jsAdd`. -/
structure Version where
  id : VersionId
  project : ProjectId
  versionNumber : Int
  fileUrl : String
  key : Option String
  fileName : String
  fileSize : Nat
  fileType : String
  uploadedBy : UserId
  status : Status
  notes : String
  approvedBy : Option UserId
  approvedAt : Option Nat
  deriving DecidableEq, Repr

/-- Modelled from the spec: the User model (`backend/models/user.model.js`) is not
among the sources; the spec gives a user a unique identifier, an email and a
display name. -/
structure User where
  id : UserId
  email : String
  name : String
  deriving DecidableEq, Repr

/-- An Activity document (activity.model.js, lines 3-30), without the free-form
metadata. -/
structure Activity where
  project : ProjectId
  user : UserId
  action : String
  details : String
  deriving DecidableEq, Repr

/-- The database: the User, Project, Version and Activity collections. -/
structure Db where
  users : List User
  projects : List Project
  versions : List Version
  activities : List Activity
  deriving DecidableEq, Repr

/-! ## JavaScript helpers -/

/-- Truthiness of an optional string field of a request body: present and not
the empty string. -/
def truthy : Option String → Bool
  | some s => decide (s ≠ "")
  | none => false

/-- Truthiness of an optional numeric field of a request body: present and not
zero. -/
def truthyNum : Option Int → Bool
  | some n => decide (n ≠ 0)
  | none => false

/-- The least shift, counted up from `shift`, under which `a / 2 ^ shift` fits the
53 bits of the significand of a double; `fuel` bounds the search. -/
def significandShift : Nat → Nat → Nat → Nat
  | 0, _, shift => shift
  | fuel + 1, a, shift =>
    if a / 2 ^ shift < 2 ^ 53 then shift else significandShift fuel a (shift + 1)

/-- The double nearest to an integer, ties going to the even significand (the
IEEE 754 default rounding, which JavaScript uses).  Integers up to `2 ^ 53` in
absolute value are doubles themselves; above that the low bits are rounded away.
The exponent range is left open: JavaScript answers `Infinity` from `2 ^ 1024` on. -/
def toDouble (x : Int) : Int :=
  let a := x.natAbs
  if a ≤ 2 ^ 53 then x
  else
    let shift := significandShift a a 1
    let q := a / 2 ^ shift
    let r := a % 2 ^ shift
    let half := 2 ^ (shift - 1)
    let rounded := if half < r ∨ (r = half ∧ q % 2 = 1) then q + 1 else q
    Int.sign x * ((rounded * 2 ^ shift : Nat) : Int)

/-- JavaScript `a + b` on integer-valued numbers: the exact sum, rounded to a
double. -/
def jsAdd (a b : Int) : Int :=
  toDouble (a + b)

/-- The characters removed by `String.prototype.trim`: the ECMAScript WhiteSpace
and LineTerminator code points. -/
def isJsWhitespace (c : Char) : Bool :=
  let n := c.toNat
  (9 ≤ n && n ≤ 13) || n == 32 || n == 160 || n == 5760 || (8192 ≤ n && n ≤ 8202)
    || n == 8232 || n == 8233 || n == 8239 || n == 8287 || n == 12288 || n == 65279

/-- The function `String.prototype.trim`, which the schema applies to a project
name (`trim: true`). -/
def jsTrim (s : String) : String :=
  String.mk ((s.data.dropWhile isJsWhitespace).reverse.dropWhile isJsWhitespace).reverse

/-! ## The Project model -/

/-- The method `projectSchema.methods.hasAccess` (project.model.js, lines 77-93). -/
def Project.hasAccess (p : Project) (userId : UserId) (accessType : String) : Bool :=
  match p.accessibleBy.find? (fun access => decide (access.user = userId)) with
  | none => false
  | some userAccess =>
    if accessType = "view" then
      [AccessType.creator, AccessType.editor, AccessType.viewer].contains userAccess.accessType
    else if accessType = "edit" then
      [AccessType.creator, AccessType.editor].contains userAccess.accessType
    else if accessType = "admin" then
      decide (userAccess.accessType = AccessType.creator)
    else
      false

/-- The hook `projectSchema.pre('save')` (project.model.js, lines 96-113). -/
def Project.preSave (isNew : Bool) (p : Project) (now : Nat) : Project :=
  if isNew then
    let creatorExists := p.accessibleBy.any (fun access => decide (access.user = p.creator))
    if !creatorExists then
      { p with accessibleBy := p.accessibleBy ++
          [{ user := p.creator, accessType := AccessType.creator, addedAt := now }] }
    else p
  else p

/-! ## Collections -/

/-- The query `Project.findById(projectId)`. -/
def findProjectById (db : Db) (projectId : ProjectId) : Option Project :=
  db.projects.find? (fun q => decide (q.id = projectId))

/-- The call `project.save()` on a document that is already stored: the pre-save
hook runs with `isNew` false and the stored document with the same `_id` is
replaced. -/
def Project.save (db : Db) (p : Project) (now : Nat) : Db :=
  let doc := Project.preSave false p now
  { db with projects := db.projects.map (fun q => if q.id = doc.id then doc else q) }

/-- The call `Project.create(...)` of createProject (project.controller.js, lines
154-159): the schema trims the name and requires it, fills the defaults, the
pre-save hook runs with `isNew` true and the document is inserted.  A validation
error is `none`. -/
def Project.create (db : Db) (newId : ProjectId) (name : String) (description : Option String)
    (creator : UserId) (now : Nat) : Option (Project × Db) :=
  let doc : Project :=
    { id := newId, name := jsTrim name, description := description.getD "",
      creator := creator, currentVersion := none, versions := [],
      accessibleBy := [], accessRequests := [] }
  if doc.name = "" then none
  else
    let saved := Project.preSave true doc now
    some (saved, { db with projects := db.projects ++ [saved] })

/-- The `action` enum of the Activity schema (activity.model.js, lines 18-20). -/
def activityActions : List String :=
  ["project_created", "version_uploaded", "version_approved", "version_rejected",
   "collaborator_added", "collaborator_removed", "access_requested", "access_granted",
   "access_denied", "project_updated"]

/-- The function `logActivity` (activity.service.js, lines 13-28): the activity is
validated and stored; a validation error is rethrown (`none`). -/
def logActivity (db : Db) (projectId : ProjectId) (userId : UserId) (action : String)
    (details : String) : Option Db :=
  if activityActions.contains action then
    some { db with activities := db.activities ++
      [{ project := projectId, user := userId, action := action, details := details }] }
  else none

/-- Assignment to the first element that satisfies `pred`, the element that
`Array.prototype.find` or `findIndex` returns. -/
def updateFirst {α : Type} (pred : α → Bool) (f : α → α) : List α → List α
  | [] => []
  | x :: xs => if pred x then f x :: xs else x :: updateFirst pred f xs

/-- The answer of a controller: the HTTP status, the payload it carries (when it
has one) and the database after the call. -/
structure Reply (α : Type) where
  status : Nat
  data : Option α
  db : Db

/-! ## Project controller -/

/-- The body of `POST /api/projects`. -/
structure ProjectBody where
  name : Option String
  description : Option String

/-- The controller `createProject` (project.controller.js, lines 141-205).  `newId`
is the ObjectId assigned to the new project. -/
def createProject (db : Db) (userId : UserId) (body : ProjectBody) (now : Nat)
    (newId : ProjectId) : Reply Project :=
  if !truthy body.name then ⟨400, none, db⟩
  else
    match Project.create db newId (body.name.getD "") body.description userId now with
    | none => ⟨500, none, db⟩
    | some (created, db1) =>
      let project : Project :=
        { created with accessibleBy := created.accessibleBy ++
            [{ user := userId, accessType := AccessType.creator, addedAt := now }] }
      let allUsers := db1.users.filter (fun user => decide (user.id ≠ userId))
      let project : Project :=
        if allUsers.length > 0 then
          { project with accessibleBy := project.accessibleBy ++
              allUsers.map (fun user =>
                { user := user.id, accessType := AccessType.viewer, addedAt := now }) }
        else project
      let db2 := Project.save db1 project now
      match logActivity db2 project.id userId "project_created"
          ("Project " ++ body.name.getD "" ++ " created") with
      | none => ⟨500, none, db2⟩
      | some db3 => ⟨201, some project, db3⟩

/-- The body of `POST /api/projects/:projectId/users`. -/
structure AddUserBody where
  email : Option String
  accessType : Option String

/-- The controller `addUserToProject` (project.controller.js, lines 402-498). -/
def addUserToProject (db : Db) (userId : UserId) (projectId : ProjectId) (body : AddUserBody)
    (now : Nat) : Reply Project :=
  if !truthy body.email || !truthy body.accessType then ⟨400, none, db⟩
  else if !(["editor", "viewer"].contains (body.accessType.getD "")) then ⟨400, none, db⟩
  else
    match findProjectById db projectId with
    | none => ⟨404, none, db⟩
    | some project =>
      if project.creator ≠ userId then ⟨403, none, db⟩
      else
        match db.users.find? (fun u => decide (u.email = body.email.getD "")) with
        | none => ⟨404, none, db⟩
        | some userToAdd =>
          match AccessType.ofString? (body.accessType.getD "") with
          | none => ⟨500, none, db⟩
          | some accessType =>
            let existingAccess :=
              project.accessibleBy.find? (fun access => decide (access.user = userToAdd.id))
            let project : Project :=
              match existingAccess with
              | some _ =>
                let updated :=
                  updateFirst (fun access => decide (access.user = userToAdd.id))
                    (fun access => { access with accessType := accessType, addedAt := now })
                    project.accessibleBy
                { project with accessibleBy := updated }
              | none =>
                { project with accessibleBy := project.accessibleBy ++
                    [{ user := userToAdd.id, accessType := accessType, addedAt := now }] }
            let db1 := Project.save db project now
            match logActivity db1 project.id userId "collaborator_added"
                ("Added " ++ (if userToAdd.name ≠ "" then userToAdd.name else userToAdd.email)
                  ++ " as " ++ body.accessType.getD "") with
            | none => ⟨500, none, db1⟩
            | some db2 => ⟨200, some project, db2⟩

/-- The controller `removeUserFromProject` (project.controller.js, lines 503-566).
`userIdToRemove` is the route parameter, an id in its canonical string form. -/
def removeUserFromProject (db : Db) (creatorId : UserId) (projectId : ProjectId)
    (userIdToRemove : UserId) (now : Nat) : Reply Project :=
  match findProjectById db projectId with
  | none => ⟨404, none, db⟩
  | some project =>
    if project.creator ≠ creatorId then ⟨403, none, db⟩
    else if userIdToRemove = project.creator then ⟨400, none, db⟩
    else
      let project : Project :=
        { project with accessibleBy :=
            project.accessibleBy.filter (fun access => decide (access.user ≠ userIdToRemove)) }
      let db1 := Project.save db project now
      let removedUser := db1.users.find? (fun u => decide (u.id = userIdToRemove))
      match logActivity db1 projectId creatorId "collaborator_removed"
          ("Removed " ++ (match removedUser with
            | some u => u.name
            | none => "a user") ++ " from project") with
      | none => ⟨500, none, db1⟩
      | some db2 => ⟨200, some project, db2⟩

/-- The body of `PUT /api/projects/:projectId/access-requests/:requestId`. -/
structure HandleRequestBody where
  status : Option String
  accessType : Option String

/-- The controller `handleAccessRequest` (project.controller.js, lines 748-848).
The granted type `accessType || request.requestType` is checked against the
`accessType` enum when the project is saved; a validation error is a 500 that
stores nothing. -/
def handleAccessRequest (db : Db) (userId : UserId) (projectId : ProjectId)
    (requestId : RequestId) (body : HandleRequestBody) (now : Nat) : Reply Unit :=
  if !(["approved", "rejected"].contains (body.status.getD "")) then ⟨400, none, db⟩
  else
    match findProjectById db projectId with
    | none => ⟨404, none, db⟩
    | some project =>
      if project.creator ≠ userId then ⟨403, none, db⟩
      else
        match project.accessRequests.find? (fun request => decide (request.id = requestId)) with
        | none => ⟨404, none, db⟩
        | some request =>
          let status := if body.status.getD "" = "approved" then Status.approved else Status.rejected
          let requests :=
            updateFirst (fun r => decide (r.id = requestId))
              (fun r => { r with status := status }) project.accessRequests
          let project : Project := { project with accessRequests := requests }
          let granted : String :=
            if truthy body.accessType then body.accessType.getD "" else request.requestType.toString
          let updated : Option Project :=
            if status = Status.approved then
              match AccessType.ofString? granted with
              | none => none
              | some accessType =>
                match project.accessibleBy.find? (fun access => decide (access.user = request.user)) with
                | some _ =>
                  let entries :=
                    updateFirst (fun access => decide (access.user = request.user))
                      (fun access => { access with accessType := accessType })
                      project.accessibleBy
                  some { project with accessibleBy := entries }
                | none =>
                  some { project with accessibleBy := project.accessibleBy ++
                    [{ user := request.user, accessType := accessType, addedAt := now }] }
            else some project
          match updated with
          | none => ⟨500, none, db⟩
          | some project =>
            let db1 := Project.save db project now
            match logActivity db1 projectId userId "access_granted"
                ("Granted " ++ body.accessType.getD "undefined" ++ " access to undefined") with
            | none => ⟨500, none, db1⟩
            | some db2 => ⟨200, some (), db2⟩

/-! ## Version controller -/

/-- The body of `POST /api/projects/:projectId/versions`; `versionNumber` is the
number that the JSON parser read, a double. -/
structure VersionBody where
  fileUrl : Option String
  fileName : Option String
  fileSize : Option Nat
  fileType : Option String
  notes : Option String
  key : Option String
  versionNumber : Option Int

/-- The first document of a list sorted by `versionNumber` descending. -/
def maxByVersionNumber : List Version → Option Version
  | [] => none
  | v :: vs =>
    match maxByVersionNumber vs with
    | none => some v
    | some w => if w.versionNumber ≤ v.versionNumber then some v else some w

/-- The query `Version.findOne(\x7b project: projectId \x7d).sort(\x7b versionNumber: -1 \x7d)`
(version.controller.js, lines 211-212). -/
def findLastVersion (db : Db) (projectId : ProjectId) : Option Version :=
  maxByVersionNumber (db.versions.filter (fun v => decide (v.project = projectId)))

/-- The controller `createVersion` (version.controller.js, lines 186-288).  `project`
is `req.project`, the document loaded by the access middleware, and `newId` is the
ObjectId assigned to the new version. -/
def createVersion (db : Db) (project : Project) (userId : UserId) (body : VersionBody)
    (now : Nat) (newId : VersionId) : Reply Version :=
  if !truthy body.fileUrl || !truthy body.fileName then ⟨400, none, db⟩
  else
    let projectId := project.id
    let lastVersion := findLastVersion db projectId
    let versionNumber : Int :=
      if truthyNum body.versionNumber then body.versionNumber.getD 0
      else
        match lastVersion with
        | some last => jsAdd last.versionNumber 1
        | none => 1
    let isCreator : Bool := decide (project.creator = userId)
    let status := if isCreator then Status.approved else Status.pending
    let approvedBy := if isCreator then some userId else none
    let approvedAt := if isCreator then some now else none
    let version : Version :=
      { id := newId, project := projectId, versionNumber := versionNumber,
        fileUrl := body.fileUrl.getD "", key := body.key, fileName := body.fileName.getD "",
        fileSize := body.fileSize.getD 0,
        fileType := if truthy body.fileType then body.fileType.getD "" else "application/octet-stream",
        uploadedBy := userId, status := status,
        notes := if truthy body.notes then body.notes.getD "" else "",
        approvedBy := approvedBy, approvedAt := approvedAt }
    let db1 : Db := { db with versions := db.versions ++ [version] }
    let db2 : Db :=
      if status = Status.approved then
        let project : Project :=
          { project with
              currentVersion := some version.id,
              versions :=
                if project.versions.contains version.id then project.versions
                else project.versions ++ [version.id] }
        Project.save db1 project now
      else db1
    match logActivity db2 projectId userId "version_uploaded"
        ("Version " ++ toString versionNumber ++ " uploaded") with
    | none => ⟨500, none, db2⟩
    | some db3 => ⟨201, some version, db3⟩

/-! ## Object storage and the version lifecycle -/

/-- The answer of `s3.deleteObject` to a `Key` parameter, `true` when the delete
succeeds.  The helper `deleteFile` (config/s3.js, lines 130-142) throws exactly
when it does not. -/
abbrev S3 := Option String → Bool

/-- The answer of a controller that talks to object storage: the HTTP status, the
payload, the database after the call and the keys passed to `deleteFile`, in
call order. -/
structure StorageReply (α : Type) where
  status : Nat
  data : Option α
  db : Db
  deleteCalls : List (Option String)

/-- The text after the first occurrence of `sep`, when there is one. -/
def splitAfter (sep : List Char) : List Char → Option (List Char)
  | [] => none
  | c :: cs => if sep.isPrefixOf (c :: cs) then some ((c :: cs).drop sep.length)
    else splitAfter sep cs

/-- The text before the first occurrence of `sep`, all of it when there is none. -/
def splitBefore (sep : List Char) : List Char → List Char
  | [] => []
  | c :: cs => if sep.isPrefixOf (c :: cs) then [] else c :: splitBefore sep cs

/-- The expression `fileUrl.split('.amazonaws.com/')[1]`: the piece between the
first and the second occurrence of the separator, `undefined` when the separator
does not occur. -/
def fileKeyOfUrl (fileUrl : String) : Option String :=
  (splitAfter ".amazonaws.com/".data fileUrl.data).map
    (fun rest => String.mk (splitBefore ".amazonaws.com/".data rest))

/-- The call `version.save()` on a stored version: the document with the same
`_id` is replaced. -/
def Version.save (db : Db) (v : Version) : Db :=
  { db with versions := db.versions.map (fun w => if w.id = v.id then v else w) }

/-- The call `Version.findByIdAndDelete(versionId)`: the document with that `_id`,
which is unique in the collection, is removed. -/
def deleteVersionById (db : Db) (versionId : VersionId) : Db :=
  { db with versions := db.versions.filter (fun w => decide (w.id ≠ versionId)) }

/-- The body of `PUT /api/projects/:projectId/versions/:versionId/status`. -/
structure StatusBody where
  status : Option String
  notes : Option String

/-- The controller `updateVersionStatus` (version.controller.js, lines 364-465).
`project` is `req.project`; the notification to the uploader catches its own
errors and is left out. -/
def updateVersionStatus (db : Db) (s3 : S3) (project : Project) (userId : UserId)
    (versionId : VersionId) (body : StatusBody) (now : Nat) : StorageReply Version :=
  if !truthy body.status || !(["approved", "rejected"].contains (body.status.getD "")) then
    ⟨400, none, db, []⟩
  else if project.creator ≠ userId then ⟨403, none, db, []⟩
  else
    let projectId := project.id
    match db.versions.find? (fun v =>
        decide (v.id = versionId ∧ v.project = projectId ∧ v.status = Status.pending)) with
    | none => ⟨404, none, db, []⟩
    | some found =>
      let status := if body.status.getD "" = "approved" then Status.approved else Status.rejected
      let version : Version :=
        { found with
            status := status, approvedBy := some userId, approvedAt := some now,
            notes := if truthy body.notes then body.notes.getD "" else found.notes }
      let db1 := Version.save db version
      let finish (db2 : Db) (calls : List (Option String)) : StorageReply Version :=
        match logActivity db2 projectId userId
            (if status = Status.approved then "version_approved" else "version_rejected")
            ("Version " ++ toString version.versionNumber ++ " " ++ body.status.getD "") with
        | none => ⟨500, none, db2, calls⟩
        | some db3 => ⟨200, some version, db3, calls⟩
      if status = Status.approved then
        let updated : Project :=
          { project with
              currentVersion := some version.id,
              versions :=
                if project.versions.contains version.id then project.versions
                else project.versions ++ [version.id] }
        finish (Project.save db1 updated now) []
      else if truthy version.key then
        if s3 version.key then finish db1 [version.key]
        else ⟨500, none, db1, [version.key]⟩
      else if version.fileUrl ≠ "" then
        let fileKey := fileKeyOfUrl version.fileUrl
        if truthy fileKey then finish db1 [fileKey]
        else finish db1 []
      else finish db1 []

/-- The query of deleteVersion for the next current version (version.controller.js,
lines 505-509): the approved version of the project with the greatest number,
the deleted one apart. -/
def findLatestApproved (db : Db) (projectId : ProjectId) (versionId : VersionId) :
    Option Version :=
  maxByVersionNumber (db.versions.filter (fun v =>
    decide (v.project = projectId ∧ v.status = Status.approved ∧ v.id ≠ versionId)))

/-- The controller `deleteVersion` (version.controller.js, lines 470-539). -/
def deleteVersion (db : Db) (s3 : S3) (project : Project) (userId : UserId)
    (versionId : VersionId) (now : Nat) : StorageReply Unit :=
  if project.creator ≠ userId then ⟨403, none, db, []⟩
  else
    let projectId := project.id
    match db.versions.find? (fun v => decide (v.id = versionId ∧ v.project = projectId)) with
    | none => ⟨404, none, db, []⟩
    | some version =>
      let versions := project.versions.filter (fun v => decide (v ≠ versionId))
      let currentVersion :=
        if project.currentVersion = some versionId then
          (findLatestApproved db projectId versionId).map (fun latest => latest.id)
        else project.currentVersion
      let updated : Project :=
        { project with versions := versions, currentVersion := currentVersion }
      let db1 := Project.save db updated now
      let db2 := deleteVersionById db1 versionId
      let fileKey := fileKeyOfUrl version.fileUrl
      if !s3 fileKey then ⟨500, none, db2, [fileKey]⟩
      else
        match logActivity db2 projectId userId "version_deleted"
            ("Version " ++ toString version.versionNumber ++ " deleted") with
        | none => ⟨500, none, db2, [fileKey]⟩
        | some db3 => ⟨200, some (), db3, [fileKey]⟩

/-- The state threaded through the loop of revertToVersion: the in-memory
`project.versions`, the Version collection, the keys passed to `deleteFile` and
`deletedCount`. -/
structure RevertState where
  projectVersions : List VersionId
  stored : List Version
  deleteCalls : List (Option String)
  deletedCount : Nat

/-- One round of the loop of revertToVersion (version.controller.js, lines
585-612); a failing `deleteFile` is caught and logged in both branches. -/
def revertStep (st : RevertState) (version : Version) : RevertState :=
  let calls : List (Option String) :=
    if truthy version.key then [version.key]
    else if version.fileUrl ≠ "" then
      (if truthy (fileKeyOfUrl version.fileUrl) then [fileKeyOfUrl version.fileUrl] else [])
    else []
  { projectVersions := st.projectVersions.filter (fun v => decide (v ≠ version.id)),
    stored := st.stored.filter (fun w => decide (w.id ≠ version.id)),
    deleteCalls := st.deleteCalls ++ calls,
    deletedCount := st.deletedCount + 1 }

/-- The payload of a revert: `deletedVersions` and the number of the new current
version. -/
structure RevertData where
  deletedVersions : Nat
  currentVersion : Int

/-- The controller `revertToVersion` (version.controller.js, lines 544-639). -/
def revertToVersion (db : Db) (_s3 : S3) (project : Project) (userId : UserId)
    (versionId : VersionId) (now : Nat) : StorageReply RevertData :=
  if project.creator ≠ userId then ⟨403, none, db, []⟩
  else
    let projectId := project.id
    match db.versions.find? (fun v =>
        decide (v.id = versionId ∧ v.project = projectId ∧ v.status = Status.approved)) with
    | none => ⟨404, none, db, []⟩
    | some targetVersion =>
      let newerVersions := db.versions.filter (fun v =>
        decide (v.project = projectId ∧ targetVersion.versionNumber < v.versionNumber ∧
          v.status = Status.approved))
      let st := newerVersions.foldl revertStep
        { projectVersions := project.versions, stored := db.versions, deleteCalls := [],
          deletedCount := 0 }
      let updated : Project :=
        { project with versions := st.projectVersions, currentVersion := some targetVersion.id }
      let db1 := Project.save { db with versions := st.stored } updated now
      match logActivity db1 projectId userId "version_reverted"
          ("Reverted to version " ++ toString targetVersion.versionNumber) with
      | none => ⟨500, none, db1, st.deleteCalls⟩
      | some db2 =>
        ⟨200, some ⟨st.deletedCount, targetVersion.versionNumber⟩, db2, st.deleteCalls⟩

/-! ## Access requests -/

/-- The body of `POST /api/projects/:projectId/request-access`. -/
structure RequestAccessBody where
  message : Option String
  requestType : Option String

/-- The controller `requestAccess` (project.controller.js, lines 571-643).  `newId`
is the ObjectId of the new request; `requestType` defaults to `'editor'` and is
checked against the schema enum when the project is saved, a validation error
being a 500 that stores nothing.  The notification to the creator catches its own
errors and is left out. -/
def requestAccess (db : Db) (userId : UserId) (projectId : ProjectId)
    (body : RequestAccessBody) (now : Nat) (newId : RequestId) : Reply Unit :=
  match findProjectById db projectId with
  | none => ⟨404, none, db⟩
  | some project =>
    let existingAccess :=
      project.accessibleBy.find? (fun access => decide (access.user = userId))
    let hasEditorAccess : Bool :=
      match existingAccess with
      | some access => [AccessType.creator, AccessType.editor].contains access.accessType
      | none => false
    if hasEditorAccess then ⟨400, none, db⟩
    else
      let existingRequest := project.accessRequests.find? (fun request =>
        decide (request.user = userId ∧ request.status = Status.pending))
      if existingRequest.isSome then ⟨400, none, db⟩
      else
        match RequestType.ofString? (body.requestType.getD "editor") with
        | none => ⟨500, none, db⟩
        | some requestType =>
          let request : AccessRequest :=
            { id := newId, user := userId, requestType := requestType,
              message := if truthy body.message then body.message.getD ""
                else "No message provided",
              requestedAt := now, status := Status.pending }
          let updated : Project :=
            { project with accessRequests := project.accessRequests ++ [request] }
          let db1 := Project.save db updated now
          match logActivity db1 projectId userId "access_requested"
              ("Requested " ++ body.requestType.getD "editor" ++ " access") with
          | none => ⟨500, none, db1⟩
          | some db2 => ⟨200, some (), db2⟩

/-! ## Requests and reachable states -/

/-- The middleware `checkProjectAccess(accessLevel)` (middleware/auth.js, lines
57-115): the project it puts in `req.project`, or the status it answers. -/
def checkProjectAccess (db : Db) (userId : UserId) (projectId : ProjectId)
    (accessLevel : String) : Except Nat Project :=
  match findProjectById db projectId with
  | none => Except.error 404
  | some project =>
    if !project.hasAccess userId accessLevel then Except.error 403
    else Except.ok project

/-- A request to one of the routes that create a project, manage its members and
access requests, or act on its versions (routes/project.routes.js, lines 130 and
214-224; routes/version.routes.js, lines 19-38). -/
inductive Request where
  | createProject (userId : UserId) (body : ProjectBody) (now : Nat) (newId : ProjectId)
  | addUserToProject (userId : UserId) (projectId : ProjectId) (body : AddUserBody) (now : Nat)
  | removeUserFromProject (userId : UserId) (projectId : ProjectId) (userIdToRemove : UserId)
      (now : Nat)
  | requestAccess (userId : UserId) (projectId : ProjectId) (body : RequestAccessBody)
      (now : Nat) (newId : RequestId)
  | handleAccessRequest (userId : UserId) (projectId : ProjectId) (requestId : RequestId)
      (body : HandleRequestBody) (now : Nat)
  | createVersion (userId : UserId) (projectId : ProjectId) (body : VersionBody) (now : Nat)
      (newId : VersionId)
  | updateVersionStatus (userId : UserId) (projectId : ProjectId) (versionId : VersionId)
      (body : StatusBody) (now : Nat) (s3 : S3)
  | deleteVersion (userId : UserId) (projectId : ProjectId) (versionId : VersionId)
      (now : Nat) (s3 : S3)
  | revertToVersion (userId : UserId) (projectId : ProjectId) (versionId : VersionId)
      (now : Nat) (s3 : S3)

/-- The database after a request went through its route: the access middleware
with the level of the route (the creation of a project and `request-access` have
none), then the controller.  MongoDB refuses to insert a
document under an `_id` that is in use, which makes `Project.create` and
`Version.create` throw before anything is stored. -/
def handle (db : Db) : Request → Db
  | Request.createProject userId body now newId =>
    if db.projects.any (fun p => decide (p.id = newId)) then db
    else (createProject db userId body now newId).db
  | Request.addUserToProject userId projectId body now =>
    match checkProjectAccess db userId projectId "admin" with
    | Except.error _ => db
    | Except.ok _ => (addUserToProject db userId projectId body now).db
  | Request.removeUserFromProject userId projectId userIdToRemove now =>
    match checkProjectAccess db userId projectId "admin" with
    | Except.error _ => db
    | Except.ok _ => (removeUserFromProject db userId projectId userIdToRemove now).db
  | Request.requestAccess userId projectId body now newId =>
    (requestAccess db userId projectId body now newId).db
  | Request.handleAccessRequest userId projectId requestId body now =>
    match checkProjectAccess db userId projectId "admin" with
    | Except.error _ => db
    | Except.ok _ => (handleAccessRequest db userId projectId requestId body now).db
  | Request.createVersion userId projectId body now newId =>
    match checkProjectAccess db userId projectId "edit" with
    | Except.error _ => db
    | Except.ok project =>
      if db.versions.any (fun v => decide (v.id = newId)) then db
      else (createVersion db project userId body now newId).db
  | Request.updateVersionStatus userId projectId versionId body now s3 =>
    match checkProjectAccess db userId projectId "admin" with
    | Except.error _ => db
    | Except.ok project => (updateVersionStatus db s3 project userId versionId body now).db
  | Request.deleteVersion userId projectId versionId now s3 =>
    match checkProjectAccess db userId projectId "admin" with
    | Except.error _ => db
    | Except.ok project => (deleteVersion db s3 project userId versionId now).db
  | Request.revertToVersion userId projectId versionId now s3 =>
    match checkProjectAccess db userId projectId "admin" with
    | Except.error _ => db
    | Except.ok project => (revertToVersion db s3 project userId versionId now).db

/-- The database after a sequence of requests, handled one after the other. -/
def run (db : Db) (requests : List Request) : Db :=
  requests.foldl handle db

/-- A database with users only: no project has been created yet. -/
def initialDb (users : List User) : Db :=
  { users := users, projects := [], versions := [], activities := [] }

/-- The id `id` is the id of a stored approved version of the project. -/
def RefersToApproved (versions : List Version) (projectId : ProjectId) (id : VersionId) :
    Prop :=
  ∃ v ∈ versions, v.id = id ∧ v.project = projectId ∧ v.status = Status.approved

/-- The current version of a project, when it has one, and every id of its
`versions` list refer to stored approved versions of the project. -/
def ProjectOk (versions : List Version) (p : Project) : Prop :=
  (∀ c, p.currentVersion = some c → RefersToApproved versions p.id c) ∧
  (∀ id ∈ p.versions, RefersToApproved versions p.id id)

/-- The state invariant of the version lifecycle: version ids are unique and every
project refers to stored approved versions of its own. -/
def WellFormed (db : Db) : Prop :=
  (db.versions.map (fun v => v.id)).Nodup ∧ ∀ p ∈ db.projects, ProjectOk db.versions p

/-- The second database holds the same versions as the first and each of its
projects is a project of the first with the same current version and the same
`versions` list: what a change of members or access requests leaves in place. -/
def VersionsUntouched (db db2 : Db) : Prop :=
  db2.versions = db.versions ∧
  ∀ p2 ∈ db2.projects, ∃ p ∈ db.projects,
    p2.id = p.id ∧ p2.currentVersion = p.currentVersion ∧ p2.versions = p.versions

/-! ## The access-request workflow -/

/-- A request to one of the routes of the access-request workflow, or the creation
of a project (routes/project.routes.js, lines 130 and 222-224). -/
inductive AccessCall where
  | createProject (userId : UserId) (body : ProjectBody) (now : Nat) (newId : ProjectId)
  | requestAccess (userId : UserId) (projectId : ProjectId) (body : RequestAccessBody)
      (now : Nat) (newId : RequestId)
  | handleAccessRequest (userId : UserId) (projectId : ProjectId) (requestId : RequestId)
      (body : HandleRequestBody) (now : Nat)

/-- The database after a call of the access-request workflow went through its
route: `request-access` has no access middleware, `access-requests/:requestId`
asks for admin access first. -/
def handleAccess (db : Db) : AccessCall → Db
  | AccessCall.createProject userId body now newId =>
    if db.projects.any (fun p => decide (p.id = newId)) then db
    else (createProject db userId body now newId).db
  | AccessCall.requestAccess userId projectId body now newId =>
    (requestAccess db userId projectId body now newId).db
  | AccessCall.handleAccessRequest userId projectId requestId body now =>
    match checkProjectAccess db userId projectId "admin" with
    | Except.error _ => db
    | Except.ok _ => (handleAccessRequest db userId projectId requestId body now).db

/-- The database after a sequence of calls of the access-request workflow. -/
def runAccess (db : Db) (calls : List AccessCall) : Db :=
  calls.foldl handleAccess db

/-- The pending access requests of a user on a project. -/
def pendingRequests (p : Project) (userId : UserId) : List AccessRequest :=
  p.accessRequests.filter (fun request =>
    decide (request.user = userId ∧ request.status = Status.pending))

/-- The entries of `accessibleBy` whose type is creator. -/
def creatorEntries (p : Project) : List AccessEntry :=
  p.accessibleBy.filter (fun access => decide (access.accessType = AccessType.creator))

/-! ## Sample data -/

/-- A user directory with two users and no project. -/
def sampleDb : Db :=
  { users := [⟨1, "a@x.io", "Ann"⟩, ⟨2, "b@x.io", "Bob"⟩],
    projects := [], versions := [], activities := [] }

/-- A project of user 1 with an editor 2 and a viewer 3. -/
def sampleProject : Project :=
  { id := 10, name := "P", description := "", creator := 1, currentVersion := none,
    versions := [],
    accessibleBy := [⟨1, AccessType.creator, 0⟩, ⟨2, AccessType.editor, 0⟩,
      ⟨3, AccessType.viewer, 0⟩],
    accessRequests := [] }

/-- The project that user 1 creates in `sampleDb` and then adds their own email to as
a viewer: a viewer entry of user 1 stands in front of a creator entry. -/
def shadowedProject : Project :=
  { id := 10, name := "P", description := "", creator := 1, currentVersion := none,
    versions := [],
    accessibleBy := [⟨1, AccessType.viewer, 5⟩, ⟨1, AccessType.creator, 0⟩,
      ⟨2, AccessType.viewer, 0⟩],
    accessRequests := [] }

/-- The project that user 1 creates in `sampleDb`, as `createProject` stores it. -/
def createdProject : Project :=
  { id := 10, name := "P", description := "", creator := 1, currentVersion := none,
    versions := [],
    accessibleBy := [⟨1, AccessType.creator, 0⟩, ⟨1, AccessType.creator, 0⟩,
      ⟨2, AccessType.viewer, 0⟩],
    accessRequests := [] }

/-- A project with a single creator entry, an editor, a viewer and a pending access
request of the viewer. -/
def requestProject : Project :=
  { sampleProject with accessRequests := [⟨7, 3, RequestType.editor, "need to edit", 0, Status.pending⟩] }

/-- A database that holds `requestProject` and its three users. -/
def requestDb : Db :=
  { users := [⟨1, "a@x.io", "Ann"⟩, ⟨2, "b@x.io", "Bob"⟩, ⟨3, "c@x.io", "Cy"⟩],
    projects := [requestProject], versions := [], activities := [] }

/-- The database after user 1 created project "P" in `sampleDb`. -/
def createdDb : Db :=
  { sampleDb with
      projects := [createdProject],
      activities := [⟨10, 1, "project_created", "Project P created"⟩] }

/-- An upload body with a file URL and a file name only. -/
def plainBody : VersionBody :=
  { fileUrl := some "https://files/one", fileName := some "one.txt", fileSize := none,
    fileType := none, notes := none, key := none, versionNumber := none }

/-- The creator uploads a first file to the created project, with no version
number in the body. -/
def firstUpload : Reply Version :=
  createVersion createdDb createdProject 1 plainBody 1 100

/-- The creator uploads a second file and the body carries `versionNumber: 1`; the
project is loaded again from the database, as the access middleware does. -/
def secondUpload : Reply Version :=
  createVersion firstUpload.db ((findProjectById firstUpload.db 10).getD createdProject) 1
    { plainBody with versionNumber := some 1 } 2 101

/-- The creator uploads a first file and the body carries the version number
`2 ^ 53`, which is stored as given. -/
def largeUpload : Reply Version :=
  createVersion createdDb createdProject 1
    { plainBody with versionNumber := some 9007199254740992 } 1 100

/-- The creator uploads a second file after `largeUpload`, with no version number
in the body; the project is loaded again from the database. -/
def uploadAfterLarge : Reply Version :=
  createVersion largeUpload.db ((findProjectById largeUpload.db 10).getD createdProject) 1
    plainBody 2 101

/-- A stored version of project 10 uploaded by user 2. -/
def sampleVersion (id : VersionId) (number : Int) (status : Status) (key : Option String)
    (fileUrl : String) : Version :=
  { id := id, project := 10, versionNumber := number, fileUrl := fileUrl, key := key,
    fileName := "report.txt", fileSize := 12, fileType := "text/plain", uploadedBy := 2,
    status := status, notes := "", approvedBy := none, approvedAt := none }

/-- A project of user 1 whose current version is version 101 of two approved
versions. -/
def lifecycleProject : Project :=
  { id := 10, name := "P", description := "", creator := 1, currentVersion := some 101,
    versions := [100, 101],
    accessibleBy := [⟨1, AccessType.creator, 0⟩, ⟨2, AccessType.editor, 0⟩],
    accessRequests := [] }

/-- A database with `lifecycleProject`: two approved versions, a pending version
with a stored key, a pending version without one and a rejected version. -/
def lifecycleDb : Db :=
  { users := [⟨1, "a@x.io", "Ann"⟩, ⟨2, "b@x.io", "Bob"⟩],
    projects := [lifecycleProject],
    versions :=
      [sampleVersion 100 1 Status.approved (some "projects/10/v1.txt")
         "https://vault.s3.amazonaws.com/projects/10/v1.txt",
       sampleVersion 101 2 Status.approved none
         "https://vault.s3.amazonaws.com/projects/10/v2.txt",
       sampleVersion 102 3 Status.pending (some "projects/10/v3.txt")
         "https://vault.s3.amazonaws.com/projects/10/v3.txt",
       sampleVersion 103 4 Status.pending none
         "https://vault.s3.amazonaws.com/projects/10/v4.txt",
       sampleVersion 104 5 Status.rejected none "https://elsewhere/v5.txt"],
    activities := [] }

/-- Object storage that accepts every delete. -/
def workingS3 : S3 := fun _ => true

/-- Object storage that fails every delete. -/
def failingS3 : S3 := fun _ => false

/-- User 1 creates project 10, makes user 2 an editor and uploads a file, which is
approved at once.  The editor uploads three files, which are pending: the creator
approves the first and rejects the second, and the third stays pending. -/
def sampleRequests : List Request :=
  [Request.createProject 1 ⟨some "P", none⟩ 0 10,
   Request.addUserToProject 1 10 ⟨some "b@x.io", some "editor"⟩ 1,
   Request.createVersion 1 10 plainBody 2 100,
   Request.createVersion 2 10 plainBody 3 101,
   Request.updateVersionStatus 1 10 101 ⟨some "approved", none⟩ 4 workingS3,
   Request.createVersion 2 10 plainBody 5 102,
   Request.updateVersionStatus 1 10 102 ⟨some "rejected", none⟩ 6 workingS3,
   Request.createVersion 2 10 plainBody 7 103]

/-- The database after `sampleRequests`, starting from the sample user directory. -/
def sampleRun : Db :=
  run (initialDb sampleDb.users) sampleRequests

/-- The first upload of `sampleRequests` as it is stored. -/
def firstStored : Version :=
  { id := 100, project := 10, versionNumber := 1, fileUrl := "https://files/one", key := none,
    fileName := "one.txt", fileSize := 0, fileType := "application/octet-stream",
    uploadedBy := 1, status := Status.approved, notes := "", approvedBy := some 1,
    approvedAt := some 2 }

/-- The project of `sampleRun`: user 2 is an editor, the two approved versions are
listed and the one that the creator approved is current. -/
def sampleRunProject : Project :=
  { createdProject with
      accessibleBy := [⟨1, AccessType.creator, 0⟩, ⟨1, AccessType.creator, 0⟩,
        ⟨2, AccessType.editor, 1⟩],
      currentVersion := some 101, versions := [100, 101] }

/-- The database after user 1 created project "P" in `sampleDb` and added their own
email as a viewer; it holds `shadowedProject`. -/
def shadowedDb : Db :=
  (addUserToProject (createProject sampleDb 1 ⟨some "P", none⟩ 0 10).db 1 10
    ⟨some "a@x.io", some "viewer"⟩ 5).db

/-- User 1 creates project 10; the viewer 2 asks for access twice, is rejected once
and asks again. -/
def sampleAccessCalls : List AccessCall :=
  [AccessCall.createProject 1 ⟨some "P", none⟩ 0 10,
   AccessCall.requestAccess 2 10 ⟨some "need to edit", none⟩ 1 70,
   AccessCall.requestAccess 2 10 ⟨some "please", none⟩ 2 71,
   AccessCall.handleAccessRequest 1 10 70 ⟨some "rejected", none⟩ 3,
   AccessCall.requestAccess 2 10 ⟨some "once more", none⟩ 4 72]

/-- The project after `sampleAccessCalls`: request 70 is rejected, request 72 is
pending and request 71 was refused. -/
def sampleAccessProject : Project :=
  { createdProject with
      accessRequests :=
        [⟨70, 2, RequestType.editor, "need to edit", 1, Status.rejected⟩,
         ⟨72, 2, RequestType.editor, "once more", 4, Status.pending⟩] }

/-- A project of user 1 with two approved versions, the second being current. -/
def mismatchProject : Project :=
  { lifecycleProject with currentVersion := some 106, versions := [100, 106] }

/-- A database in which the file URL of a version does not spell its stored key:
version 106 has a key with a space, which the URL escapes, and the pending
version 107 is served from another host. -/
def mismatchDb : Db :=
  { users := [⟨1, "a@x.io", "Ann"⟩, ⟨2, "b@x.io", "Bob"⟩],
    projects := [mismatchProject],
    versions :=
      [sampleVersion 100 1 Status.approved (some "projects/10/v1.txt")
         "https://vault.s3.amazonaws.com/projects/10/v1.txt",
       sampleVersion 106 2 Status.approved (some "projects/10/v2 final.txt")
         "https://vault.s3.amazonaws.com/projects/10/v2%20final.txt",
       sampleVersion 107 3 Status.pending (some "projects/10/v3.txt")
         "https://cdn.vault.io/files/v3.txt"],
    activities := [] }

/-! ## Access policy -/

/-- The lookup of `hasAccess` spelled out: the answer is decided by the first entry
of the user. -/
theorem hasAccess_eq_find (p : Project) (userId : UserId) (level : String) :
    p.hasAccess userId level =
      match p.accessibleBy.find? (fun access => decide (access.user = userId)) with
      | none => false
      | some userAccess =>
        if level = "view" then true
        else if level = "edit" then
          decide (userAccess.accessType = AccessType.creator ∨
            userAccess.accessType = AccessType.editor)
        else if level = "admin" then decide (userAccess.accessType = AccessType.creator)
        else false := by
  unfold Project.hasAccess
  cases h : p.accessibleBy.find? (fun access => decide (access.user = userId)) with
  | none => rfl
  | some e =>
    cases ht : e.accessType <;> simp [ht]

/-- The first entry of a user, as a split of the access list. -/
theorem find_user_eq_some (l : List AccessEntry) (userId : UserId) (e : AccessEntry) :
    l.find? (fun access => decide (access.user = userId)) = some e ↔
      e.user = userId ∧ ∃ before after, l = before ++ e :: after ∧
        ∀ x ∈ before, x.user ≠ userId := by
  rw [List.find?_eq_some]
  simp

/-- View access is the presence of an entry of the user. -/
theorem hasAccess_view_iff_mem (p : Project) (userId : UserId) :
    p.hasAccess userId "view" = true ↔ ∃ e ∈ p.accessibleBy, e.user = userId := by
  rw [hasAccess_eq_find]
  cases h : p.accessibleBy.find? (fun access => decide (access.user = userId)) with
  | none =>
    simp only [List.find?_eq_none, decide_eq_true_eq] at h
    constructor
    · intro hf
      cases hf
    · rintro ⟨e, he, hu⟩
      exact absurd hu (h e he)
  | some e =>
    constructor
    · intro _
      exact ⟨e, List.mem_of_find?_eq_some h, by simpa using List.find?_some h⟩
    · intro _
      simp

/-- C1: `hasAccess(userId, 'view')` is true exactly when `accessibleBy` holds an
entry of that user, whatever its type, and it is false on an empty access list. -/
theorem hasAccess_view_iff (p : Project) (userId : UserId) :
    (p.hasAccess userId "view" = true ↔ ∃ e ∈ p.accessibleBy, e.user = userId) ∧
    ({ p with accessibleBy := [] } : Project).hasAccess userId "view" = false :=
  ⟨hasAccess_view_iff_mem p userId, rfl⟩

/-- C2, refuted as stated: after user 1 creates a project and adds their own email as
a viewer, user 1 still has a creator entry in `accessibleBy`, yet neither
`hasAccess(1, 'edit')` nor `hasAccess(1, 'admin')` holds, because the lookup stops
at the viewer entry in front of it. -/
theorem hasAccess_ignores_later_entries :
    (addUserToProject (createProject sampleDb 1 ⟨some "P", none⟩ 0 10).db 1 10
      ⟨some "a@x.io", some "viewer"⟩ 5).data = some shadowedProject ∧
    (∃ e ∈ shadowedProject.accessibleBy, e.user = 1 ∧
      (e.accessType = AccessType.creator ∨ e.accessType = AccessType.editor)) ∧
    shadowedProject.hasAccess 1 "edit" = false ∧
    (∃ e ∈ shadowedProject.accessibleBy, e.user = 1 ∧ e.accessType = AccessType.creator) ∧
    shadowedProject.hasAccess 1 "admin" = false := by
  refine ⟨by decide, ⟨⟨1, AccessType.creator, 0⟩, by decide, rfl, Or.inl rfl⟩, by decide,
    ⟨⟨1, AccessType.creator, 0⟩, by decide, rfl, rfl⟩, by decide⟩

/-- C2, amended: `hasAccess(userId, 'edit')` is true exactly when the first entry of
the user in `accessibleBy` has type creator or editor, and `hasAccess(userId,
'admin')` exactly when that first entry has type creator. -/
theorem hasAccess_edit_admin_first_entry (p : Project) (userId : UserId) :
    (p.hasAccess userId "edit" = true ↔
      ∃ before e after, p.accessibleBy = before ++ e :: after ∧
        (∀ x ∈ before, x.user ≠ userId) ∧ e.user = userId ∧
        (e.accessType = AccessType.creator ∨ e.accessType = AccessType.editor)) ∧
    (p.hasAccess userId "admin" = true ↔
      ∃ before e after, p.accessibleBy = before ++ e :: after ∧
        (∀ x ∈ before, x.user ≠ userId) ∧ e.user = userId ∧
        e.accessType = AccessType.creator) := by
  constructor
  · rw [hasAccess_eq_find]
    cases h : p.accessibleBy.find? (fun access => decide (access.user = userId)) with
    | none =>
      simp only [List.find?_eq_none, decide_eq_true_eq] at h
      constructor
      · intro hf
        cases hf
      · rintro ⟨before, e, after, hl, _, hu, _⟩
        exact absurd hu (h e (by simp [hl]))
    | some e =>
      obtain ⟨hu, before, after, hl, hb⟩ := (find_user_eq_some _ _ _).1 h
      constructor
      · intro ht
        exact ⟨before, e, after, hl, hb, hu, by simpa using ht⟩
      · rintro ⟨before2, e2, after2, hl2, hb2, hu2, ht2⟩
        have h2 := (find_user_eq_some p.accessibleBy userId e2).2 ⟨hu2, before2, after2, hl2, hb2⟩
        rw [h] at h2
        cases h2
        simpa using ht2
  · rw [hasAccess_eq_find]
    cases h : p.accessibleBy.find? (fun access => decide (access.user = userId)) with
    | none =>
      simp only [List.find?_eq_none, decide_eq_true_eq] at h
      constructor
      · intro hf
        cases hf
      · rintro ⟨before, e, after, hl, _, hu, _⟩
        exact absurd hu (h e (by simp [hl]))
    | some e =>
      obtain ⟨hu, before, after, hl, hb⟩ := (find_user_eq_some _ _ _).1 h
      constructor
      · intro ht
        exact ⟨before, e, after, hl, hb, hu, by simpa using ht⟩
      · rintro ⟨before2, e2, after2, hl2, hb2, hu2, ht2⟩
        have h2 := (find_user_eq_some p.accessibleBy userId e2).2 ⟨hu2, before2, after2, hl2, hb2⟩
        rw [h] at h2
        cases h2
        simpa using ht2

/-- C3: privilege is monotone, admin access implies edit access and edit access
implies view access. -/
theorem hasAccess_monotone (p : Project) (userId : UserId) :
    (p.hasAccess userId "admin" = true → p.hasAccess userId "edit" = true) ∧
    (p.hasAccess userId "edit" = true → p.hasAccess userId "view" = true) := by
  simp only [hasAccess_eq_find]
  cases h : p.accessibleBy.find? (fun access => decide (access.user = userId)) with
  | none => simp
  | some e =>
    constructor
    · intro ht
      have hc : e.accessType = AccessType.creator := by simpa using ht
      simp [hc]
    · intro _
      simp

/-- C3 at the creator of the sample project: admin, hence edit, hence view. -/
theorem hasAccess_monotone_witness :
    sampleProject.hasAccess 1 "admin" = true ∧ sampleProject.hasAccess 1 "edit" = true ∧
      sampleProject.hasAccess 1 "view" = true :=
  ⟨by decide, (hasAccess_monotone sampleProject 1).1 (by decide),
    (hasAccess_monotone sampleProject 1).2 ((hasAccess_monotone sampleProject 1).1 (by decide))⟩

/-! ## Project creation -/

/-- Logging an action of the Activity enum appends one activity and touches no
other collection. -/
theorem logActivity_of_mem (db : Db) (projectId : ProjectId) (userId : UserId)
    (action details : String) (h : activityActions.contains action = true) :
    logActivity db projectId userId action details =
      some { db with activities := db.activities ++
        [{ project := projectId, user := userId, action := action, details := details }] } := by
  unfold logActivity
  rw [if_pos h]

/-- What a successful `createProject` hands back: the creator is entered twice, by
the pre-save hook and by the controller, followed by one viewer entry per other
user of the directory. -/
theorem createProject_data (db : Db) (userId : UserId) (body : ProjectBody) (now : Nat)
    (newId : ProjectId) (p : Project)
    (h : (createProject db userId body now newId).data = some p) :
    p.id = newId ∧ p.creator = userId ∧
    p.accessibleBy =
      [⟨userId, AccessType.creator, now⟩, ⟨userId, AccessType.creator, now⟩] ++
        (db.users.filter (fun user => decide (user.id ≠ userId))).map
          (fun user => ⟨user.id, AccessType.viewer, now⟩) := by
  unfold createProject at h
  split at h
  · cases h
  · unfold Project.create at h
    simp only [] at h
    split at h
    · cases h
    · rename_i created db1 hc
      split at hc
      · cases hc
      · simp only [Option.some.injEq, Prod.mk.injEq] at hc
        obtain ⟨hcreated, hdb1⟩ := hc
        subst hcreated
        subst hdb1
        rw [logActivity_of_mem _ _ _ _ _ (by decide)] at h
        simp only [Option.some.injEq] at h
        subst h
        generalize db.users.filter (fun user => decide (user.id ≠ userId)) = others
        cases others with
        | nil => simp [Project.preSave]
        | cons a l => simp [Project.preSave]

/-- C4, as the code behaves: every project handed back by `createProject` has two
creator entries in `accessibleBy`, both of the creator, instead of exactly one. -/
theorem createProject_two_creator_entries (db : Db) (userId : UserId) (body : ProjectBody)
    (now : Nat) (newId : ProjectId) (p : Project)
    (h : (createProject db userId body now newId).data = some p) :
    p.creator = userId ∧
    creatorEntries p = [⟨userId, AccessType.creator, now⟩, ⟨userId, AccessType.creator, now⟩] ∧
    (creatorEntries p).length = 2 := by
  obtain ⟨_, hcr, hacc⟩ := createProject_data db userId body now newId p h
  have hent : creatorEntries p =
      [⟨userId, AccessType.creator, now⟩, ⟨userId, AccessType.creator, now⟩] := by
    unfold creatorEntries
    rw [hacc]
    simp [List.filter_cons, List.filter_map]
  exact ⟨hcr, hent, by rw [hent]; rfl⟩

/-- C4 on a run: user 1 creates project "P" in the sample directory and is entered
twice as creator. -/
theorem createProject_two_creator_entries_witness :
    (createProject sampleDb 1 ⟨some "P", none⟩ 0 10).data = some createdProject ∧
    (creatorEntries createdProject).length = 2 :=
  ⟨by decide, (createProject_two_creator_entries sampleDb 1 ⟨some "P", none⟩ 0 10
    createdProject (by decide)).2.2⟩

/-- C5, as the code behaves: `requestProject` has exactly one creator entry, the one
of its creator, user 1.  Approving the request of user 3 with granted type
`creator` answers 200 and leaves two creator entries; adding the creator's own
email as editor answers 200 and leaves none. -/
theorem membership_breaks_creator_invariant :
    (creatorEntries requestProject = [⟨1, AccessType.creator, 0⟩] ∧
      requestProject.creator = 1) ∧
    ((handleAccessRequest requestDb 1 10 7 ⟨some "approved", some "creator"⟩ 9).status = 200 ∧
      (findProjectById
          (handleAccessRequest requestDb 1 10 7 ⟨some "approved", some "creator"⟩ 9).db 10).map
        creatorEntries = some [⟨1, AccessType.creator, 0⟩, ⟨3, AccessType.creator, 0⟩]) ∧
    ((addUserToProject requestDb 1 10 ⟨some "a@x.io", some "editor"⟩ 9).status = 200 ∧
      (findProjectById
          (addUserToProject requestDb 1 10 ⟨some "a@x.io", some "editor"⟩ 9).db 10).map
        creatorEntries = some []) := by
  refine ⟨⟨by decide, rfl⟩, ⟨by decide, by decide⟩, ⟨by decide, by decide⟩⟩

/-- C6, refuted as stated: user 1 creates a project while user 2 is in the user
directory, and user 2, who is not the creator, can view it at once. -/
theorem createProject_grants_view_to_existing_users :
    (createProject sampleDb 1 ⟨some "P", none⟩ 0 10).data = some createdProject ∧
    createdProject.creator ≠ 2 ∧ createdProject.hasAccess 2 "view" = true := by
  refine ⟨by decide, by decide, by decide⟩

/-- C6, amended: right after user A creates a project, a user B other than A can
view it exactly when B was in the user directory at creation time; a user who was
not in it has no view access. -/
theorem createProject_view_iff_in_directory (db : Db) (userId : UserId) (body : ProjectBody)
    (now : Nat) (newId : ProjectId) (p : Project) (other : UserId)
    (h : (createProject db userId body now newId).data = some p) (hother : other ≠ userId) :
    (p.hasAccess other "view" = true ↔ ∃ u ∈ db.users, u.id = other) ∧
    ((∀ u ∈ db.users, u.id ≠ other) → p.hasAccess other "view" = false) := by
  obtain ⟨_, _, hacc⟩ := createProject_data db userId body now newId p h
  have hiff : p.hasAccess other "view" = true ↔ ∃ u ∈ db.users, u.id = other := by
    rw [hasAccess_view_iff_mem, hacc]
    constructor
    · rintro ⟨e, he, hu⟩
      simp only [List.cons_append, List.nil_append, List.mem_cons, List.mem_map,
        List.mem_filter] at he
      rcases he with rfl | rfl | ⟨u, ⟨hmem, _⟩, rfl⟩
      · exact absurd hu.symm hother
      · exact absurd hu.symm hother
      · exact ⟨u, hmem, hu⟩
    · rintro ⟨u, hmem, hu⟩
      refine ⟨⟨u.id, AccessType.viewer, now⟩, ?_, hu⟩
      simp only [List.cons_append, List.nil_append, List.mem_cons, List.mem_map,
        List.mem_filter]
      refine Or.inr (Or.inr ⟨u, ⟨hmem, ?_⟩, rfl⟩)
      simpa [hu] using hother
  refine ⟨hiff, fun hno => ?_⟩
  cases hv : p.hasAccess other "view" with
  | false => rfl
  | true =>
    obtain ⟨u, hmem, hu⟩ := hiff.1 hv
    exact absurd hu (hno u hmem)

/-- C6 on a run: user 3 is not in the sample directory and cannot view the project
that user 1 creates. -/
theorem createProject_view_iff_in_directory_witness :
    (createProject sampleDb 1 ⟨some "P", none⟩ 0 10).data = some createdProject ∧
    (3 : UserId) ≠ 1 ∧ (∀ u ∈ sampleDb.users, u.id ≠ 3) ∧
    createdProject.hasAccess 3 "view" = false :=
  ⟨by decide, by decide, by decide,
    (createProject_view_iff_in_directory sampleDb 1 ⟨some "P", none⟩ 0 10 createdProject 3
      (by decide) (by decide)).2 (by decide)⟩

/-! ## Version upload -/

/-- Saving a project that was loaded from the database stores the new contents
under the same id. -/
theorem find_map_replace (l : List Project) (i : ProjectId) (p0 p : Project) (hid : p.id = i)
    (h : l.find? (fun q => decide (q.id = i)) = some p0) :
    (l.map (fun q => if q.id = i then p else q)).find? (fun q => decide (q.id = i)) = some p := by
  induction l with
  | nil => simp at h
  | cons x xs ih =>
    by_cases hx : x.id = i
    · simp [List.find?_cons, hx, hid]
    · simp only [List.find?_cons, hx, decide_False] at h
      simp [List.find?_cons, hx, ih h]

/-- The same fact for `Project.save` and `findProjectById`, whatever the other
collections hold. -/
theorem findProjectById_save (db : Db) (p0 p : Project) (now : Nat) (hid : p.id = p0.id)
    (h : db.projects.find? (fun q => decide (q.id = p0.id)) = some p0) :
    findProjectById (Project.save db p now) p0.id = some p := by
  unfold findProjectById Project.save Project.preSave
  simp only [Bool.false_eq_true, if_false, hid]
  exact find_map_replace db.projects p0.id p0 p hid h

/-- The greatest element found by the descending sort belongs to the list and
bounds every version number of the list. -/
theorem maxByVersionNumber_some (l : List Version) (m : Version)
    (h : maxByVersionNumber l = some m) :
    m ∈ l ∧ ∀ w ∈ l, w.versionNumber ≤ m.versionNumber := by
  induction l generalizing m with
  | nil => simp [maxByVersionNumber] at h
  | cons v vs ih =>
    unfold maxByVersionNumber at h
    cases hm : maxByVersionNumber vs with
    | none =>
      rw [hm] at h
      simp only [Option.some.injEq] at h
      subst h
      have hnil : vs = [] := by
        cases vs with
        | nil => rfl
        | cons a as =>
          unfold maxByVersionNumber at hm
          cases h2 : maxByVersionNumber as with
          | none => rw [h2] at hm; cases hm
          | some w => rw [h2] at hm; simp only [] at hm; split at hm <;> cases hm
      subst hnil
      simp
    | some w =>
      rw [hm] at h
      obtain ⟨hw, hle⟩ := ih w hm
      simp only [] at h
      split at h
      · rename_i hcmp
        simp only [Option.some.injEq] at h
        subst h
        refine ⟨List.mem_cons_self _ _, ?_⟩
        intro x hx
        rcases List.mem_cons.1 hx with rfl | hx
        · exact le_refl _
        · exact le_trans (hle x hx) hcmp
      · rename_i hcmp
        simp only [Option.some.injEq] at h
        subst h
        refine ⟨List.mem_cons_of_mem _ hw, ?_⟩
        intro x hx
        rcases List.mem_cons.1 hx with rfl | hx
        · exact le_of_lt (not_le.1 hcmp)
        · exact hle x hx

/-- The descending sort finds nothing only in an empty list. -/
theorem maxByVersionNumber_none (l : List Version) (h : maxByVersionNumber l = none) :
    l = [] := by
  cases l with
  | nil => rfl
  | cons a as =>
    unfold maxByVersionNumber at h
    cases h2 : maxByVersionNumber as with
    | none => rw [h2] at h; cases h
    | some w => rw [h2] at h; simp only [] at h; split at h <;> cases h

/-- C7: when the creator uploads a file URL and a name, the new version is approved
by the uploader, the stored project points at it as current version, and the new
id is appended to `versions`, where it occurs exactly once. -/
theorem createVersion_by_creator (db : Db) (project : Project) (body : VersionBody)
    (now : Nat) (newId : VersionId)
    (hurl : truthy body.fileUrl = true) (hname : truthy body.fileName = true)
    (hload : findProjectById db project.id = some project)
    (hfresh : newId ∉ project.versions) :
    (createVersion db project project.creator body now newId).status = 201 ∧
    ∃ v stored,
      (createVersion db project project.creator body now newId).data = some v ∧
      v ∈ (createVersion db project project.creator body now newId).db.versions ∧
      v.id = newId ∧ v.project = project.id ∧ v.uploadedBy = project.creator ∧
      v.status = Status.approved ∧ v.approvedBy = some project.creator ∧
      v.approvedAt = some now ∧
      findProjectById (createVersion db project project.creator body now newId).db project.id
        = some stored ∧
      stored.currentVersion = some newId ∧
      stored.versions = project.versions ++ [newId] ∧
      stored.versions.count newId = 1 := by
  have hcontains : project.versions.contains newId = false := by
    simpa using hfresh
  have hcount : (project.versions ++ [newId]).count newId = 1 := by
    rw [List.count_append, List.count_eq_zero_of_not_mem hfresh]
    simp
  unfold createVersion
  simp only [hurl, hname, Bool.not_true, Bool.or_self, Bool.false_eq_true, if_false,
    decide_True, if_true, hcontains]
  rw [logActivity_of_mem _ _ _ _ _ (by decide)]
  refine ⟨rfl, _,
    { project with currentVersion := some newId, versions := project.versions ++ [newId] },
    rfl, ?_, rfl, rfl, rfl, rfl, rfl, rfl, ?_, rfl, rfl, hcount⟩
  · simp [Project.save]
  · exact findProjectById_save _ project _ now rfl hload

/-- C7 on a run: the creator of the created project uploads a first file. -/
theorem createVersion_by_creator_witness :
    truthy plainBody.fileUrl = true ∧ truthy plainBody.fileName = true ∧
    findProjectById createdDb createdProject.id = some createdProject ∧
    (100 : VersionId) ∉ createdProject.versions ∧
    (createVersion createdDb createdProject createdProject.creator plainBody 1 100).status
      = 201 :=
  ⟨by decide, by decide, by decide, by decide,
    (createVersion_by_creator createdDb createdProject plainBody 1 100 (by decide) (by decide)
      (by decide) (by decide)).1⟩

/-- C8: when a user other than the creator uploads a file URL and a name, the new
version is pending with no approver and no approval date, and the Project
collection, hence the project's `currentVersion` and `versions`, is unchanged. -/
theorem createVersion_by_other (db : Db) (project : Project) (userId : UserId)
    (body : VersionBody) (now : Nat) (newId : VersionId)
    (hurl : truthy body.fileUrl = true) (hname : truthy body.fileName = true)
    (hother : userId ≠ project.creator) :
    (createVersion db project userId body now newId).status = 201 ∧
    (∃ v,
      (createVersion db project userId body now newId).data = some v ∧
      v ∈ (createVersion db project userId body now newId).db.versions ∧
      v.id = newId ∧ v.project = project.id ∧ v.uploadedBy = userId ∧
      v.status = Status.pending ∧ v.approvedBy = none ∧ v.approvedAt = none) ∧
    (createVersion db project userId body now newId).db.projects = db.projects ∧
    findProjectById (createVersion db project userId body now newId).db project.id
      = findProjectById db project.id := by
  have hne : ¬ project.creator = userId := fun h => hother h.symm
  unfold createVersion
  simp only [hurl, hname, Bool.not_true, Bool.or_self, Bool.false_eq_true, if_false, hne,
    decide_False]
  rw [logActivity_of_mem _ _ _ _ _ (by decide)]
  refine ⟨rfl, ⟨_, rfl, ?_, rfl, rfl, rfl, rfl, rfl, rfl⟩, ?_, ?_⟩
  · simp
  · simp
  · simp [findProjectById]

/-- C8 on a run: user 2 uploads to the created project of user 1. -/
theorem createVersion_by_other_witness :
    truthy plainBody.fileUrl = true ∧ truthy plainBody.fileName = true ∧
    (2 : UserId) ≠ createdProject.creator ∧
    (createVersion createdDb createdProject 2 plainBody 1 100).db.projects
      = createdDb.projects :=
  ⟨by decide, by decide, by decide,
    (createVersion_by_other createdDb createdProject 2 plainBody 1 100 (by decide) (by decide)
      (by decide)).2.2.1⟩

/-- Integers up to `2 ^ 53` in absolute value are doubles. -/
theorem toDouble_of_le (x : Int) (h : x.natAbs ≤ 2 ^ 53) : toDouble x = x := by
  unfold toDouble
  simp only [h, if_true]

/-- Adding 1 to an integer from `-2 ^ 53` to `2 ^ 53 - 1` is exact in JavaScript. -/
theorem jsAdd_one_exact (m : Int) (hlow : -(2 : Int) ^ 53 ≤ m) (hhigh : m < (2 : Int) ^ 53) :
    jsAdd m 1 = m + 1 := by
  unfold jsAdd
  apply toDouble_of_le
  omega

/-- The version number that `createVersion` computes when the body carries none:
the JavaScript sum of 1 and the greatest number among the versions of the project,
of whatever status, and 1 when the project has no version. -/
theorem createVersion_number (db : Db) (project : Project) (userId : UserId)
    (body : VersionBody) (now : Nat) (newId : VersionId)
    (hurl : truthy body.fileUrl = true) (hname : truthy body.fileName = true)
    (hnum : truthyNum body.versionNumber = false) :
    ∃ v, (createVersion db project userId body now newId).data = some v ∧
      (((∀ w ∈ db.versions, w.project ≠ project.id) ∧ v.versionNumber = 1) ∨
       (∃ m ∈ db.versions, m.project = project.id ∧
          (∀ w ∈ db.versions, w.project = project.id → w.versionNumber ≤ m.versionNumber) ∧
          v.versionNumber = jsAdd m.versionNumber 1)) := by
  unfold createVersion
  simp only [hurl, hname, Bool.not_true, Bool.or_self, Bool.false_eq_true, if_false, hnum]
  rw [logActivity_of_mem _ _ _ _ _ (by decide)]
  refine ⟨_, rfl, ?_⟩
  simp only []
  cases hlast : findLastVersion db project.id with
  | none =>
    left
    refine ⟨?_, rfl⟩
    have hnil := maxByVersionNumber_none _ hlast
    intro w hw hp
    have : w ∈ db.versions.filter (fun v => decide (v.project = project.id)) := by
      simp [List.mem_filter, hw, hp]
    rw [hnil] at this
    cases this
  | some m =>
    right
    obtain ⟨hm, hle⟩ := maxByVersionNumber_some _ m hlast
    simp only [List.mem_filter, decide_eq_true_eq] at hm
    refine ⟨m, hm.1, hm.2, ?_, rfl⟩
    intro w hw hp
    exact hle w (by simp [List.mem_filter, hw, hp])

/-- A successful upload appends the new version to the Version collection. -/
theorem createVersion_versions (db : Db) (project : Project) (userId : UserId)
    (body : VersionBody) (now : Nat) (newId : VersionId)
    (hurl : truthy body.fileUrl = true) (hname : truthy body.fileName = true) :
    ∃ v, (createVersion db project userId body now newId).data = some v ∧
      (createVersion db project userId body now newId).db.versions = db.versions ++ [v] := by
  unfold createVersion
  simp only [hurl, hname, Bool.not_true, Bool.or_self, Bool.false_eq_true, if_false]
  rw [logActivity_of_mem _ _ _ _ _ (by decide)]
  refine ⟨_, rfl, ?_⟩
  by_cases hc : project.creator = userId <;> simp [hc, Project.save]

/-- C9, refuted as stated: user 1 creates a project and uploads a file whose body
carries the version number `2 ^ 53 = 9007199254740992`, which is stored as given.
The next upload carries no number: its number is the JavaScript sum of `2 ^ 53` and
1, which is `2 ^ 53` again, the maximum itself and not one more. -/
theorem createVersion_number_stops_at_two_pow_53 :
    (createProject sampleDb 1 ⟨some "P", none⟩ 0 10).db = createdDb ∧
    largeUpload.status = 201 ∧
    largeUpload.db.versions.map (fun v => (v.id, v.project, v.versionNumber))
      = [(100, 10, 9007199254740992)] ∧
    findProjectById largeUpload.db 10 ≠ none ∧
    plainBody.versionNumber = none ∧
    uploadAfterLarge.status = 201 ∧
    uploadAfterLarge.data.map (fun v => v.versionNumber) = some 9007199254740992 ∧
    uploadAfterLarge.data.map (fun v => v.versionNumber) ≠ some (9007199254740992 + 1) := by
  refine ⟨by decide, by decide, by decide, by decide, rfl, by decide, by decide, by decide⟩

/-- C9, amended: when the body carries no version number, the new version's number
is the JavaScript sum of 1 and the greatest version number among all versions of
the project, whatever their status, and it is 1 when the project has no version.
The sum is one more than that greatest number whenever the latter lies from
`-2 ^ 53` to `2 ^ 53 - 1`. -/
theorem createVersion_number_is_max_plus_one (db : Db) (project : Project) (userId : UserId)
    (body : VersionBody) (now : Nat) (newId : VersionId)
    (hurl : truthy body.fileUrl = true) (hname : truthy body.fileName = true)
    (hnone : body.versionNumber = none) :
    ∃ v, (createVersion db project userId body now newId).data = some v ∧
      (((∀ w ∈ db.versions, w.project ≠ project.id) ∧ v.versionNumber = 1) ∨
       (∃ m ∈ db.versions, m.project = project.id ∧
          (∀ w ∈ db.versions, w.project = project.id → w.versionNumber ≤ m.versionNumber) ∧
          v.versionNumber = jsAdd m.versionNumber 1 ∧
          (-(2 : Int) ^ 53 ≤ m.versionNumber → m.versionNumber < (2 : Int) ^ 53 →
            v.versionNumber = m.versionNumber + 1))) := by
  obtain ⟨v, hv, hcases⟩ :=
    createVersion_number db project userId body now newId hurl hname (by simp [hnone, truthyNum])
  refine ⟨v, hv, ?_⟩
  rcases hcases with hfirst | ⟨m, hm, hp, hle, hnew⟩
  · exact Or.inl hfirst
  · exact Or.inr ⟨m, hm, hp, hle, hnew, fun hlow hhigh =>
      hnew.trans (jsAdd_one_exact m.versionNumber hlow hhigh)⟩

/-- C9 on a run: a second upload without a number, after the first one. -/
theorem createVersion_number_is_max_plus_one_witness :
    truthy plainBody.fileUrl = true ∧ truthy plainBody.fileName = true ∧
    plainBody.versionNumber = none ∧
    ∃ v, (createVersion firstUpload.db createdProject 2 plainBody 2 101).data = some v ∧
      (((∀ w ∈ firstUpload.db.versions, w.project ≠ createdProject.id) ∧ v.versionNumber = 1) ∨
       (∃ m ∈ firstUpload.db.versions, m.project = createdProject.id ∧
          (∀ w ∈ firstUpload.db.versions, w.project = createdProject.id →
            w.versionNumber ≤ m.versionNumber) ∧
          v.versionNumber = jsAdd m.versionNumber 1 ∧
          (-(2 : Int) ^ 53 ≤ m.versionNumber → m.versionNumber < (2 : Int) ^ 53 →
            v.versionNumber = m.versionNumber + 1))) :=
  ⟨by decide, by decide, rfl,
    createVersion_number_is_max_plus_one firstUpload.db createdProject 2 plainBody 2 101
      (by decide) (by decide) rfl⟩

/-- C10, refuted as stated: user 1 creates a project and uploads twice.  The first
upload gets number 1; the second carries `versionNumber: 1` in its body and is
stored with number 1 as well, which is not greater than the first.  In a second
run the first body carries the number `2 ^ 53`; the upload that follows carries
none and is numbered `2 ^ 53` too, since JavaScript adds 1 to `2 ^ 53` without
effect. -/
theorem createVersion_accepts_client_number :
    (createProject sampleDb 1 ⟨some "P", none⟩ 0 10).db = createdDb ∧
    firstUpload.status = 201 ∧ firstUpload.data.map (fun v => v.versionNumber) = some 1 ∧
    findProjectById firstUpload.db 10 ≠ none ∧
    secondUpload.status = 201 ∧ secondUpload.data.map (fun v => v.versionNumber) = some 1 ∧
    secondUpload.db.versions.map (fun v => (v.id, v.project, v.versionNumber))
      = [(100, 10, 1), (101, 10, 1)] ∧
    largeUpload.status = 201 ∧ findProjectById largeUpload.db 10 ≠ none ∧
    uploadAfterLarge.status = 201 ∧
    uploadAfterLarge.db.versions.map (fun v => (v.id, v.project, v.versionNumber))
      = [(100, 10, 9007199254740992), (101, 10, 9007199254740992)] := by
  refine ⟨by decide, by decide, by decide, by decide, by decide, by decide, by decide,
    by decide, by decide, by decide, by decide⟩

/-- C10, amended: when the body carries no version number (or the number 0, which
the controller treats as absent) and the version numbers of the project lie from
`-2 ^ 53` to `2 ^ 53 - 1`, the new version's number is greater than the number of
every version of the project that existed before the call. -/
theorem createVersion_number_increases (db : Db) (project : Project) (userId : UserId)
    (body : VersionBody) (now : Nat) (newId : VersionId)
    (hurl : truthy body.fileUrl = true) (hname : truthy body.fileName = true)
    (hnum : truthyNum body.versionNumber = false)
    (hsafe : ∀ w ∈ db.versions, w.project = project.id →
      -(2 : Int) ^ 53 ≤ w.versionNumber ∧ w.versionNumber < (2 : Int) ^ 53) :
    ∃ v, (createVersion db project userId body now newId).data = some v ∧
      v ∈ (createVersion db project userId body now newId).db.versions ∧
      ∀ w ∈ db.versions, w.project = project.id → w.versionNumber < v.versionNumber := by
  obtain ⟨v, hv, hcases⟩ := createVersion_number db project userId body now newId hurl hname hnum
  obtain ⟨v2, hv2, hstored⟩ := createVersion_versions db project userId body now newId hurl hname
  refine ⟨v, hv, ?_, ?_⟩
  · rw [hv] at hv2
    cases hv2
    rw [hstored]
    simp
  · intro w hw hp
    rcases hcases with ⟨hnone, _⟩ | ⟨m, hm, hmp, hle, hnew⟩
    · exact absurd hp (hnone w hw)
    · have := hle w hw hp
      rw [hnew, jsAdd_one_exact m.versionNumber (hsafe m hm hmp).1 (hsafe m hm hmp).2]
      omega

/-- C10 on a run: a second upload without a number is numbered above the first. -/
theorem createVersion_number_increases_witness :
    truthy plainBody.fileUrl = true ∧ truthy plainBody.fileName = true ∧
    truthyNum plainBody.versionNumber = false ∧
    (∀ w ∈ firstUpload.db.versions, w.project = createdProject.id →
      -(2 : Int) ^ 53 ≤ w.versionNumber ∧ w.versionNumber < (2 : Int) ^ 53) ∧
    ∃ v, (createVersion firstUpload.db createdProject 2 plainBody 2 101).data = some v ∧
      v ∈ (createVersion firstUpload.db createdProject 2 plainBody 2 101).db.versions ∧
      ∀ w ∈ firstUpload.db.versions, w.project = createdProject.id →
        w.versionNumber < v.versionNumber :=
  ⟨by decide, by decide, by decide, by decide,
    createVersion_number_increases firstUpload.db createdProject 2 plainBody 2 101
      (by decide) (by decide) (by decide) (by decide)⟩

/-! ## Approval and rejection -/

/-- A document of a list that satisfies a test is found by `find?`, or an earlier
one that satisfies it is. -/
theorem find?_of_mem {α : Type} (l : List α) (pred : α → Bool) (x : α) (hx : x ∈ l)
    (hp : pred x = true) : ∃ y, l.find? pred = some y ∧ y ∈ l ∧ pred y = true := by
  cases h : l.find? pred with
  | none =>
    rw [List.find?_eq_none] at h
    exact absurd hp (h x hx)
  | some y => exact ⟨y, rfl, List.mem_of_find?_eq_some h, List.find?_some h⟩

/-- The documents of the Version collection after `version.save()`. -/
theorem mem_save_versions (db : Db) (v x : Version) :
    x ∈ (Version.save db v).versions ↔
      (x = v ∧ ∃ w ∈ db.versions, w.id = v.id) ∨ (x ∈ db.versions ∧ x.id ≠ v.id) := by
  unfold Version.save
  simp only [List.mem_map]
  constructor
  · rintro ⟨w, hw, rfl⟩
    by_cases hid : w.id = v.id
    · left
      simp only [hid, if_true]
      exact ⟨trivial, w, hw, hid⟩
    · right
      simp only [hid, if_false]
      exact ⟨hw, hid⟩
  · rintro (⟨rfl, w, hw, hid⟩ | ⟨hx, hid⟩)
    · exact ⟨w, hw, by simp [hid]⟩
    · exact ⟨x, hx, by simp [hid]⟩

/-- Saving a version leaves the Project collection alone. -/
theorem save_version_projects (db : Db) (v : Version) :
    (Version.save db v).projects = db.projects := rfl

/-- The reply of `updateVersionStatus` to an approval by the creator of a pending
version that the lookup finds. -/
theorem updateVersionStatus_approve_eq (db : Db) (s3 : S3) (project : Project)
    (versionId : VersionId) (body : StatusBody) (now : Nat) (found : Version)
    (hstatus : body.status = some "approved")
    (hfind : db.versions.find? (fun v =>
      decide (v.id = versionId ∧ v.project = project.id ∧ v.status = Status.pending))
        = some found) :
    let version : Version :=
      { found with
          status := Status.approved, approvedBy := some project.creator,
          approvedAt := some now,
          notes := if truthy body.notes then body.notes.getD "" else found.notes }
    let updated : Project :=
      { project with
          currentVersion := some found.id,
          versions :=
            if project.versions.contains found.id then project.versions
            else project.versions ++ [found.id] }
    ∃ db3, updateVersionStatus db s3 project project.creator versionId body now
        = ⟨200, some version, db3, []⟩ ∧
      db3.versions = (Version.save db version).versions ∧
      db3.projects = (Project.save (Version.save db version) updated now).projects := by
  intro version updated
  unfold updateVersionStatus
  simp only [hstatus, hfind, truthy, Option.getD_some]
  simp only [show (decide ("approved" ≠ "") : Bool) = true from by decide,
    show (["approved", "rejected"].contains "approved") = true from by decide,
    Bool.not_true, Bool.or_self, Bool.false_eq_true, if_false, ne_eq, not_true_eq_false,
    if_true]
  rw [logActivity_of_mem _ _ _ _ _ (by decide)]
  exact ⟨_, rfl, rfl, rfl⟩

/-- C11: when the creator approves a pending version of the project, every stored
document of that version is approved with `approvedBy` the caller, the stored
project points at it as current version, and its id is in `versions` exactly once,
appended only if it was absent. -/
theorem updateVersionStatus_approves_pending (db : Db) (s3 : S3) (project : Project)
    (pendingVersion : Version) (body : StatusBody) (now : Nat)
    (hstatus : body.status = some "approved")
    (hmem : pendingVersion ∈ db.versions) (hproject : pendingVersion.project = project.id)
    (hpending : pendingVersion.status = Status.pending)
    (hload : findProjectById db project.id = some project)
    (hcount : project.versions.count pendingVersion.id ≤ 1) :
    (updateVersionStatus db s3 project project.creator pendingVersion.id body now).status
      = 200 ∧
    ∃ v stored,
      (updateVersionStatus db s3 project project.creator pendingVersion.id body now).data
        = some v ∧
      v ∈ (updateVersionStatus db s3 project project.creator pendingVersion.id body now).db.versions ∧
      (∀ w ∈ (updateVersionStatus db s3 project project.creator pendingVersion.id body
          now).db.versions, w.id = pendingVersion.id → w = v) ∧
      v.id = pendingVersion.id ∧ v.project = project.id ∧ v.status = Status.approved ∧
      v.approvedBy = some project.creator ∧ v.approvedAt = some now ∧
      findProjectById
        (updateVersionStatus db s3 project project.creator pendingVersion.id body now).db
        project.id = some stored ∧
      stored.currentVersion = some pendingVersion.id ∧
      stored.versions =
        (if pendingVersion.id ∈ project.versions then project.versions
         else project.versions ++ [pendingVersion.id]) ∧
      stored.versions.count pendingVersion.id = 1 := by
  obtain ⟨found, hfind, hfmem, hfpred⟩ := find?_of_mem db.versions
    (fun v => decide (v.id = pendingVersion.id ∧ v.project = project.id ∧
      v.status = Status.pending)) pendingVersion hmem (by simp [hproject, hpending])
  simp only [decide_eq_true_eq] at hfpred
  obtain ⟨hfid, hfproj, _⟩ := hfpred
  obtain ⟨db3, hreply, hvers, hprojs⟩ :=
    updateVersionStatus_approve_eq db s3 project pendingVersion.id body now found hstatus hfind
  rw [hreply]
  refine ⟨rfl, _,
    { project with
        currentVersion := some found.id,
        versions :=
          if project.versions.contains found.id then project.versions
          else project.versions ++ [found.id] },
    rfl, ?_, ?_, hfid, hfproj, rfl, rfl, rfl, ?_, congrArg some hfid, ?_, ?_⟩
  · rw [hvers, mem_save_versions]
    exact Or.inl ⟨rfl, found, hfmem, rfl⟩
  · intro w hw hid
    rw [hvers, mem_save_versions] at hw
    rcases hw with ⟨rfl, _⟩ | ⟨_, hne⟩
    · rfl
    · exact absurd (hid.trans hfid.symm) hne
  · have hsave := findProjectById_save
      (Version.save db { found with
          status := Status.approved, approvedBy := some project.creator,
          approvedAt := some now,
          notes := if truthy body.notes then body.notes.getD "" else found.notes })
      project
      { project with
          currentVersion := some found.id,
          versions :=
            if project.versions.contains found.id then project.versions
            else project.versions ++ [found.id] } now rfl hload
    unfold findProjectById at hsave ⊢
    simp only [hprojs]
    exact hsave
  · simp [hfid]
  · by_cases hin : pendingVersion.id ∈ project.versions
    · have hone : project.versions.count pendingVersion.id = 1 :=
        le_antisymm hcount (List.count_pos_iff.2 hin)
      simp [hfid, hin, hone]
    · simp [hfid, hin, List.count_append, List.count_eq_zero_of_not_mem hin]

/-- C11 on a run: user 1 approves the pending version 102 of the sample project. -/
theorem updateVersionStatus_approves_pending_witness :
    (sampleVersion 102 3 Status.pending (some "projects/10/v3.txt")
      "https://vault.s3.amazonaws.com/projects/10/v3.txt") ∈ lifecycleDb.versions ∧
    findProjectById lifecycleDb lifecycleProject.id = some lifecycleProject ∧
    lifecycleProject.versions.count 102 ≤ 1 ∧
    (updateVersionStatus lifecycleDb workingS3 lifecycleProject lifecycleProject.creator
      (sampleVersion 102 3 Status.pending (some "projects/10/v3.txt")
        "https://vault.s3.amazonaws.com/projects/10/v3.txt").id
      ⟨some "approved", none⟩ 9).status = 200 :=
  ⟨by decide, by decide, by decide,
    (updateVersionStatus_approves_pending lifecycleDb workingS3 lifecycleProject
      (sampleVersion 102 3 Status.pending (some "projects/10/v3.txt")
        "https://vault.s3.amazonaws.com/projects/10/v3.txt")
      ⟨some "approved", none⟩ 9 rfl (by decide) rfl rfl (by decide) (by decide)).1⟩

/-- The reply of `updateVersionStatus` to a rejection by the creator of a pending
version that the lookup finds: the version is saved as rejected, the Project
collection is untouched, and the answer is 500 exactly when the version has a
stored key and object storage fails to delete it. -/
theorem updateVersionStatus_reject_eq (db : Db) (s3 : S3) (project : Project)
    (versionId : VersionId) (body : StatusBody) (now : Nat) (found : Version)
    (hstatus : body.status = some "rejected")
    (hfind : db.versions.find? (fun v =>
      decide (v.id = versionId ∧ v.project = project.id ∧ v.status = Status.pending))
        = some found) :
    (updateVersionStatus db s3 project project.creator versionId body now).db.versions
      = (Version.save db
          { found with
              status := Status.rejected, approvedBy := some project.creator,
              approvedAt := some now,
              notes := if truthy body.notes then body.notes.getD "" else found.notes }).versions ∧
    (updateVersionStatus db s3 project project.creator versionId body now).db.projects
      = db.projects ∧
    (updateVersionStatus db s3 project project.creator versionId body now).status
      = (if truthy found.key && !(s3 found.key) then 500 else 200) := by
  unfold updateVersionStatus
  simp only [hstatus, hfind, Option.getD_some,
    show truthy (some "rejected") = true from by decide,
    show (["approved", "rejected"].contains "rejected") = true from by decide,
    show ¬ ("rejected" = "approved") from by decide,
    show ¬ (Status.rejected = Status.approved) from by decide,
    Bool.not_true, Bool.or_self, Bool.false_eq_true, if_false, ne_eq, not_true_eq_false,
    if_true, logActivity_of_mem _ _ _ _ _
      (show activityActions.contains "version_rejected" = true from by decide)]
  by_cases hk : truthy found.key = true
  · by_cases hs : s3 found.key = true
    · simp [hk, hs, Version.save]
    · simp [hk, hs, Version.save]
  · by_cases hu : found.fileUrl = ""
    · simp [hk, hu, Version.save]
    · by_cases hf : truthy (fileKeyOfUrl found.fileUrl) = true
      · simp [hk, hu, hf, Version.save]
      · simp [hk, hu, hf, Version.save]

/-- C12: when the creator rejects a pending version of the project, every stored
document of that version is rejected with `approvedBy` the caller, and the Project
collection, hence the project's `currentVersion` and `versions`, is unchanged,
whatever object storage answers. -/
theorem updateVersionStatus_rejects_pending (db : Db) (s3 : S3) (project : Project)
    (pendingVersion : Version) (body : StatusBody) (now : Nat)
    (hstatus : body.status = some "rejected")
    (hmem : pendingVersion ∈ db.versions) (hproject : pendingVersion.project = project.id)
    (hpending : pendingVersion.status = Status.pending) :
    (∃ v ∈ (updateVersionStatus db s3 project project.creator pendingVersion.id body
        now).db.versions,
      v.id = pendingVersion.id ∧ v.project = project.id ∧ v.status = Status.rejected ∧
      v.approvedBy = some project.creator ∧ v.approvedAt = some now ∧
      ∀ w ∈ (updateVersionStatus db s3 project project.creator pendingVersion.id body
          now).db.versions, w.id = pendingVersion.id → w = v) ∧
    (updateVersionStatus db s3 project project.creator pendingVersion.id body now).db.projects
      = db.projects ∧
    findProjectById
        (updateVersionStatus db s3 project project.creator pendingVersion.id body now).db
        project.id = findProjectById db project.id := by
  obtain ⟨found, hfind, hfmem, hfpred⟩ := find?_of_mem db.versions
    (fun v => decide (v.id = pendingVersion.id ∧ v.project = project.id ∧
      v.status = Status.pending)) pendingVersion hmem (by simp [hproject, hpending])
  simp only [decide_eq_true_eq] at hfpred
  obtain ⟨hfid, hfproj, _⟩ := hfpred
  obtain ⟨hvers, hprojs, _⟩ :=
    updateVersionStatus_reject_eq db s3 project pendingVersion.id body now found hstatus hfind
  refine ⟨⟨{ found with
      status := Status.rejected, approvedBy := some project.creator, approvedAt := some now,
      notes := if truthy body.notes then body.notes.getD "" else found.notes },
    ?_, hfid, hfproj, rfl, rfl, rfl, ?_⟩, hprojs, ?_⟩
  · rw [hvers, mem_save_versions]
    exact Or.inl ⟨rfl, found, hfmem, rfl⟩
  · intro w hw hid
    rw [hvers, mem_save_versions] at hw
    rcases hw with ⟨rfl, _⟩ | ⟨_, hne⟩
    · rfl
    · exact absurd (hid.trans hfid.symm) hne
  · unfold findProjectById
    rw [hprojs]

/-- C12 on a run: user 1 rejects the pending version 103 while storage is down. -/
theorem updateVersionStatus_rejects_pending_witness :
    (sampleVersion 103 4 Status.pending none
      "https://vault.s3.amazonaws.com/projects/10/v4.txt") ∈ lifecycleDb.versions ∧
    (updateVersionStatus lifecycleDb failingS3 lifecycleProject lifecycleProject.creator
      (sampleVersion 103 4 Status.pending none
        "https://vault.s3.amazonaws.com/projects/10/v4.txt").id
      ⟨some "rejected", none⟩ 9).db.projects = lifecycleDb.projects :=
  ⟨by decide,
    (updateVersionStatus_rejects_pending lifecycleDb failingS3 lifecycleProject
      (sampleVersion 103 4 Status.pending none
        "https://vault.s3.amazonaws.com/projects/10/v4.txt")
      ⟨some "rejected", none⟩ 9 rfl (by decide) rfl rfl).2.1⟩

/-- C13: when no pending version of the project has the given id (the id is
unknown, or its version belongs to another project, or is approved or rejected
already), `updateVersionStatus` changes nothing, asks storage for nothing, and
answers 404 to the creator who sends a valid status. -/
theorem updateVersionStatus_not_found (db : Db) (s3 : S3) (project : Project)
    (userId : UserId) (versionId : VersionId) (body : StatusBody) (now : Nat)
    (hnone : ∀ v ∈ db.versions, v.id = versionId →
      v.project ≠ project.id ∨ v.status = Status.approved ∨ v.status = Status.rejected) :
    (updateVersionStatus db s3 project userId versionId body now).db = db ∧
    (updateVersionStatus db s3 project userId versionId body now).data = none ∧
    (updateVersionStatus db s3 project userId versionId body now).deleteCalls = [] ∧
    (userId = project.creator →
      (body.status = some "approved" ∨ body.status = some "rejected") →
      (updateVersionStatus db s3 project userId versionId body now).status = 404) := by
  have hfind : db.versions.find? (fun v =>
      decide (v.id = versionId ∧ v.project = project.id ∧ v.status = Status.pending)) = none := by
    rw [List.find?_eq_none]
    intro v hv hpred
    simp only [decide_eq_true_eq] at hpred
    obtain ⟨hid, hp, hs⟩ := hpred
    rcases hnone v hv hid with h | h | h
    · exact h hp
    · rw [hs] at h; cases h
    · rw [hs] at h; cases h
  unfold updateVersionStatus
  simp only [hfind]
  refine ⟨?_, ?_, ?_, ?_⟩
  · split
    · rfl
    · split <;> rfl
  · split
    · rfl
    · split <;> rfl
  · split
    · rfl
    · split <;> rfl
  · intro hcreator hvalid
    have hguard : (!truthy body.status ||
        !(["approved", "rejected"].contains (body.status.getD ""))) = false := by
      rcases hvalid with h | h <;> rw [h] <;> decide
    rw [hguard]
    simp [hcreator]

/-- C13 on a run: version 100 of the sample project is approved already, and a
second decision on it is answered 404. -/
theorem updateVersionStatus_not_found_witness :
    (∀ v ∈ lifecycleDb.versions, v.id = 100 →
      v.project ≠ lifecycleProject.id ∨ v.status = Status.approved ∨
        v.status = Status.rejected) ∧
    (updateVersionStatus lifecycleDb workingS3 lifecycleProject 1 100
      ⟨some "rejected", none⟩ 9).status = 404 :=
  ⟨by decide,
    (updateVersionStatus_not_found lifecycleDb workingS3 lifecycleProject 1 100
      ⟨some "rejected", none⟩ 9 (by decide)).2.2.2 rfl (Or.inr rfl)⟩

/-- C14, as the code behaves: when the creator rejects a pending version that has a
stored key and object storage fails to delete it, the answer is 500, not a
success; the version is saved as rejected all the same.  Without a stored key the
failure is caught and the answer is 200. -/
theorem updateVersionStatus_reject_storage_failure (db : Db) (s3 : S3) (project : Project)
    (versionId : VersionId) (body : StatusBody) (now : Nat) (found : Version)
    (hstatus : body.status = some "rejected")
    (hfind : db.versions.find? (fun v =>
      decide (v.id = versionId ∧ v.project = project.id ∧ v.status = Status.pending))
        = some found)
    (hfail : s3 found.key = false) :
    (truthy found.key = true →
      (updateVersionStatus db s3 project project.creator versionId body now).status = 500) ∧
    (truthy found.key = false →
      (updateVersionStatus db s3 project project.creator versionId body now).status = 200) ∧
    (∀ w ∈ (updateVersionStatus db s3 project project.creator versionId body now).db.versions,
      w.id = versionId → w.status = Status.rejected) := by
  obtain ⟨hvers, _, hst⟩ :=
    updateVersionStatus_reject_eq db s3 project versionId body now found hstatus hfind
  have hfid : found.id = versionId := by
    have := List.find?_some hfind
    simp only [decide_eq_true_eq] at this
    exact this.1
  refine ⟨fun hk => ?_, fun hk => ?_, ?_⟩
  · rw [hst]; simp [hk, hfail]
  · rw [hst]; simp [hk]
  · intro w hw hid
    rw [hvers, mem_save_versions] at hw
    rcases hw with ⟨rfl, _⟩ | ⟨_, hne⟩
    · rfl
    · exact absurd (hid.trans hfid.symm) hne

/-- C14 on a run: user 1 rejects the pending version 102, which has a stored key,
while storage is down, and gets a 500. -/
theorem updateVersionStatus_reject_storage_failure_witness :
    lifecycleDb.versions.find? (fun v =>
      decide (v.id = 102 ∧ v.project = lifecycleProject.id ∧ v.status = Status.pending))
      = some (sampleVersion 102 3 Status.pending (some "projects/10/v3.txt")
          "https://vault.s3.amazonaws.com/projects/10/v3.txt") ∧
    (updateVersionStatus lifecycleDb failingS3 lifecycleProject lifecycleProject.creator 102
      ⟨some "rejected", none⟩ 9).status = 500 :=
  ⟨by decide,
    (updateVersionStatus_reject_storage_failure lifecycleDb failingS3 lifecycleProject 102
      ⟨some "rejected", none⟩ 9
      (sampleVersion 102 3 Status.pending (some "projects/10/v3.txt")
        "https://vault.s3.amazonaws.com/projects/10/v3.txt")
      rfl (by decide) rfl).1 (by decide)⟩

/-! ## Deletion -/

/-- Logging an action outside the Activity enum fails validation. -/
theorem logActivity_of_not_mem (db : Db) (projectId : ProjectId) (userId : UserId)
    (action details : String) (h : activityActions.contains action = false) :
    logActivity db projectId userId action details = none := by
  unfold logActivity
  rw [h]
  rfl

/-- The reply of `deleteVersion` to the creator when the lookup finds the version:
the project is saved without the id, the document is removed, storage is asked to
delete the key taken from the file URL, and the answer is 500, because the delete
failed or because `version_deleted` is not an action of the Activity schema. -/
theorem deleteVersion_eq (db : Db) (s3 : S3) (project : Project) (versionId : VersionId)
    (now : Nat) (version : Version)
    (hfind : db.versions.find? (fun v =>
      decide (v.id = versionId ∧ v.project = project.id)) = some version) :
    deleteVersion db s3 project project.creator versionId now =
      ⟨500, none,
        deleteVersionById (Project.save db
          { project with
              versions := project.versions.filter (fun v => decide (v ≠ versionId)),
              currentVersion :=
                if project.currentVersion = some versionId then
                  (findLatestApproved db project.id versionId).map (fun latest => latest.id)
                else project.currentVersion } now) versionId,
        [fileKeyOfUrl version.fileUrl]⟩ := by
  unfold deleteVersion
  simp only [hfind, ne_eq, not_true_eq_false, if_false,
    logActivity_of_not_mem _ _ _ _ _
      (show activityActions.contains "version_deleted" = false from by decide)]
  by_cases hs : s3 (fileKeyOfUrl version.fileUrl) = true <;> simp [hs]

/-- C16: when the creator deletes an existing version of the project, the stored
project loses the id from `versions`, no document with that id remains and every
other version is kept; the current version is unchanged when it was another
version, and otherwise becomes the remaining approved version of the project
with the greatest number, or null when no approved version remains. -/
theorem deleteVersion_effects (db : Db) (s3 : S3) (project : Project) (version : Version)
    (now : Nat)
    (hmem : version ∈ db.versions) (hproject : version.project = project.id)
    (hload : findProjectById db project.id = some project) :
    ∃ stored,
      findProjectById (deleteVersion db s3 project project.creator version.id now).db
        project.id = some stored ∧
      stored.versions = project.versions.filter (fun v => decide (v ≠ version.id)) ∧
      version.id ∉ stored.versions ∧
      (∀ w ∈ (deleteVersion db s3 project project.creator version.id now).db.versions,
        w.id ≠ version.id) ∧
      (∀ w, w ∈ (deleteVersion db s3 project project.creator version.id now).db.versions ↔
        w ∈ db.versions ∧ w.id ≠ version.id) ∧
      (project.currentVersion ≠ some version.id →
        stored.currentVersion = project.currentVersion) ∧
      (project.currentVersion = some version.id →
        (stored.currentVersion = none ∧
          ∀ w ∈ (deleteVersion db s3 project project.creator version.id now).db.versions,
            w.project = project.id → w.status ≠ Status.approved) ∨
        (∃ latest ∈ (deleteVersion db s3 project project.creator version.id now).db.versions,
          stored.currentVersion = some latest.id ∧ latest.project = project.id ∧
          latest.status = Status.approved ∧
          ∀ w ∈ (deleteVersion db s3 project project.creator version.id now).db.versions,
            w.project = project.id → w.status = Status.approved →
              w.versionNumber ≤ latest.versionNumber)) := by
  obtain ⟨found, hfind, _, _⟩ := find?_of_mem db.versions
    (fun v => decide (v.id = version.id ∧ v.project = project.id)) version hmem
    (by simp [hproject])
  rw [deleteVersion_eq db s3 project version.id now found hfind]
  have hvers : ∀ w, w ∈ (deleteVersionById (Project.save db
      { project with
          versions := project.versions.filter (fun v => decide (v ≠ version.id)),
          currentVersion :=
            if project.currentVersion = some version.id then
              (findLatestApproved db project.id version.id).map (fun latest => latest.id)
            else project.currentVersion } now) version.id).versions ↔
      w ∈ db.versions ∧ w.id ≠ version.id := by
    intro w
    simp [deleteVersionById, Project.save, List.mem_filter]
  refine ⟨{ project with
      versions := project.versions.filter (fun v => decide (v ≠ version.id)),
      currentVersion :=
        if project.currentVersion = some version.id then
          (findLatestApproved db project.id version.id).map (fun latest => latest.id)
        else project.currentVersion }, ?_, rfl, ?_, ?_, hvers, ?_, ?_⟩
  · exact findProjectById_save db project _ now rfl hload
  · simp [List.mem_filter]
  · intro w hw
    exact ((hvers w).1 hw).2
  · intro hne
    simp [hne]
  · intro hcur
    simp only [hcur, if_true]
    cases hlatest : findLatestApproved db project.id version.id with
    | none =>
      left
      refine ⟨rfl, ?_⟩
      intro w hw hp hs
      have hnil := maxByVersionNumber_none _ hlatest
      have hin : w ∈ db.versions.filter (fun v =>
          decide (v.project = project.id ∧ v.status = Status.approved ∧ v.id ≠ version.id)) := by
        simp only [List.mem_filter, decide_eq_true_eq]
        exact ⟨((hvers w).1 hw).1, hp, hs, ((hvers w).1 hw).2⟩
      rw [hnil] at hin
      cases hin
    | some latest =>
      right
      obtain ⟨hlm, hle⟩ := maxByVersionNumber_some _ latest hlatest
      simp only [List.mem_filter, decide_eq_true_eq] at hlm
      refine ⟨latest, (hvers latest).2 ⟨hlm.1, hlm.2.2.2⟩, rfl, hlm.2.1, hlm.2.2.1, ?_⟩
      intro w hw hp hs
      apply hle
      simp only [List.mem_filter, decide_eq_true_eq]
      exact ⟨((hvers w).1 hw).1, hp, hs, ((hvers w).1 hw).2⟩

/-- C16 on a run: user 1 deletes version 101, the current version of the sample
project, and version 100 becomes current. -/
theorem deleteVersion_effects_witness :
    (sampleVersion 101 2 Status.approved none
      "https://vault.s3.amazonaws.com/projects/10/v2.txt") ∈ lifecycleDb.versions ∧
    findProjectById lifecycleDb lifecycleProject.id = some lifecycleProject ∧
    ∃ stored,
      findProjectById (deleteVersion lifecycleDb workingS3 lifecycleProject
        lifecycleProject.creator 101 9).db lifecycleProject.id = some stored ∧
      stored.versions = [100] ∧ stored.currentVersion = some 100 := by
  refine ⟨by decide, by decide, ?_⟩
  obtain ⟨stored, hstored, hversions, _⟩ :=
    deleteVersion_effects lifecycleDb workingS3 lifecycleProject
      (sampleVersion 101 2 Status.approved none
        "https://vault.s3.amazonaws.com/projects/10/v2.txt") 9 (by decide) rfl (by decide)
  refine ⟨stored, hstored, hversions, ?_⟩
  have heval : findProjectById (deleteVersion lifecycleDb workingS3 lifecycleProject
      lifecycleProject.creator 101 9).db lifecycleProject.id =
      some { lifecycleProject with versions := [100], currentVersion := some 100 } := by
    decide
  have hsame : findProjectById (deleteVersion lifecycleDb workingS3 lifecycleProject
      lifecycleProject.creator
      (sampleVersion 101 2 Status.approved none
        "https://vault.s3.amazonaws.com/projects/10/v2.txt").id 9).db lifecycleProject.id
      = some stored := hstored
  rw [show (sampleVersion 101 2 Status.approved none
        "https://vault.s3.amazonaws.com/projects/10/v2.txt").id = 101 from rfl, heval] at hsame
  cases hsame
  rfl

/-- C17, as the code behaves: when the creator deletes an existing version of the
project, the answer is 500 whatever object storage does, a failing delete
included: the document is removed and the id leaves `versions`, but the call does
not respond with success. -/
theorem deleteVersion_answers_500 (db : Db) (s3 : S3) (project : Project) (version : Version)
    (now : Nat)
    (hmem : version ∈ db.versions) (hproject : version.project = project.id) :
    (deleteVersion db s3 project project.creator version.id now).status = 500 ∧
    (∀ w ∈ (deleteVersion db s3 project project.creator version.id now).db.versions,
      w.id ≠ version.id) := by
  obtain ⟨found, hfind, _, _⟩ := find?_of_mem db.versions
    (fun v => decide (v.id = version.id ∧ v.project = project.id)) version hmem
    (by simp [hproject])
  rw [deleteVersion_eq db s3 project version.id now found hfind]
  refine ⟨rfl, ?_⟩
  intro w hw
  simp only [deleteVersionById, List.mem_filter, decide_eq_true_eq] at hw
  exact hw.2

/-- C17 on a run: user 1 deletes version 101 while storage is down. -/
theorem deleteVersion_answers_500_witness :
    (sampleVersion 101 2 Status.approved none
      "https://vault.s3.amazonaws.com/projects/10/v2.txt") ∈ lifecycleDb.versions ∧
    (deleteVersion lifecycleDb failingS3 lifecycleProject lifecycleProject.creator
      (sampleVersion 101 2 Status.approved none
        "https://vault.s3.amazonaws.com/projects/10/v2.txt").id 9).status = 500 :=
  ⟨by decide,
    (deleteVersion_answers_500 lifecycleDb failingS3 lifecycleProject
      (sampleVersion 101 2 Status.approved none
        "https://vault.s3.amazonaws.com/projects/10/v2.txt") 9 (by decide) rfl).1⟩

/-! ## Revert -/

/-- The Version collection after the loop of revertToVersion: the documents whose
id is the id of none of the newer versions. -/
theorem foldl_revertStep_stored (newer : List Version) (st : RevertState) :
    (newer.foldl revertStep st).stored =
      st.stored.filter (fun w => newer.all (fun n => decide (w.id ≠ n.id))) := by
  induction newer generalizing st with
  | nil => simp
  | cons n ns ih =>
    rw [List.foldl_cons, ih]
    simp only [revertStep, List.filter_filter, List.all_cons]
    apply List.filter_congr
    intro w _
    rw [Bool.and_comm]

/-- The in-memory `project.versions` after the loop of revertToVersion. -/
theorem foldl_revertStep_projectVersions (newer : List Version) (st : RevertState) :
    (newer.foldl revertStep st).projectVersions =
      st.projectVersions.filter (fun v => newer.all (fun n => decide (v ≠ n.id))) := by
  induction newer generalizing st with
  | nil => simp
  | cons n ns ih =>
    rw [List.foldl_cons, ih]
    simp only [revertStep, List.filter_filter, List.all_cons]
    apply List.filter_congr
    intro w _
    rw [Bool.and_comm]

/-- The reply of `revertToVersion` to the creator when the lookup finds the target:
the newer approved versions are removed from the collection and from
`project.versions`, the project is saved with the target as current version, and
the answer is 500, because `version_reverted` is not an action of the Activity
schema. -/
theorem revertToVersion_eq (db : Db) (s3 : S3) (project : Project) (versionId : VersionId)
    (now : Nat) (target : Version)
    (hfind : db.versions.find? (fun v =>
      decide (v.id = versionId ∧ v.project = project.id ∧ v.status = Status.approved))
        = some target) :
    (revertToVersion db s3 project project.creator versionId now).status = 500 ∧
    (revertToVersion db s3 project project.creator versionId now).data = none ∧
    (revertToVersion db s3 project project.creator versionId now).db =
      Project.save
        { db with versions := db.versions.filter (fun w =>
            (db.versions.filter (fun v =>
              decide (v.project = project.id ∧ target.versionNumber < v.versionNumber ∧
                v.status = Status.approved))).all (fun n => decide (w.id ≠ n.id))) }
        { project with
            versions := project.versions.filter (fun v =>
              (db.versions.filter (fun v =>
                decide (v.project = project.id ∧ target.versionNumber < v.versionNumber ∧
                  v.status = Status.approved))).all (fun n => decide (v ≠ n.id))),
            currentVersion := some target.id } now := by
  unfold revertToVersion
  simp only [hfind, ne_eq, not_true_eq_false, if_false,
    logActivity_of_not_mem _ _ _ _ _
      (show activityActions.contains "version_reverted" = false from by decide),
    foldl_revertStep_stored, foldl_revertStep_projectVersions]
  exact ⟨trivial, trivial, trivial⟩

/-- Two stored versions with the same `_id` are the same document. -/
theorem version_eq_of_id_eq (versions : List Version)
    (hnodup : (versions.map (fun v => v.id)).Nodup) (a b : Version)
    (ha : a ∈ versions) (hb : b ∈ versions) (hid : a.id = b.id) : a = b :=
  List.inj_on_of_nodup_map hnodup ha hb hid

/-- C19: a revert by the creator to an approved version numbered N removes every
approved version of the project with a greater number, from the collection and
from `project.versions`, and keeps every version numbered N or less: its
document is stored unchanged and its id is in `project.versions` exactly when it
was before. -/
theorem revertToVersion_effects (db : Db) (s3 : S3) (project : Project) (target : Version)
    (now : Nat)
    (hnodup : (db.versions.map (fun v => v.id)).Nodup)
    (hmem : target ∈ db.versions) (hproject : target.project = project.id)
    (hstatus : target.status = Status.approved)
    (hload : findProjectById db project.id = some project) :
    ∃ stored,
      findProjectById (revertToVersion db s3 project project.creator target.id now).db
        project.id = some stored ∧
      stored.currentVersion = some target.id ∧
      (∀ v ∈ db.versions, v.project = project.id → v.status = Status.approved →
        target.versionNumber < v.versionNumber →
        (∀ w ∈ (revertToVersion db s3 project project.creator target.id now).db.versions,
          w.id ≠ v.id) ∧ v.id ∉ stored.versions) ∧
      (∀ v ∈ db.versions, v.versionNumber ≤ target.versionNumber →
        v ∈ (revertToVersion db s3 project project.creator target.id now).db.versions ∧
        (v.id ∈ stored.versions ↔ v.id ∈ project.versions)) := by
  obtain ⟨found, hfind, hfmem, hfpred⟩ := find?_of_mem db.versions
    (fun v => decide (v.id = target.id ∧ v.project = project.id ∧
      v.status = Status.approved)) target hmem (by simp [hproject, hstatus])
  simp only [decide_eq_true_eq] at hfpred
  have hft : found = target := version_eq_of_id_eq db.versions hnodup found target hfmem hmem
    hfpred.1
  subst hft
  obtain ⟨_, _, hdb⟩ := revertToVersion_eq db s3 project found.id now found hfind
  rw [hdb]
  refine ⟨{ project with
      versions := project.versions.filter (fun v =>
        (db.versions.filter (fun v =>
          decide (v.project = project.id ∧ found.versionNumber < v.versionNumber ∧
            v.status = Status.approved))).all (fun n => decide (v ≠ n.id))),
      currentVersion := some found.id }, ?_, rfl, ?_, ?_⟩
  · exact findProjectById_save _ project _ now rfl hload
  · intro v hv hp hs hgt
    have hnewer : v ∈ db.versions ∧ v.project = project.id ∧
        found.versionNumber < v.versionNumber ∧ v.status = Status.approved :=
      ⟨hv, hp, hgt, hs⟩
    constructor
    · intro w hw hid
      simp only [Project.save, Project.preSave, List.mem_filter, List.all_eq_true,
        decide_eq_true_eq] at hw
      exact hw.2 v hnewer hid
    · intro hin
      simp only [List.mem_filter, List.all_eq_true, decide_eq_true_eq] at hin
      exact hin.2 v hnewer rfl
  · intro v hv hle
    have hkeep : ∀ n : Version, (n ∈ db.versions ∧ n.project = project.id ∧
        found.versionNumber < n.versionNumber ∧ n.status = Status.approved) →
        v.id ≠ n.id := by
      intro n hn hid
      have hvn : v = n := version_eq_of_id_eq db.versions hnodup v n hv hn.1 hid
      subst hvn
      omega
    constructor
    · simp only [Project.save, Project.preSave, List.mem_filter, List.all_eq_true,
        decide_eq_true_eq]
      exact ⟨hv, hkeep⟩
    · simp only [List.mem_filter, List.all_eq_true, decide_eq_true_eq]
      exact ⟨fun h => h.1, fun h => ⟨h, hkeep⟩⟩

/-- C19 on a run: user 1 reverts the sample project to version 100. -/
theorem revertToVersion_effects_witness :
    (lifecycleDb.versions.map (fun v => v.id)).Nodup ∧
    (sampleVersion 100 1 Status.approved (some "projects/10/v1.txt")
      "https://vault.s3.amazonaws.com/projects/10/v1.txt") ∈ lifecycleDb.versions ∧
    findProjectById lifecycleDb lifecycleProject.id = some lifecycleProject ∧
    ∃ stored,
      findProjectById (revertToVersion lifecycleDb workingS3 lifecycleProject
        lifecycleProject.creator
        (sampleVersion 100 1 Status.approved (some "projects/10/v1.txt")
          "https://vault.s3.amazonaws.com/projects/10/v1.txt").id 9).db
        lifecycleProject.id = some stored ∧
      stored.currentVersion = some 100 := by
  refine ⟨by decide, by decide, by decide, ?_⟩
  obtain ⟨stored, hstored, hcurrent, _⟩ :=
    revertToVersion_effects lifecycleDb workingS3 lifecycleProject
      (sampleVersion 100 1 Status.approved (some "projects/10/v1.txt")
        "https://vault.s3.amazonaws.com/projects/10/v1.txt") 9
      (by decide) (by decide) rfl rfl (by decide)
  exact ⟨stored, hstored, hcurrent⟩

/-- C20: when no approved version of the project has the given id (the id is
unknown, or its version belongs to another project, or is pending or rejected),
`revertToVersion` changes nothing, so no version is deleted and the project keeps
its `currentVersion` and `versions`, asks storage to delete nothing, and answers
404 to the creator. -/
theorem revertToVersion_not_found (db : Db) (s3 : S3) (project : Project) (userId : UserId)
    (versionId : VersionId) (now : Nat)
    (hnone : ∀ v ∈ db.versions, v.id = versionId →
      v.project ≠ project.id ∨ v.status = Status.pending ∨ v.status = Status.rejected) :
    (revertToVersion db s3 project userId versionId now).db = db ∧
    (revertToVersion db s3 project userId versionId now).data = none ∧
    (revertToVersion db s3 project userId versionId now).deleteCalls = [] ∧
    (userId = project.creator →
      (revertToVersion db s3 project userId versionId now).status = 404) := by
  have hfind : db.versions.find? (fun v =>
      decide (v.id = versionId ∧ v.project = project.id ∧ v.status = Status.approved)) = none := by
    rw [List.find?_eq_none]
    intro v hv hpred
    simp only [decide_eq_true_eq] at hpred
    obtain ⟨hid, hp, hs⟩ := hpred
    rcases hnone v hv hid with h | h | h
    · exact h hp
    · rw [hs] at h; cases h
    · rw [hs] at h; cases h
  unfold revertToVersion
  simp only [hfind]
  refine ⟨?_, ?_, ?_, ?_⟩
  · split <;> rfl
  · split <;> rfl
  · split <;> rfl
  · intro hcreator
    simp [hcreator]

/-- C20 on a run: version 102 of the sample project is pending, and a revert to it
is answered 404. -/
theorem revertToVersion_not_found_witness :
    (∀ v ∈ lifecycleDb.versions, v.id = 102 →
      v.project ≠ lifecycleProject.id ∨ v.status = Status.pending ∨
        v.status = Status.rejected) ∧
    (revertToVersion lifecycleDb workingS3 lifecycleProject 1 102 9).status = 404 :=
  ⟨by decide,
    (revertToVersion_not_found lifecycleDb workingS3 lifecycleProject 1 102 9
      (by decide)).2.2.2 rfl⟩

/-! ## The state invariant -/

/-- A document of the Project collection after `project.save()` is the saved one
or an old one with another id. -/
theorem mem_save_projects (db : Db) (q : Project) (now : Nat) (p : Project)
    (h : p ∈ (Project.save db q now).projects) :
    p = q ∨ (p ∈ db.projects ∧ p.id ≠ q.id) := by
  simp only [Project.save, Project.preSave, Bool.false_eq_true, if_false, List.mem_map] at h
  obtain ⟨r, hr, rfl⟩ := h
  by_cases hid : r.id = q.id
  · left; simp [hid]
  · right; simp only [hid, if_false]; exact ⟨hr, hid⟩

/-- The project that `findById` returns is stored under the id asked for. -/
theorem findProjectById_mem (db : Db) (projectId : ProjectId) (p : Project)
    (h : findProjectById db projectId = some p) : p ∈ db.projects ∧ p.id = projectId := by
  unfold findProjectById at h
  exact ⟨List.mem_of_find?_eq_some h, by simpa using List.find?_some h⟩

/-- The project that the access middleware lets through is the stored one. -/
theorem checkProjectAccess_ok (db : Db) (userId : UserId) (projectId : ProjectId)
    (level : String) (project : Project)
    (h : checkProjectAccess db userId projectId level = Except.ok project) :
    findProjectById db projectId = some project := by
  unfold checkProjectAccess at h
  cases hfind : findProjectById db projectId with
  | none => rw [hfind] at h; cases h
  | some q =>
    rw [hfind] at h
    simp only [] at h
    split at h
    · cases h
    · cases h; rfl

/-- A project stays in order when every approved version of its own that it refers
to is still stored. -/
theorem ProjectOk.mono (versions versions2 : List Version) (p : Project)
    (h : ProjectOk versions p)
    (hkeep : ∀ v ∈ versions, v.project = p.id → v.status = Status.approved →
      (p.currentVersion = some v.id ∨ v.id ∈ p.versions) → v ∈ versions2) :
    ProjectOk versions2 p := by
  constructor
  · intro c hc
    obtain ⟨v, hv, hid, hp, hs⟩ := h.1 c hc
    exact ⟨v, hkeep v hv hp hs (Or.inl (by rw [hc, hid])), hid, hp, hs⟩
  · intro id hmem
    obtain ⟨v, hv, hid, hp, hs⟩ := h.2 id hmem
    exact ⟨v, hkeep v hv hp hs (Or.inr (by rw [hid]; exact hmem)), hid, hp, hs⟩

/-- A project without a current version and without versions is in order. -/
theorem ProjectOk.of_empty (versions : List Version) (p : Project)
    (hc : p.currentVersion = none) (hv : p.versions = []) : ProjectOk versions p := by
  constructor
  · intro c h; rw [hc] at h; cases h
  · intro id h; rw [hv] at h; cases h

/-- After `createProject` the Version collection is the same and every stored
project is an old one or has neither a current version nor versions. -/
theorem createProject_db (db : Db) (userId : UserId) (body : ProjectBody) (now : Nat)
    (newId : ProjectId) :
    (createProject db userId body now newId).db.versions = db.versions ∧
    ∀ p ∈ (createProject db userId body now newId).db.projects,
      p ∈ db.projects ∨ (p.currentVersion = none ∧ p.versions = []) := by
  unfold createProject
  split
  · exact ⟨rfl, fun p hp => Or.inl hp⟩
  · unfold Project.create
    simp only []
    split
    · exact ⟨rfl, fun p hp => Or.inl hp⟩
    · rename_i created db1 hc
      split at hc
      · cases hc
      · simp only [Option.some.injEq, Prod.mk.injEq] at hc
        obtain ⟨hcreated, hdb1⟩ := hc
        subst hcreated
        subst hdb1
        rw [logActivity_of_mem _ _ _ _ _ (by decide)]
        refine ⟨rfl, ?_⟩
        intro p hp
        rcases mem_save_projects _ _ _ p hp with heq | ⟨hmem, _⟩
        · right
          subst heq
          constructor
          · split <;> simp [Project.preSave]
          · split <;> simp [Project.preSave]
        · simp only [List.mem_append, List.mem_singleton] at hmem
          rcases hmem with hold | hnew
          · exact Or.inl hold
          · right
            subst hnew
            simp [Project.preSave]

/-- The invariant survives the creation of a project. -/
theorem createProject_wellFormed (db : Db) (userId : UserId) (body : ProjectBody)
    (now : Nat) (newId : ProjectId) (h : WellFormed db) :
    WellFormed (createProject db userId body now newId).db := by
  obtain ⟨hvers, hprojs⟩ := createProject_db db userId body now newId
  refine ⟨by rw [hvers]; exact h.1, ?_⟩
  intro p hp
  rw [hvers]
  rcases hprojs p hp with hold | ⟨hc, hv⟩
  · exact h.2 p hold
  · exact ProjectOk.of_empty _ p hc hv

/-- The database after an upload that passes validation: the new version is
appended, and the project is saved with the new current version when the uploader
is the creator. -/
theorem createVersion_db (db : Db) (project : Project) (userId : UserId)
    (body : VersionBody) (now : Nat) (newId : VersionId)
    (hurl : truthy body.fileUrl = true) (hname : truthy body.fileName = true) :
    ∃ v,
      (createVersion db project userId body now newId).db.versions = db.versions ++ [v] ∧
      v.id = newId ∧ v.project = project.id ∧
      ((v.status = Status.approved ∧
        (createVersion db project userId body now newId).db.projects =
          (Project.save db
            { project with
                currentVersion := some newId,
                versions :=
                  if project.versions.contains newId then project.versions
                  else project.versions ++ [newId] } now).projects) ∨
        (createVersion db project userId body now newId).db.projects = db.projects) := by
  unfold createVersion
  simp only [hurl, hname, Bool.not_true, Bool.or_self, Bool.false_eq_true, if_false]
  rw [logActivity_of_mem _ _ _ _ _ (by decide)]
  by_cases hc : project.creator = userId
  · simp only [hc, decide_True, if_true]
    exact ⟨_, rfl, rfl, rfl, Or.inl ⟨rfl, rfl⟩⟩
  · simp only [hc, decide_False, Bool.false_eq_true, if_false]
    exact ⟨_, rfl, rfl, rfl, Or.inr rfl⟩

/-- An upload that fails validation stores nothing. -/
theorem createVersion_invalid (db : Db) (project : Project) (userId : UserId)
    (body : VersionBody) (now : Nat) (newId : VersionId)
    (h : ¬ (truthy body.fileUrl = true ∧ truthy body.fileName = true)) :
    (createVersion db project userId body now newId).db = db := by
  unfold createVersion
  have hguard : (!truthy body.fileUrl || !truthy body.fileName) = true := by
    cases hu : truthy body.fileUrl <;> cases hn : truthy body.fileName <;> simp_all
  rw [if_pos hguard]

/-- The invariant survives an upload under an id that no stored version has. -/
theorem createVersion_wellFormed (db : Db) (project : Project) (userId : UserId)
    (body : VersionBody) (now : Nat) (newId : VersionId) (h : WellFormed db)
    (hload : findProjectById db project.id = some project)
    (hfresh : ∀ v ∈ db.versions, v.id ≠ newId) :
    WellFormed (createVersion db project userId body now newId).db := by
  by_cases hvalid : truthy body.fileUrl = true ∧ truthy body.fileName = true
  · obtain ⟨v, hvers, hid, hproj, hprojs⟩ :=
      createVersion_db db project userId body now newId hvalid.1 hvalid.2
    have hpmem := (findProjectById_mem db project.id project hload).1
    constructor
    · rw [hvers, List.map_append, List.nodup_append]
      refine ⟨h.1, by simp, ?_⟩
      intro a ha hb
      simp only [List.map_cons, List.map_nil, List.mem_singleton] at hb
      simp only [List.mem_map] at ha
      obtain ⟨w, hw, hwa⟩ := ha
      exact hfresh w hw (by rw [hwa, hb, hid])
    · intro p hp
      rw [hvers]
      rcases hprojs with ⟨hstatus, hsaved⟩ | hsame
      · rw [hsaved] at hp
        rcases mem_save_projects _ _ _ p hp with heq | ⟨hmem, _⟩
        · subst heq
          have hnew : RefersToApproved (db.versions ++ [v]) project.id newId :=
            ⟨v, by simp, hid, hproj, hstatus⟩
          have hold : ∀ id ∈ project.versions,
              RefersToApproved (db.versions ++ [v]) project.id id := by
            intro id hmem
            obtain ⟨u, hu, h1, h2, h3⟩ := (h.2 project hpmem).2 id hmem
            exact ⟨u, by simp [hu], h1, h2, h3⟩
          constructor
          · intro c hc
            simp only [Option.some.injEq] at hc
            subst hc
            exact hnew
          · intro id hmem
            simp only at hmem
            split at hmem
            · exact hold id hmem
            · rcases List.mem_append.1 hmem with hm | hm
              · exact hold id hm
              · simp only [List.mem_singleton] at hm
                subst hm
                exact hnew
        · exact ProjectOk.mono _ _ p (h.2 p hmem) (fun u hu _ _ _ => by simp [hu])
      · rw [hsame] at hp
        exact ProjectOk.mono _ _ p (h.2 p hp) (fun u hu _ _ _ => by simp [hu])
  · rw [createVersion_invalid db project userId body now newId hvalid]
    exact h

/-- Either `updateVersionStatus` stores nothing, or the caller is the creator, the
status is a valid decision and the lookup finds a pending version of the
project. -/
theorem updateVersionStatus_cases (db : Db) (s3 : S3) (project : Project) (userId : UserId)
    (versionId : VersionId) (body : StatusBody) (now : Nat) :
    (updateVersionStatus db s3 project userId versionId body now).db = db ∨
    (userId = project.creator ∧
      (body.status = some "approved" ∨ body.status = some "rejected") ∧
      ∃ found, db.versions.find? (fun v =>
        decide (v.id = versionId ∧ v.project = project.id ∧ v.status = Status.pending))
          = some found) := by
  by_cases hvalid : body.status = some "approved" ∨ body.status = some "rejected"
  · by_cases hc : project.creator = userId
    · cases hfind : db.versions.find? (fun v =>
        decide (v.id = versionId ∧ v.project = project.id ∧ v.status = Status.pending)) with
      | none =>
        left
        unfold updateVersionStatus
        simp only [hfind]
        split
        · rfl
        · split <;> rfl
      | some found => exact Or.inr ⟨hc.symm, hvalid, found, rfl⟩
    · left
      unfold updateVersionStatus
      simp only [ne_eq, hc, not_false_eq_true, if_true]
      split <;> rfl
  · left
    unfold updateVersionStatus
    have hguard : (!truthy body.status ||
        !(["approved", "rejected"].contains (body.status.getD ""))) = true := by
      cases hs : body.status with
      | none => rfl
      | some st =>
        rw [hs] at hvalid
        simp only [Option.some.injEq] at hvalid
        have h1 : ¬ st = "approved" := fun h => hvalid (Or.inl h)
        have h2 : ¬ st = "rejected" := fun h => hvalid (Or.inr h)
        simp [h1, h2]
    rw [if_pos hguard]

/-- Saving a version keeps the ids of the collection. -/
theorem save_version_ids (db : Db) (v : Version) :
    (Version.save db v).versions.map (fun w => w.id) = db.versions.map (fun w => w.id) := by
  unfold Version.save
  simp only [List.map_map]
  apply List.map_congr_left
  intro w _
  by_cases hid : w.id = v.id <;> simp [hid]

/-- An approved version is still stored after a pending version was saved with a
decision. -/
theorem approved_mem_save (db : Db) (found decided u : Version)
    (hnodup : (db.versions.map (fun v => v.id)).Nodup)
    (hfound : found ∈ db.versions) (hpending : found.status = Status.pending)
    (hid : decided.id = found.id)
    (hu : u ∈ db.versions) (hs : u.status = Status.approved) :
    u ∈ (Version.save db decided).versions := by
  rw [mem_save_versions]
  right
  refine ⟨hu, ?_⟩
  intro huid
  have heq : u = found :=
    version_eq_of_id_eq db.versions hnodup u found hu hfound (huid.trans hid)
  rw [heq, hpending] at hs
  cases hs

/-- The invariant survives a decision on a version. -/
theorem updateVersionStatus_wellFormed (db : Db) (s3 : S3) (project : Project)
    (userId : UserId) (versionId : VersionId) (body : StatusBody) (now : Nat)
    (h : WellFormed db) (hload : findProjectById db project.id = some project) :
    WellFormed (updateVersionStatus db s3 project userId versionId body now).db := by
  rcases updateVersionStatus_cases db s3 project userId versionId body now with
    hsame | ⟨hcreator, hvalid, found, hfind⟩
  · rw [hsame]; exact h
  · subst hcreator
    have hfmem := List.mem_of_find?_eq_some hfind
    have hfpred := List.find?_some hfind
    simp only [decide_eq_true_eq] at hfpred
    obtain ⟨_, hfproj, hfpending⟩ := hfpred
    have hpmem := (findProjectById_mem db project.id project hload).1
    rcases hvalid with hstatus | hstatus
    · obtain ⟨db3, hreply, hvers, hprojs⟩ :=
        updateVersionStatus_approve_eq db s3 project versionId body now found hstatus hfind
      rw [hreply]
      constructor
      · show (db3.versions.map (fun v => v.id)).Nodup
        rw [hvers, save_version_ids]
        exact h.1
      · intro p hp
        show ProjectOk db3.versions p
        have hp2 : p ∈ db3.projects := hp
        rw [hprojs] at hp2
        rw [hvers]
        rcases mem_save_projects _ _ _ p hp2 with heq | ⟨hmem, _⟩
        · subst heq
          have hnew : RefersToApproved
              (Version.save db { found with
                status := Status.approved, approvedBy := some project.creator,
                approvedAt := some now,
                notes := if truthy body.notes then body.notes.getD "" else found.notes }).versions
              project.id found.id := by
            refine ⟨{ found with
                status := Status.approved, approvedBy := some project.creator,
                approvedAt := some now,
                notes := if truthy body.notes then body.notes.getD "" else found.notes },
              ?_, rfl, hfproj, rfl⟩
            rw [mem_save_versions]
            exact Or.inl ⟨rfl, found, hfmem, rfl⟩
          have hold : ∀ id ∈ project.versions, RefersToApproved
              (Version.save db { found with
                status := Status.approved, approvedBy := some project.creator,
                approvedAt := some now,
                notes := if truthy body.notes then body.notes.getD "" else found.notes }).versions
              project.id id := by
            intro id hmem
            obtain ⟨u, hu, h1, h2, h3⟩ := (h.2 project hpmem).2 id hmem
            exact ⟨u, approved_mem_save db found _ u h.1 hfmem hfpending rfl hu h3, h1, h2, h3⟩
          constructor
          · intro c hc
            simp only [Option.some.injEq] at hc
            subst hc
            exact hnew
          · intro id hmem
            simp only at hmem
            split at hmem
            · exact hold id hmem
            · rcases List.mem_append.1 hmem with hm | hm
              · exact hold id hm
              · simp only [List.mem_singleton] at hm
                subst hm
                exact hnew
        · exact ProjectOk.mono _ _ p (h.2 p hmem)
            (fun u hu _ hs _ => approved_mem_save db found _ u h.1 hfmem hfpending rfl hu hs)
    · obtain ⟨hvers, hprojs, _⟩ :=
        updateVersionStatus_reject_eq db s3 project versionId body now found hstatus hfind
      constructor
      · rw [hvers, save_version_ids]
        exact h.1
      · intro p hp
        rw [hprojs] at hp
        rw [hvers]
        exact ProjectOk.mono _ _ p (h.2 p hp)
          (fun u hu _ hs _ => approved_mem_save db found _ u h.1 hfmem hfpending rfl hu hs)

/-- Either `deleteVersion` stores nothing, or the caller is the creator and the
lookup finds a version of the project. -/
theorem deleteVersion_cases (db : Db) (s3 : S3) (project : Project) (userId : UserId)
    (versionId : VersionId) (now : Nat) :
    (deleteVersion db s3 project userId versionId now).db = db ∨
    (userId = project.creator ∧ ∃ version, db.versions.find? (fun v =>
      decide (v.id = versionId ∧ v.project = project.id)) = some version) := by
  by_cases hc : project.creator = userId
  · cases hfind : db.versions.find? (fun v =>
        decide (v.id = versionId ∧ v.project = project.id)) with
    | none =>
      left
      unfold deleteVersion
      simp only [hfind]
      split <;> rfl
    | some version => exact Or.inr ⟨hc.symm, version, rfl⟩
  · left
    unfold deleteVersion
    simp only [ne_eq, hc, not_false_eq_true, if_true]

/-- Either `revertToVersion` stores nothing, or the caller is the creator and the
lookup finds an approved version of the project. -/
theorem revertToVersion_cases (db : Db) (s3 : S3) (project : Project) (userId : UserId)
    (versionId : VersionId) (now : Nat) :
    (revertToVersion db s3 project userId versionId now).db = db ∨
    (userId = project.creator ∧ ∃ target, db.versions.find? (fun v =>
      decide (v.id = versionId ∧ v.project = project.id ∧ v.status = Status.approved))
        = some target) := by
  by_cases hc : project.creator = userId
  · cases hfind : db.versions.find? (fun v =>
        decide (v.id = versionId ∧ v.project = project.id ∧ v.status = Status.approved)) with
    | none =>
      left
      unfold revertToVersion
      simp only [hfind]
      split <;> rfl
    | some target => exact Or.inr ⟨hc.symm, target, rfl⟩
  · left
    unfold revertToVersion
    simp only [ne_eq, hc, not_false_eq_true, if_true]

/-- The invariant survives the deletion of a version. -/
theorem deleteVersion_wellFormed (db : Db) (s3 : S3) (project : Project) (userId : UserId)
    (versionId : VersionId) (now : Nat)
    (h : WellFormed db) (hload : findProjectById db project.id = some project) :
    WellFormed (deleteVersion db s3 project userId versionId now).db := by
  rcases deleteVersion_cases db s3 project userId versionId now with
    hsame | ⟨hcreator, version, hfind⟩
  · rw [hsame]; exact h
  · subst hcreator
    have hvmem := List.mem_of_find?_eq_some hfind
    have hvpred := List.find?_some hfind
    simp only [decide_eq_true_eq] at hvpred
    obtain ⟨hvid, hvproj⟩ := hvpred
    have hpmem := (findProjectById_mem db project.id project hload).1
    rw [deleteVersion_eq db s3 project versionId now version hfind]
    have hvers : ∀ w, w ∈ db.versions → w.id ≠ versionId →
        w ∈ db.versions.filter (fun w => decide (w.id ≠ versionId)) := by
      intro w hw hne
      simp [List.mem_filter, hw, hne]
    constructor
    · show ((db.versions.filter (fun w => decide (w.id ≠ versionId))).map
        (fun v => v.id)).Nodup
      exact List.Nodup.sublist (List.Sublist.map _ (List.filter_sublist _)) h.1
    · intro p hp
      show ProjectOk (db.versions.filter (fun w => decide (w.id ≠ versionId))) p
      rcases mem_save_projects db _ now p hp with heq | ⟨hmem, hne⟩
      · subst heq
        constructor
        · intro c hc
          simp only at hc
          split at hc
          · cases hlatest : findLatestApproved db project.id versionId with
            | none => rw [hlatest] at hc; cases hc
            | some latest =>
              rw [hlatest] at hc
              simp only [Option.map_some', Option.some.injEq] at hc
              subst hc
              obtain ⟨hlm, _⟩ := maxByVersionNumber_some _ latest hlatest
              simp only [List.mem_filter, decide_eq_true_eq] at hlm
              exact ⟨latest, hvers latest hlm.1 hlm.2.2.2, rfl, hlm.2.1, hlm.2.2.1⟩
          · rename_i hcur
            obtain ⟨u, hu, h1, h2, h3⟩ := (h.2 project hpmem).1 c hc
            refine ⟨u, hvers u hu ?_, h1, h2, h3⟩
            intro huid
            exact hcur (by rw [hc, ← h1, huid])
        · intro id hmem
          simp only [List.mem_filter, decide_eq_true_eq] at hmem
          obtain ⟨u, hu, h1, h2, h3⟩ := (h.2 project hpmem).2 id hmem.1
          exact ⟨u, hvers u hu (by rw [h1]; exact hmem.2), h1, h2, h3⟩
      · refine ProjectOk.mono _ _ p (h.2 p hmem) ?_
        intro u hu hup _ _
        apply hvers u hu
        intro huid
        have heq : u = version :=
          version_eq_of_id_eq db.versions h.1 u version hu hvmem (huid.trans hvid.symm)
        apply hne
        show p.id = project.id
        rw [← hup, heq, hvproj]

/-- The invariant survives a revert. -/
theorem revertToVersion_wellFormed (db : Db) (s3 : S3) (project : Project) (userId : UserId)
    (versionId : VersionId) (now : Nat)
    (h : WellFormed db) (hload : findProjectById db project.id = some project) :
    WellFormed (revertToVersion db s3 project userId versionId now).db := by
  rcases revertToVersion_cases db s3 project userId versionId now with
    hsame | ⟨hcreator, target, hfind⟩
  · rw [hsame]; exact h
  · subst hcreator
    have htmem := List.mem_of_find?_eq_some hfind
    have htpred := List.find?_some hfind
    simp only [decide_eq_true_eq] at htpred
    obtain ⟨_, htproj, htstatus⟩ := htpred
    have hpmem := (findProjectById_mem db project.id project hload).1
    obtain ⟨_, _, hdb⟩ := revertToVersion_eq db s3 project versionId now target hfind
    rw [hdb]
    have hvers : ∀ w, w ∈ db.versions →
        (∀ n : Version, (n ∈ db.versions ∧ n.project = project.id ∧
          target.versionNumber < n.versionNumber ∧ n.status = Status.approved) →
          w.id ≠ n.id) →
        w ∈ db.versions.filter (fun w =>
          (db.versions.filter (fun v =>
            decide (v.project = project.id ∧ target.versionNumber < v.versionNumber ∧
              v.status = Status.approved))).all (fun n => decide (w.id ≠ n.id))) := by
      intro w hw hall
      simp only [List.mem_filter, List.all_eq_true, decide_eq_true_eq]
      exact ⟨hw, hall⟩
    constructor
    · show ((db.versions.filter _).map (fun v => v.id)).Nodup
      exact List.Nodup.sublist (List.Sublist.map _ (List.filter_sublist _)) h.1
    · intro p hp
      show ProjectOk (db.versions.filter _) p
      rcases mem_save_projects _ _ now p hp with heq | ⟨hmem, hne⟩
      · subst heq
        constructor
        · intro c hc
          simp only [Option.some.injEq] at hc
          subst hc
          refine ⟨target, hvers target htmem ?_, rfl, htproj, htstatus⟩
          intro n hn hid
          have heq : target = n :=
            version_eq_of_id_eq db.versions h.1 target n htmem hn.1 hid
          subst heq
          omega
        · intro id hmem
          simp only [List.mem_filter, List.all_eq_true, decide_eq_true_eq] at hmem
          obtain ⟨u, hu, h1, h2, h3⟩ := (h.2 project hpmem).2 id hmem.1
          refine ⟨u, hvers u hu ?_, h1, h2, h3⟩
          intro n hn
          rw [h1]
          exact hmem.2 n hn
      · refine ProjectOk.mono _ _ p (h.2 p hmem) ?_
        intro u hu hup _ _
        apply hvers u hu
        intro n hn huid
        have heq : u = n := version_eq_of_id_eq db.versions h.1 u n hu hn.1 huid
        apply hne
        show p.id = project.id
        rw [← hup, heq, hn.2.1]

/-- The invariant carries over to a database with the same versions whose projects
refer to the same versions. -/
theorem wellFormed_of_versionsUntouched (db db2 : Db) (h : WellFormed db)
    (hsame : VersionsUntouched db db2) : WellFormed db2 := by
  obtain ⟨hv, hp⟩ := hsame
  constructor
  · rw [hv]
    exact h.1
  · intro p2 hp2
    obtain ⟨p, hpmem, hid, hc, hvs⟩ := hp p2 hp2
    have hok := h.2 p hpmem
    rw [hv]
    constructor
    · intro c hcur
      rw [hid]
      exact hok.1 c (by rw [← hc]; exact hcur)
    · intro id hmem
      rw [hid]
      exact hok.2 id (by rw [← hvs]; exact hmem)

/-- A database that is left alone keeps its versions. -/
theorem versionsUntouched_refl (db : Db) : VersionsUntouched db db :=
  ⟨rfl, fun p hp => ⟨p, hp, rfl, rfl, rfl⟩⟩

/-- Saving a stored project with its current version and its `versions` list as
they were, and logging an activity, keeps the versions. -/
theorem versionsUntouched_save (db : Db) (project q : Project) (now : Nat)
    (activities : List Activity) (hmem : project ∈ db.projects) (hid : q.id = project.id)
    (hc : q.currentVersion = project.currentVersion) (hv : q.versions = project.versions) :
    VersionsUntouched db { Project.save db q now with activities := activities } := by
  refine ⟨rfl, ?_⟩
  intro p2 hp2
  rcases mem_save_projects db q now p2 hp2 with rfl | ⟨hold, _⟩
  · exact ⟨project, hmem, hid, hc, hv⟩
  · exact ⟨p2, hold, rfl, rfl, rfl⟩

/-- The controller `addUserToProject` keeps the versions. -/
theorem addUserToProject_versionsUntouched (db : Db) (userId : UserId) (projectId : ProjectId)
    (body : AddUserBody) (now : Nat) :
    VersionsUntouched db (addUserToProject db userId projectId body now).db := by
  unfold addUserToProject
  split
  · exact versionsUntouched_refl db
  · split
    · exact versionsUntouched_refl db
    · cases hload : findProjectById db projectId with
      | none => exact versionsUntouched_refl db
      | some project =>
        have hmem := (findProjectById_mem db projectId project hload).1
        simp only []
        split
        · exact versionsUntouched_refl db
        · cases huser : db.users.find? (fun u => decide (u.email = body.email.getD "")) with
          | none => exact versionsUntouched_refl db
          | some userToAdd =>
            simp only []
            cases htype : AccessType.ofString? (body.accessType.getD "") with
            | none => exact versionsUntouched_refl db
            | some accessType =>
              simp only []
              rw [logActivity_of_mem _ _ _ _ _ (by decide)]
              cases hfind : project.accessibleBy.find?
                  (fun access => decide (access.user = userToAdd.id)) with
              | none => exact versionsUntouched_save db project _ now _ hmem rfl rfl rfl
              | some e => exact versionsUntouched_save db project _ now _ hmem rfl rfl rfl

/-- The controller `removeUserFromProject` keeps the versions. -/
theorem removeUserFromProject_versionsUntouched (db : Db) (creatorId : UserId)
    (projectId : ProjectId) (userIdToRemove : UserId) (now : Nat) :
    VersionsUntouched db (removeUserFromProject db creatorId projectId userIdToRemove now).db := by
  unfold removeUserFromProject
  cases hload : findProjectById db projectId with
  | none => exact versionsUntouched_refl db
  | some project =>
    have hmem := (findProjectById_mem db projectId project hload).1
    simp only []
    split
    · exact versionsUntouched_refl db
    · split
      · exact versionsUntouched_refl db
      · rw [logActivity_of_mem _ _ _ _ _ (by decide)]
        exact versionsUntouched_save db project _ now _ hmem rfl rfl rfl

/-- The controller `requestAccess` keeps the versions. -/
theorem requestAccess_versionsUntouched (db : Db) (userId : UserId) (projectId : ProjectId)
    (body : RequestAccessBody) (now : Nat) (newId : RequestId) :
    VersionsUntouched db (requestAccess db userId projectId body now newId).db := by
  unfold requestAccess
  cases hload : findProjectById db projectId with
  | none => exact versionsUntouched_refl db
  | some project =>
    have hmem := (findProjectById_mem db projectId project hload).1
    simp only []
    split
    · exact versionsUntouched_refl db
    · split
      · exact versionsUntouched_refl db
      · cases hparse : RequestType.ofString? (body.requestType.getD "editor") with
        | none => exact versionsUntouched_refl db
        | some requestType =>
          simp only []
          rw [logActivity_of_mem _ _ _ _ _ (by decide)]
          exact versionsUntouched_save db project _ now _ hmem rfl rfl rfl

/-- The controller `handleAccessRequest` keeps the versions. -/
theorem handleAccessRequest_versionsUntouched (db : Db) (userId : UserId)
    (projectId : ProjectId) (requestId : RequestId) (body : HandleRequestBody) (now : Nat) :
    VersionsUntouched db (handleAccessRequest db userId projectId requestId body now).db := by
  unfold handleAccessRequest
  by_cases hvalid : (!(["approved", "rejected"].contains (body.status.getD ""))) = true
  · rw [if_pos hvalid]
    exact versionsUntouched_refl db
  · rw [if_neg hvalid]
    cases hload : findProjectById db projectId with
    | none => exact versionsUntouched_refl db
    | some project =>
      have hmem := (findProjectById_mem db projectId project hload).1
      simp only []
      by_cases hc : project.creator ≠ userId
      · rw [if_pos hc]
        exact versionsUntouched_refl db
      · rw [if_neg hc]
        cases hreq : project.accessRequests.find? (fun r => decide (r.id = requestId)) with
        | none => exact versionsUntouched_refl db
        | some request =>
          simp only []
          by_cases happ : body.status.getD "" = "approved"
          · simp only [happ, if_true]
            cases hparse : AccessType.ofString?
                (if truthy body.accessType = true then body.accessType.getD ""
                  else request.requestType.toString) with
            | none => exact versionsUntouched_refl db
            | some granted =>
              simp only []
              cases hfind : project.accessibleBy.find?
                  (fun access => decide (access.user = request.user)) with
              | none =>
                simp only []
                rw [logActivity_of_mem _ _ _ _ _ (by decide)]
                exact versionsUntouched_save db project _ now _ hmem rfl rfl rfl
              | some e =>
                simp only []
                rw [logActivity_of_mem _ _ _ _ _ (by decide)]
                exact versionsUntouched_save db project _ now _ hmem rfl rfl rfl
          · simp only [happ, if_false,
              show ¬ (Status.rejected = Status.approved) from by decide]
            rw [logActivity_of_mem _ _ _ _ _ (by decide)]
            exact versionsUntouched_save db project _ now _ hmem rfl rfl rfl

/-- The invariant survives every request. -/
theorem handle_wellFormed (db : Db) (request : Request) (h : WellFormed db) :
    WellFormed (handle db request) := by
  cases request with
  | createProject userId body now newId =>
    simp only [handle]
    split
    · exact h
    · exact createProject_wellFormed db userId body now newId h
  | addUserToProject userId projectId body now =>
    simp only [handle]
    split
    · exact h
    · exact wellFormed_of_versionsUntouched db _ h
        (addUserToProject_versionsUntouched db userId projectId body now)
  | removeUserFromProject userId projectId userIdToRemove now =>
    simp only [handle]
    split
    · exact h
    · exact wellFormed_of_versionsUntouched db _ h
        (removeUserFromProject_versionsUntouched db userId projectId userIdToRemove now)
  | requestAccess userId projectId body now newId =>
    simp only [handle]
    exact wellFormed_of_versionsUntouched db _ h
      (requestAccess_versionsUntouched db userId projectId body now newId)
  | handleAccessRequest userId projectId requestId body now =>
    simp only [handle]
    split
    · exact h
    · exact wellFormed_of_versionsUntouched db _ h
        (handleAccessRequest_versionsUntouched db userId projectId requestId body now)
  | createVersion userId projectId body now newId =>
    simp only [handle]
    split
    · exact h
    · rename_i project hok
      have hload := checkProjectAccess_ok db userId projectId "edit" project hok
      have hid := (findProjectById_mem db projectId project hload).2
      subst hid
      split
      · exact h
      · rename_i hfresh
        apply createVersion_wellFormed db project userId body now newId h hload
        intro v hv hid
        apply hfresh
        simp only [List.any_eq_true, decide_eq_true_eq]
        exact ⟨v, hv, hid⟩
  | updateVersionStatus userId projectId versionId body now s3 =>
    simp only [handle]
    split
    · exact h
    · rename_i project hok
      have hload := checkProjectAccess_ok db userId projectId "admin" project hok
      have hid := (findProjectById_mem db projectId project hload).2
      subst hid
      exact updateVersionStatus_wellFormed db s3 project userId versionId body now h hload
  | deleteVersion userId projectId versionId now s3 =>
    simp only [handle]
    split
    · exact h
    · rename_i project hok
      have hload := checkProjectAccess_ok db userId projectId "admin" project hok
      have hid := (findProjectById_mem db projectId project hload).2
      subst hid
      exact deleteVersion_wellFormed db s3 project userId versionId now h hload
  | revertToVersion userId projectId versionId now s3 =>
    simp only [handle]
    split
    · exact h
    · rename_i project hok
      have hload := checkProjectAccess_ok db userId projectId "admin" project hok
      have hid := (findProjectById_mem db projectId project hload).2
      subst hid
      exact revertToVersion_wellFormed db s3 project userId versionId now h hload

/-- The invariant survives every sequence of requests. -/
theorem run_wellFormed (requests : List Request) (db : Db) (h : WellFormed db) :
    WellFormed (run db requests) := by
  induction requests generalizing db with
  | nil => exact h
  | cons request rest ih => exact ih (handle db request) (handle_wellFormed db request h)

/-- A database without projects and versions satisfies the invariant. -/
theorem initialDb_wellFormed (users : List User) : WellFormed (initialDb users) := by
  constructor
  · exact List.nodup_nil
  · intro p hp
    cases hp

/-- C15: in every state reached from a database without projects through requests
to createProject, to the membership and access-request routes and to
createVersion, updateVersionStatus, deleteVersion and revertToVersion, each behind
its access middleware, the current version of every project is null or the id of a
stored approved version of that project. -/
theorem currentVersion_approved_in_reachable (users : List User) (requests : List Request)
    (p : Project) (hp : p ∈ (run (initialDb users) requests).projects) :
    p.currentVersion = none ∨
    ∃ v ∈ (run (initialDb users) requests).versions,
      p.currentVersion = some v.id ∧ v.project = p.id ∧ v.status = Status.approved := by
  have hwf := run_wellFormed requests (initialDb users) (initialDb_wellFormed users)
  cases hc : p.currentVersion with
  | none => exact Or.inl rfl
  | some c =>
    right
    obtain ⟨v, hv, hid, hproj, hstatus⟩ := (hwf.2 p hp).1 c hc
    exact ⟨v, hv, by rw [hid], hproj, hstatus⟩

/-- C15 on a run: after `sampleRequests` the stored versions are an approved upload
of the creator, an upload of the editor that the creator approved, one that the
creator rejected and one that is pending; the project is stored with the approved
upload of the editor as current version. -/
theorem currentVersion_approved_in_reachable_witness :
    sampleRun.versions.map (fun v => (v.id, v.versionNumber, v.uploadedBy, v.status))
      = [(100, 1, 1, Status.approved), (101, 2, 2, Status.approved),
         (102, 3, 2, Status.rejected), (103, 4, 2, Status.pending)] ∧
    sampleRunProject ∈ sampleRun.projects ∧
    (sampleRunProject.currentVersion = none ∨
      ∃ v ∈ sampleRun.versions,
        sampleRunProject.currentVersion = some v.id ∧ v.project = sampleRunProject.id ∧
          v.status = Status.approved) :=
  ⟨by decide, by decide,
    currentVersion_approved_in_reachable sampleDb.users sampleRequests sampleRunProject
      (by decide)⟩

/-- After a revert in a state that satisfies the invariant, the target is the
current version and no stored version with a greater number is listed in
`project.versions`. -/
theorem revertToVersion_guarantee_of_wellFormed (db : Db) (s3 : S3) (project : Project)
    (target : Version) (now : Nat) (h : WellFormed db)
    (hmem : target ∈ db.versions) (hproject : target.project = project.id)
    (hstatus : target.status = Status.approved)
    (hload : findProjectById db project.id = some project) :
    ∃ stored,
      findProjectById (revertToVersion db s3 project project.creator target.id now).db
        project.id = some stored ∧
      stored.currentVersion = some target.id ∧
      ∀ v ∈ db.versions, target.versionNumber < v.versionNumber → v.id ∉ stored.versions := by
  obtain ⟨found, hfind, hfmem, hfpred⟩ := find?_of_mem db.versions
    (fun v => decide (v.id = target.id ∧ v.project = project.id ∧
      v.status = Status.approved)) target hmem (by simp [hproject, hstatus])
  simp only [decide_eq_true_eq] at hfpred
  have hft : found = target := version_eq_of_id_eq db.versions h.1 found target hfmem hmem
    hfpred.1
  subst hft
  obtain ⟨_, _, hdb⟩ := revertToVersion_eq db s3 project found.id now found hfind
  rw [hdb]
  have hpmem := (findProjectById_mem db project.id project hload).1
  refine ⟨{ project with
      versions := project.versions.filter (fun v =>
        (db.versions.filter (fun v =>
          decide (v.project = project.id ∧ found.versionNumber < v.versionNumber ∧
            v.status = Status.approved))).all (fun n => decide (v ≠ n.id))),
      currentVersion := some found.id }, ?_, rfl, ?_⟩
  · exact findProjectById_save _ project _ now rfl hload
  · intro v hv hgt hin
    simp only [List.mem_filter, List.all_eq_true, decide_eq_true_eq] at hin
    obtain ⟨u, hu, h1, h2, h3⟩ := (h.2 project hpmem).2 v.id hin.1
    have heq : u = v := version_eq_of_id_eq db.versions h.1 u v hu hv h1
    subst heq
    exact hin.2 u ⟨hu, h2, hgt, h3⟩ rfl

/-- C18: in every state reached through requests to createProject, to the
membership and access-request routes and to the version routes, after the creator
reverts to an approved version of the project the stored project has the target
as current version and its `versions` holds no id of a version with a number
greater than the target's, whether that version was deleted by the revert or,
being pending or rejected, is still stored. -/
theorem revertToVersion_guarantee (users : List User) (requests : List Request) (s3 : S3)
    (project : Project) (target : Version) (now : Nat)
    (hmem : target ∈ (run (initialDb users) requests).versions)
    (hproject : target.project = project.id) (hstatus : target.status = Status.approved)
    (hload : findProjectById (run (initialDb users) requests) project.id = some project) :
    ∃ stored,
      findProjectById
        (revertToVersion (run (initialDb users) requests) s3 project project.creator
          target.id now).db project.id = some stored ∧
      stored.currentVersion = some target.id ∧
      ∀ v ∈ (run (initialDb users) requests).versions,
        target.versionNumber < v.versionNumber → v.id ∉ stored.versions :=
  revertToVersion_guarantee_of_wellFormed (run (initialDb users) requests) s3 project target
    now (run_wellFormed requests (initialDb users) (initialDb_wellFormed users))
    hmem hproject hstatus hload

/-- C18 on a run: after `sampleRequests` the creator reverts to the first upload.
The approved upload of the editor is deleted; the rejected and the pending upload,
numbered 3 and 4, stay in the collection and are not listed in the project. -/
theorem revertToVersion_guarantee_witness :
    firstStored ∈ sampleRun.versions ∧
    findProjectById sampleRun sampleRunProject.id = some sampleRunProject ∧
    (revertToVersion sampleRun workingS3 sampleRunProject sampleRunProject.creator
        firstStored.id 8).db.versions.map (fun v => (v.id, v.versionNumber, v.status))
      = [(100, 1, Status.approved), (102, 3, Status.rejected), (103, 4, Status.pending)] ∧
    ∃ stored,
      findProjectById
        (revertToVersion sampleRun workingS3 sampleRunProject sampleRunProject.creator
          firstStored.id 8).db sampleRunProject.id = some stored ∧
      stored.currentVersion = some firstStored.id ∧
      ∀ v ∈ sampleRun.versions,
        firstStored.versionNumber < v.versionNumber → v.id ∉ stored.versions :=
  ⟨by decide, by decide, by decide,
    revertToVersion_guarantee sampleDb.users sampleRequests workingS3 sampleRunProject
      firstStored 8 (by decide) rfl rfl (by decide)⟩

/-! ## Access requests -/

/-- The reply of `requestAccess` on a stored project when the body asks for the
default request type: 400 and no change when the first access entry of the
requester is a creator or editor entry or the requester has a pending request,
and otherwise 200 with one pending request of the requester appended. -/
theorem requestAccess_eq (db : Db) (userId : UserId) (projectId : ProjectId)
    (body : RequestAccessBody) (now : Nat) (newId : RequestId) (project : Project)
    (hload : findProjectById db projectId = some project)
    (htype : body.requestType = none ∨ body.requestType = some "editor") :
    (((match project.accessibleBy.find? (fun access => decide (access.user = userId)) with
        | some access => [AccessType.creator, AccessType.editor].contains access.accessType
        | none => false) = true ∨
      (project.accessRequests.find? (fun request =>
        decide (request.user = userId ∧ request.status = Status.pending))).isSome = true) →
      requestAccess db userId projectId body now newId = ⟨400, none, db⟩) ∧
    (¬ ((match project.accessibleBy.find? (fun access => decide (access.user = userId)) with
        | some access => [AccessType.creator, AccessType.editor].contains access.accessType
        | none => false) = true ∨
      (project.accessRequests.find? (fun request =>
        decide (request.user = userId ∧ request.status = Status.pending))).isSome = true) →
      (requestAccess db userId projectId body now newId).status = 200 ∧
      (requestAccess db userId projectId body now newId).db.projects =
        (Project.save db
          { project with accessRequests := project.accessRequests ++
              [{ id := newId, user := userId, requestType := RequestType.editor,
                 message := if truthy body.message then body.message.getD ""
                   else "No message provided",
                 requestedAt := now, status := Status.pending }] } now).projects) := by
  have hparse : RequestType.ofString? (body.requestType.getD "editor") = some RequestType.editor := by
    rcases htype with h | h <;> rw [h] <;> rfl
  constructor
  · intro hblocked
    unfold requestAccess
    simp only [hload]
    rcases hblocked with h | h
    · rw [if_pos h]
    · split <;> rfl
  · intro hfree
    have h1 : ¬ ((match project.accessibleBy.find? (fun access => decide (access.user = userId)) with
        | some access => [AccessType.creator, AccessType.editor].contains access.accessType
        | none => false) = true) := fun h => hfree (Or.inl h)
    have h2 : ¬ ((project.accessRequests.find? (fun request =>
        decide (request.user = userId ∧ request.status = Status.pending))).isSome = true) :=
      fun h => hfree (Or.inr h)
    unfold requestAccess
    simp only [hload, hparse]
    rw [if_neg h1, if_neg h2, logActivity_of_mem _ _ _ _ _ (by decide)]
    exact ⟨rfl, rfl⟩

/-- The first test of `requestAccess`, on the first access entry of the requester. -/
theorem hasEditorAccess_iff (l : List AccessEntry) (userId : UserId) :
    (match l.find? (fun access => decide (access.user = userId)) with
      | some access => [AccessType.creator, AccessType.editor].contains access.accessType
      | none => false) = true ↔
    ∃ e, l.find? (fun access => decide (access.user = userId)) = some e ∧
      (e.accessType = AccessType.creator ∨ e.accessType = AccessType.editor) := by
  cases h : l.find? (fun access => decide (access.user = userId)) with
  | none => simp
  | some e => cases ht : e.accessType <;> simp [ht]

/-- The second test of `requestAccess`, for a pending request of the requester. -/
theorem hasPendingRequest_iff (l : List AccessRequest) (userId : UserId) :
    (l.find? (fun request =>
      decide (request.user = userId ∧ request.status = Status.pending))).isSome = true ↔
    ∃ r ∈ l, r.user = userId ∧ r.status = Status.pending := by
  rw [List.find?_isSome]
  simp

/-- C21, refuted as stated: user 1 has a creator entry in `accessibleBy` behind a
viewer entry and no pending request, yet the request is accepted and stored; and
user 2, a viewer without a pending request, is refused with a 500 when the body
asks for request type `viewer`. -/
theorem requestAccess_not_exactly_when :
    findProjectById shadowedDb 10 = some shadowedProject ∧
    (∃ e ∈ shadowedProject.accessibleBy, e.user = 1 ∧ e.accessType = AccessType.creator) ∧
    (requestAccess shadowedDb 1 10 ⟨some "let me edit", none⟩ 9 70).status = 200 ∧
    (findProjectById (requestAccess shadowedDb 1 10 ⟨some "let me edit", none⟩ 9 70).db 10).map
      (fun p => p.accessRequests)
      = some [⟨70, 1, RequestType.editor, "let me edit", 9, Status.pending⟩] ∧
    (shadowedProject.accessibleBy.find? (fun access => decide (access.user = 2))).map
      (fun access => access.accessType) = some AccessType.viewer ∧
    shadowedProject.accessRequests = [] ∧
    (requestAccess shadowedDb 2 10 ⟨some "let me edit", some "viewer"⟩ 9 70).status = 500 ∧
    (requestAccess shadowedDb 2 10 ⟨some "let me edit", some "viewer"⟩ 9 70).db = shadowedDb := by
  refine ⟨by decide, ⟨⟨1, AccessType.creator, 0⟩, by decide, rfl, rfl⟩, by decide, by decide,
    by decide, rfl, by decide, by decide⟩

/-- C21, amended: on a stored project and with the default request type,
`requestAccess` is refused with 400, leaving the database as it is, exactly when
the first access entry of the requester has type creator or editor or the
requester has a pending request on the project; in every other case it answers
200 and appends one pending request of the requester. -/
theorem requestAccess_rejected_iff_first_entry (db : Db) (userId : UserId)
    (projectId : ProjectId) (body : RequestAccessBody) (now : Nat) (newId : RequestId)
    (project : Project)
    (hload : findProjectById db projectId = some project)
    (htype : body.requestType = none ∨ body.requestType = some "editor") :
    ((requestAccess db userId projectId body now newId).status = 400 ↔
      ((∃ e, project.accessibleBy.find? (fun access => decide (access.user = userId)) = some e ∧
          (e.accessType = AccessType.creator ∨ e.accessType = AccessType.editor)) ∨
       (∃ r ∈ project.accessRequests, r.user = userId ∧ r.status = Status.pending))) ∧
    ((requestAccess db userId projectId body now newId).status = 400 →
      (requestAccess db userId projectId body now newId).db = db) ∧
    ((requestAccess db userId projectId body now newId).status ≠ 400 →
      (requestAccess db userId projectId body now newId).status = 200 ∧
      ∃ stored request,
        findProjectById (requestAccess db userId projectId body now newId).db projectId
          = some stored ∧
        stored.accessRequests = project.accessRequests ++ [request] ∧
        request.id = newId ∧ request.user = userId ∧ request.status = Status.pending ∧
        stored.accessibleBy = project.accessibleBy) := by
  obtain ⟨hblocked, hfree⟩ := requestAccess_eq db userId projectId body now newId project hload htype
  rw [hasEditorAccess_iff, hasPendingRequest_iff] at hblocked hfree
  have hid := (findProjectById_mem db projectId project hload).2
  by_cases hb : (∃ e, project.accessibleBy.find? (fun access => decide (access.user = userId)) = some e ∧
          (e.accessType = AccessType.creator ∨ e.accessType = AccessType.editor)) ∨
       (∃ r ∈ project.accessRequests, r.user = userId ∧ r.status = Status.pending)
  · have hreply := hblocked hb
    rw [hreply]
    exact ⟨⟨fun _ => hb, fun _ => rfl⟩, fun _ => rfl, fun h => absurd rfl h⟩
  · obtain ⟨hstatus, hprojs⟩ := hfree hb
    refine ⟨⟨fun h => ?_, fun h => absurd h hb⟩, fun h => ?_, fun _ => ⟨hstatus, ?_⟩⟩
    · rw [hstatus] at h; cases h
    · rw [hstatus] at h; cases h
    · refine ⟨{ project with accessRequests := project.accessRequests ++
          [{ id := newId, user := userId, requestType := RequestType.editor,
             message := if truthy body.message then body.message.getD ""
               else "No message provided",
             requestedAt := now, status := Status.pending }] }, _, ?_, rfl, rfl, rfl, rfl, rfl⟩
      have hsave := findProjectById_save db project
        { project with accessRequests := project.accessRequests ++
          [{ id := newId, user := userId, requestType := RequestType.editor,
             message := if truthy body.message then body.message.getD ""
               else "No message provided",
             requestedAt := now, status := Status.pending }] } now rfl
        (by rw [hid]; exact hload)
      unfold findProjectById at hsave ⊢
      rw [hprojs, ← hid]
      exact hsave

/-- C21 on a run: user 3 is not in the access list of the created project and has
no pending request, and the request is stored. -/
theorem requestAccess_rejected_iff_first_entry_witness :
    findProjectById createdDb 10 = some createdProject ∧
    (requestAccess createdDb 3 10 ⟨none, none⟩ 9 70).status ≠ 400 ∧
    (requestAccess createdDb 3 10 ⟨none, none⟩ 9 70).status = 200 :=
  ⟨by decide, by decide,
    ((requestAccess_rejected_iff_first_entry createdDb 3 10 ⟨none, none⟩ 9 70 createdProject
      (by decide) (Or.inl rfl)).2.2 (by decide)).1⟩

/-! ## Deciding access requests and membership -/

/-- The lookup finds the updated element after `updateFirst`, when the update
keeps the test true. -/
theorem find?_updateFirst {α : Type} (pred : α → Bool) (f : α → α) (l : List α)
    (hkeep : ∀ x, pred x = true → pred (f x) = true) :
    (updateFirst pred f l).find? pred = (l.find? pred).map f := by
  induction l with
  | nil => rfl
  | cons x xs ih =>
    unfold updateFirst
    by_cases hx : pred x = true
    · simp [hx, List.find?_cons, hkeep x hx]
    · simp [hx, List.find?_cons, ih]

/-- An update that keeps a field keeps the list of that field. -/
theorem map_updateFirst {α β : Type} (pred : α → Bool) (f : α → α) (g : α → β) (l : List α)
    (hkeep : ∀ x, g (f x) = g x) :
    (updateFirst pred f l).map g = l.map g := by
  induction l with
  | nil => rfl
  | cons x xs ih =>
    unfold updateFirst
    by_cases hx : pred x = true
    · simp [hx, hkeep x]
    · simp [hx, ih]

/-- The elements outside the test of `updateFirst` are untouched. -/
theorem filter_updateFirst_of_disjoint {α : Type} (pred q : α → Bool) (f : α → α)
    (l : List α) (hq : ∀ x, pred x = true → q x = false ∧ q (f x) = false) :
    (updateFirst pred f l).filter q = l.filter q := by
  induction l with
  | nil => rfl
  | cons x xs ih =>
    unfold updateFirst
    by_cases hx : pred x = true
    · simp [hx, List.filter_cons, (hq x hx).1, (hq x hx).2]
    · simp only [hx, Bool.false_eq_true, if_false, List.filter_cons, ih]

/-- An update whose result fails a test does not add elements that pass it. -/
theorem length_filter_updateFirst_le {α : Type} (pred q : α → Bool) (f : α → α)
    (l : List α) (hq : ∀ x, q (f x) = false) :
    ((updateFirst pred f l).filter q).length ≤ (l.filter q).length := by
  induction l with
  | nil => exact Nat.le_refl _
  | cons x xs ih =>
    unfold updateFirst
    by_cases hx : pred x = true
    · simp only [hx, if_true, List.filter_cons, hq x, Bool.false_eq_true, if_false]
      split
      · exact Nat.le_succ _
      · exact Nat.le_refl _
    · simp only [hx, Bool.false_eq_true, if_false, List.filter_cons]
      split
      · exact Nat.succ_le_succ ih
      · exact ih

/-- The reply of `handleAccessRequest` when the creator approves a request that the
lookup finds and the granted type is one of the access types: 200, with the
request marked approved and the requester's first entry set to the granted type,
or a new entry appended when the requester has none. -/
theorem handleAccessRequest_approve_eq (db : Db) (projectId : ProjectId)
    (requestId : RequestId) (body : HandleRequestBody) (now : Nat) (project : Project)
    (request : AccessRequest) (granted : AccessType)
    (hload : findProjectById db projectId = some project)
    (hreq : project.accessRequests.find? (fun r => decide (r.id = requestId)) = some request)
    (hstatus : body.status = some "approved")
    (hgranted : AccessType.ofString?
      (if truthy body.accessType then body.accessType.getD ""
        else request.requestType.toString) = some granted) :
    (handleAccessRequest db project.creator projectId requestId body now).status = 200 ∧
    ((project.accessibleBy.find? (fun access => decide (access.user = request.user))).isSome
        = true →
      (handleAccessRequest db project.creator projectId requestId body now).db.projects =
        (Project.save db
          { project with
              accessRequests := updateFirst (fun r => decide (r.id = requestId))
                (fun r => { r with status := Status.approved }) project.accessRequests,
              accessibleBy := updateFirst (fun access => decide (access.user = request.user))
                (fun access => { access with accessType := granted }) project.accessibleBy }
          now).projects) ∧
    (project.accessibleBy.find? (fun access => decide (access.user = request.user)) = none →
      (handleAccessRequest db project.creator projectId requestId body now).db.projects =
        (Project.save db
          { project with
              accessRequests := updateFirst (fun r => decide (r.id = requestId))
                (fun r => { r with status := Status.approved }) project.accessRequests,
              accessibleBy := project.accessibleBy ++
                [{ user := request.user, accessType := granted, addedAt := now }] }
          now).projects) := by
  unfold handleAccessRequest
  simp only [hstatus, hload, hreq, Option.getD_some,
    show (["approved", "rejected"].contains "approved") = true from by decide,
    Bool.not_true, Bool.false_eq_true, if_false, ne_eq, not_true_eq_false, if_true, hgranted]
  cases hfind : project.accessibleBy.find? (fun access => decide (access.user = request.user)) with
  | none =>
    simp only [logActivity_of_mem _ _ _ _ _
      (show activityActions.contains "access_granted" = true from by decide)]
    exact ⟨trivial, fun h => by simp at h, fun _ => trivial⟩
  | some e =>
    simp only [logActivity_of_mem _ _ _ _ _
      (show activityActions.contains "access_granted" = true from by decide)]
    exact ⟨trivial, fun _ => trivial, fun h => by simp at h⟩

/-- The reply of `handleAccessRequest` when the creator rejects a request that the
lookup finds: 200, with the request marked rejected and nothing else changed in
the project. -/
theorem handleAccessRequest_reject_eq (db : Db) (projectId : ProjectId)
    (requestId : RequestId) (body : HandleRequestBody) (now : Nat) (project : Project)
    (request : AccessRequest)
    (hload : findProjectById db projectId = some project)
    (hreq : project.accessRequests.find? (fun r => decide (r.id = requestId)) = some request)
    (hstatus : body.status = some "rejected") :
    (handleAccessRequest db project.creator projectId requestId body now).status = 200 ∧
    (handleAccessRequest db project.creator projectId requestId body now).db.projects =
      (Project.save db
        { project with
            accessRequests := updateFirst (fun r => decide (r.id = requestId))
              (fun r => { r with status := Status.rejected }) project.accessRequests }
        now).projects := by
  unfold handleAccessRequest
  simp only [hstatus, hload, hreq, Option.getD_some,
    show (["approved", "rejected"].contains "rejected") = true from by decide,
    show ¬ ("rejected" = "approved") from by decide,
    show ¬ (Status.rejected = Status.approved) from by decide,
    Bool.not_true, Bool.false_eq_true, if_false, ne_eq, not_true_eq_false, if_true,
    logActivity_of_mem _ _ _ _ _
      (show activityActions.contains "access_granted" = true from by decide)]
  exact ⟨trivial, trivial⟩

/-- The stored project after a save of a project that was loaded under
`projectId`, read from a database with the same Project collection. -/
theorem findProjectById_of_projects_save (db db2 : Db) (projectId : ProjectId)
    (project updated : Project) (now : Nat)
    (hload : findProjectById db projectId = some project) (hid : updated.id = project.id)
    (hprojs : db2.projects = (Project.save db updated now).projects) :
    findProjectById db2 projectId = some updated := by
  have hpid := (findProjectById_mem db projectId project hload).2
  have hsave := findProjectById_save db project updated now hid (by rw [hpid]; exact hload)
  unfold findProjectById at hsave ⊢
  rw [hprojs, ← hpid]
  exact hsave

/-- C23: when the creator approves an existing access request with a granted type
of the access-type enum (the type in the body when there is one, the requested
type of the request otherwise), the answer is 200, the stored request is
approved, and the entry that the lookup finds for the requester has the granted
type: an existing entry is updated in place, with the same users at the same
positions, and a new entry is appended only when the requester had none. -/
theorem handleAccessRequest_approve_grants (db : Db) (projectId : ProjectId)
    (requestId : RequestId) (body : HandleRequestBody) (now : Nat) (project : Project)
    (request : AccessRequest) (granted : AccessType)
    (hload : findProjectById db projectId = some project)
    (hreq : project.accessRequests.find? (fun r => decide (r.id = requestId)) = some request)
    (hstatus : body.status = some "approved")
    (hgranted : AccessType.ofString?
      (if truthy body.accessType then body.accessType.getD ""
        else request.requestType.toString) = some granted) :
    (handleAccessRequest db project.creator projectId requestId body now).status = 200 ∧
    (truthy body.accessType = true →
      AccessType.ofString? (body.accessType.getD "") = some granted) ∧
    (truthy body.accessType = false →
      AccessType.ofString? request.requestType.toString = some granted) ∧
    ∃ stored,
      findProjectById (handleAccessRequest db project.creator projectId requestId body now).db
        projectId = some stored ∧
      (∃ r, stored.accessRequests.find? (fun r => decide (r.id = requestId)) = some r ∧
        r.status = Status.approved ∧ r.user = request.user) ∧
      (∃ e, stored.accessibleBy.find? (fun access => decide (access.user = request.user))
        = some e ∧ e.accessType = granted) ∧
      ((project.accessibleBy.find? (fun access => decide (access.user = request.user))).isSome
          = true →
        stored.accessibleBy.map (fun access => access.user)
          = project.accessibleBy.map (fun access => access.user)) ∧
      (project.accessibleBy.find? (fun access => decide (access.user = request.user)) = none →
        stored.accessibleBy = project.accessibleBy ++
          [{ user := request.user, accessType := granted, addedAt := now }]) := by
  obtain ⟨hst, hsome, hnone⟩ := handleAccessRequest_approve_eq db projectId requestId body now
    project request granted hload hreq hstatus hgranted
  have hrequest : ∃ r, (updateFirst (fun r => decide (r.id = requestId))
      (fun r => { r with status := Status.approved }) project.accessRequests).find?
        (fun r => decide (r.id = requestId)) = some r ∧
      r.status = Status.approved ∧ r.user = request.user := by
    rw [find?_updateFirst (fun r => decide (r.id = requestId))
      (fun r => { r with status := Status.approved }) project.accessRequests
      (fun x hx => hx), hreq]
    exact ⟨_, rfl, rfl, rfl⟩
  refine ⟨hst, fun h => ?_, fun h => ?_, ?_⟩
  · rw [h] at hgranted; exact hgranted
  · rw [h] at hgranted; exact hgranted
  · cases hfind : project.accessibleBy.find?
        (fun access => decide (access.user = request.user)) with
    | none =>
      have hstored := findProjectById_of_projects_save db _ projectId project
        { project with
            accessRequests := updateFirst (fun r => decide (r.id = requestId))
              (fun r => { r with status := Status.approved }) project.accessRequests,
            accessibleBy := project.accessibleBy ++
              [{ user := request.user, accessType := granted, addedAt := now }] }
        now hload rfl (hnone hfind)
      refine ⟨_, hstored, hrequest, ?_, fun h => by simp at h, fun _ => rfl⟩
      refine ⟨⟨request.user, granted, now⟩, ?_, rfl⟩
      simp [List.find?_append, hfind]
    | some e =>
      have hstored := findProjectById_of_projects_save db _ projectId project
        { project with
            accessRequests := updateFirst (fun r => decide (r.id = requestId))
              (fun r => { r with status := Status.approved }) project.accessRequests,
            accessibleBy := updateFirst (fun access => decide (access.user = request.user))
              (fun access => { access with accessType := granted }) project.accessibleBy }
        now hload rfl (hsome (by rw [hfind]; rfl))
      refine ⟨_, hstored, hrequest, ?_, fun _ => ?_, fun h => by cases h⟩
      · refine ⟨{ e with accessType := granted }, ?_, rfl⟩
        show (updateFirst (fun access => decide (access.user = request.user))
          (fun access => { access with accessType := granted }) project.accessibleBy).find?
            (fun access => decide (access.user = request.user)) = _
        rw [find?_updateFirst (fun access => decide (access.user = request.user))
          (fun access => { access with accessType := granted }) project.accessibleBy
          (fun x hx => hx), hfind]
        rfl
      · exact map_updateFirst (fun access => decide (access.user = request.user))
          (fun access => { access with accessType := granted })
          (fun access => access.user) project.accessibleBy (fun _ => rfl)

/-- C23 on a run: user 1 approves request 7 of the viewer 3 without naming a type,
and user 3 gets the requested editor type. -/
theorem handleAccessRequest_approve_grants_witness :
    findProjectById requestDb 10 = some requestProject ∧
    requestProject.accessRequests.find? (fun r => decide (r.id = 7))
      = some ⟨7, 3, RequestType.editor, "need to edit", 0, Status.pending⟩ ∧
    (handleAccessRequest requestDb requestProject.creator 10 7 ⟨some "approved", none⟩ 9).status
      = 200 :=
  ⟨by decide, by decide,
    (handleAccessRequest_approve_grants requestDb 10 7 ⟨some "approved", none⟩ 9 requestProject
      ⟨7, 3, RequestType.editor, "need to edit", 0, Status.pending⟩ AccessType.editor
      (by decide) (by decide) rfl (by decide)).1⟩

/-- C24, as the code behaves: user 1 rejects request 7 of user 3 and then approves
the same request; the second call is answered 200, turns the decided request from
rejected to approved and makes user 3 an editor. -/
theorem handleAccessRequest_redecides :
    (handleAccessRequest requestDb 1 10 7 ⟨some "rejected", none⟩ 9).status = 200 ∧
    (findProjectById (handleAccessRequest requestDb 1 10 7 ⟨some "rejected", none⟩ 9).db 10).map
      (fun p => (p.accessRequests.map (fun r => (r.id, r.status)),
        p.accessibleBy.map (fun e => (e.user, e.accessType))))
      = some ([(7, Status.rejected)],
          [(1, AccessType.creator), (2, AccessType.editor), (3, AccessType.viewer)]) ∧
    (handleAccessRequest (handleAccessRequest requestDb 1 10 7 ⟨some "rejected", none⟩ 9).db
      1 10 7 ⟨some "approved", none⟩ 11).status = 200 ∧
    (findProjectById
      (handleAccessRequest (handleAccessRequest requestDb 1 10 7 ⟨some "rejected", none⟩ 9).db
        1 10 7 ⟨some "approved", none⟩ 11).db 10).map
      (fun p => (p.accessRequests.map (fun r => (r.id, r.status)),
        p.accessibleBy.map (fun e => (e.user, e.accessType))))
      = some ([(7, Status.approved)],
          [(1, AccessType.creator), (2, AccessType.editor), (3, AccessType.editor)]) := by
  refine ⟨by decide, by decide, by decide, by decide⟩

/-- C25: when the creator rejects an existing access request, the answer is 200, the
stored request is rejected and the stored `accessibleBy` is the list of before,
so every answer of `hasAccess` is unchanged. -/
theorem handleAccessRequest_reject_keeps_access (db : Db) (projectId : ProjectId)
    (requestId : RequestId) (body : HandleRequestBody) (now : Nat) (project : Project)
    (request : AccessRequest)
    (hload : findProjectById db projectId = some project)
    (hreq : project.accessRequests.find? (fun r => decide (r.id = requestId)) = some request)
    (hstatus : body.status = some "rejected") :
    (handleAccessRequest db project.creator projectId requestId body now).status = 200 ∧
    ∃ stored,
      findProjectById (handleAccessRequest db project.creator projectId requestId body now).db
        projectId = some stored ∧
      (∃ r, stored.accessRequests.find? (fun r => decide (r.id = requestId)) = some r ∧
        r.status = Status.rejected ∧ r.user = request.user) ∧
      stored.accessibleBy = project.accessibleBy ∧
      ∀ (userId : UserId) (level : String),
        stored.hasAccess userId level = project.hasAccess userId level := by
  obtain ⟨hst, hprojs⟩ := handleAccessRequest_reject_eq db projectId requestId body now
    project request hload hreq hstatus
  have hstored := findProjectById_of_projects_save db _ projectId project
    { project with
        accessRequests := updateFirst (fun r => decide (r.id = requestId))
          (fun r => { r with status := Status.rejected }) project.accessRequests }
    now hload rfl hprojs
  refine ⟨hst, _, hstored, ?_, rfl, fun _ _ => rfl⟩
  show ∃ r, (updateFirst (fun r => decide (r.id = requestId))
      (fun r => { r with status := Status.rejected }) project.accessRequests).find?
        (fun r => decide (r.id = requestId)) = some r ∧ _
  rw [find?_updateFirst (fun r => decide (r.id = requestId))
    (fun r => { r with status := Status.rejected }) project.accessRequests
    (fun x hx => hx), hreq]
  exact ⟨_, rfl, rfl, rfl⟩

/-- C25 on a run: user 1 rejects request 7 of the viewer 3. -/
theorem handleAccessRequest_reject_keeps_access_witness :
    findProjectById requestDb 10 = some requestProject ∧
    requestProject.accessRequests.find? (fun r => decide (r.id = 7))
      = some ⟨7, 3, RequestType.editor, "need to edit", 0, Status.pending⟩ ∧
    (handleAccessRequest requestDb requestProject.creator 10 7 ⟨some "rejected", none⟩ 9).status
      = 200 :=
  ⟨by decide, by decide,
    (handleAccessRequest_reject_keeps_access requestDb 10 7 ⟨some "rejected", none⟩ 9
      requestProject ⟨7, 3, RequestType.editor, "need to edit", 0, Status.pending⟩
      (by decide) (by decide) rfl).1⟩

/-! ## One pending request per user -/

/-- Every project stored by `createProject` is an old one or has no access
request. -/
theorem createProject_requests (db : Db) (userId : UserId) (body : ProjectBody) (now : Nat)
    (newId : ProjectId) :
    ∀ p ∈ (createProject db userId body now newId).db.projects,
      p ∈ db.projects ∨ p.accessRequests = [] := by
  unfold createProject
  split
  · exact fun p hp => Or.inl hp
  · unfold Project.create
    simp only []
    split
    · exact fun p hp => Or.inl hp
    · rename_i created db1 hc
      split at hc
      · cases hc
      · simp only [Option.some.injEq, Prod.mk.injEq] at hc
        obtain ⟨hcreated, hdb1⟩ := hc
        subst hcreated
        subst hdb1
        rw [logActivity_of_mem _ _ _ _ _ (by decide)]
        intro p hp
        rcases mem_save_projects _ _ _ p hp with heq | ⟨hmem, _⟩
        · right
          subst heq
          split <;> simp [Project.preSave]
        · simp only [List.mem_append, List.mem_singleton] at hmem
          rcases hmem with hold | hnew
          · exact Or.inl hold
          · right
            subst hnew
            simp [Project.preSave]

/-- Either `requestAccess` stores nothing, or it saves the project with one more
request, a pending request of a requester who had no pending request. -/
theorem requestAccess_db (db : Db) (userId : UserId) (projectId : ProjectId)
    (body : RequestAccessBody) (now : Nat) (newId : RequestId) :
    (requestAccess db userId projectId body now newId).db = db ∨
    ∃ project request,
      (requestAccess db userId projectId body now newId).db.projects =
        (Project.save db
          { project with accessRequests := project.accessRequests ++ [request] } now).projects ∧
      findProjectById db projectId = some project ∧ request.user = userId ∧
      (project.accessRequests.find? (fun r =>
        decide (r.user = userId ∧ r.status = Status.pending))).isSome = false := by
  unfold requestAccess
  cases hload : findProjectById db projectId with
  | none => exact Or.inl rfl
  | some project =>
    simp only []
    split
    · exact Or.inl rfl
    · by_cases hpending : (project.accessRequests.find? (fun r =>
          decide (r.user = userId ∧ r.status = Status.pending))).isSome = true
      · rw [if_pos hpending]
        exact Or.inl rfl
      · rw [if_neg hpending]
        cases hparse : RequestType.ofString? (body.requestType.getD "editor") with
        | none => exact Or.inl rfl
        | some requestType =>
          simp only []
          rw [logActivity_of_mem _ _ _ _ _ (by decide)]
          exact Or.inr ⟨project, _, rfl, rfl, rfl, Bool.eq_false_iff.2 hpending⟩

/-- Either `handleAccessRequest` stores nothing, or it saves the project with the
status of one request set to approved or rejected. -/
theorem handleAccessRequest_db (db : Db) (userId : UserId) (projectId : ProjectId)
    (requestId : RequestId) (body : HandleRequestBody) (now : Nat) :
    (handleAccessRequest db userId projectId requestId body now).db = db ∨
    ∃ project status entries,
      (handleAccessRequest db userId projectId requestId body now).db.projects =
        (Project.save db
          { project with
              accessRequests := updateFirst (fun r => decide (r.id = requestId))
                (fun r => { r with status := status }) project.accessRequests,
              accessibleBy := entries } now).projects ∧
      findProjectById db projectId = some project ∧ status ≠ Status.pending := by
  unfold handleAccessRequest
  by_cases hvalid : (!(["approved", "rejected"].contains (body.status.getD ""))) = true
  · rw [if_pos hvalid]
    exact Or.inl rfl
  · rw [if_neg hvalid]
    cases hload : findProjectById db projectId with
    | none => exact Or.inl rfl
    | some project =>
      simp only []
      by_cases hc : project.creator ≠ userId
      · rw [if_pos hc]
        exact Or.inl rfl
      · rw [if_neg hc]
        cases hreq : project.accessRequests.find? (fun r => decide (r.id = requestId)) with
        | none => exact Or.inl rfl
        | some request =>
          simp only []
          by_cases happ : body.status.getD "" = "approved"
          · simp only [happ, if_true]
            cases hparse : AccessType.ofString?
                (if truthy body.accessType = true then body.accessType.getD ""
                  else request.requestType.toString) with
            | none => exact Or.inl rfl
            | some granted =>
              simp only []
              cases hfind : project.accessibleBy.find?
                  (fun access => decide (access.user = request.user)) with
              | none =>
                simp only []
                rw [logActivity_of_mem _ _ _ _ _ (by decide)]
                exact Or.inr ⟨project, Status.approved, _, rfl, rfl, by decide⟩
              | some e =>
                simp only []
                rw [logActivity_of_mem _ _ _ _ _ (by decide)]
                exact Or.inr ⟨project, Status.approved, _, rfl, rfl, by decide⟩
          · simp only [happ, if_false,
              show ¬ (Status.rejected = Status.approved) from by decide]
            rw [logActivity_of_mem _ _ _ _ _ (by decide)]
            exact Or.inr ⟨project, Status.rejected, project.accessibleBy, rfl, rfl, by decide⟩

/-- One call of the access-request workflow keeps, in every project, at most one
pending request per user. -/
theorem handleAccess_pendingOnce (db : Db) (call : AccessCall)
    (h : ∀ p ∈ db.projects, ∀ u, (pendingRequests p u).length ≤ 1) :
    ∀ p ∈ (handleAccess db call).projects, ∀ u, (pendingRequests p u).length ≤ 1 := by
  cases call with
  | createProject userId body now newId =>
    simp only [handleAccess]
    split
    · exact h
    · intro p hp u
      rcases createProject_requests db userId body now newId p hp with hold | hnew
      · exact h p hold u
      · simp [pendingRequests, hnew]
  | requestAccess userId projectId body now newId =>
    simp only [handleAccess]
    rcases requestAccess_db db userId projectId body now newId with
      hsame | ⟨project, request, hprojs, hload, huser, hfree⟩
    · rw [hsame]; exact h
    · intro p hp u
      rw [hprojs] at hp
      have hpmem := (findProjectById_mem db projectId project hload).1
      rcases mem_save_projects _ _ _ p hp with heq | ⟨hmem, _⟩
      · subst heq
        simp only [pendingRequests, List.filter_append]
        by_cases hu : u = userId
        · subst hu
          have hnil : project.accessRequests.filter (fun r =>
              decide (r.user = u ∧ r.status = Status.pending)) = [] := by
            rw [List.filter_eq_nil_iff]
            intro r hr hpred
            have hsome : (project.accessRequests.find? (fun r =>
                decide (r.user = u ∧ r.status = Status.pending))).isSome = true := by
              rw [List.find?_isSome]
              exact ⟨r, hr, hpred⟩
            rw [hfree] at hsome
            cases hsome
          rw [hnil]
          simp only [List.nil_append]
          exact List.length_filter_le _ _
        · have hout : [request].filter (fun r =>
              decide (r.user = u ∧ r.status = Status.pending)) = [] := by
            rw [List.filter_eq_nil_iff]
            intro r hr hpred
            simp only [List.mem_singleton] at hr
            subst hr
            simp only [decide_eq_true_eq] at hpred
            exact hu (hpred.1.symm.trans huser)
          rw [hout, List.append_nil]
          exact h project hpmem u
      · exact h p hmem u
  | handleAccessRequest userId projectId requestId body now =>
    simp only [handleAccess]
    split
    · exact h
    · rcases handleAccessRequest_db db userId projectId requestId body now with
        hsame | ⟨project, status, entries, hprojs, hload, hstatus⟩
      · rw [hsame]; exact h
      · intro p hp u
        rw [hprojs] at hp
        have hpmem := (findProjectById_mem db projectId project hload).1
        rcases mem_save_projects _ _ _ p hp with heq | ⟨hmem, _⟩
        · subst heq
          refine Nat.le_trans ?_ (h project hpmem u)
          exact length_filter_updateFirst_le (fun r => decide (r.id = requestId))
            (fun r => decide (r.user = u ∧ r.status = Status.pending))
            (fun r => { r with status := status }) project.accessRequests
            (fun x => by simp [hstatus])
        · exact h p hmem u

/-- Every sequence of calls keeps at most one pending request per user. -/
theorem runAccess_pendingOnce (calls : List AccessCall) (db : Db)
    (h : ∀ p ∈ db.projects, ∀ u, (pendingRequests p u).length ≤ 1) :
    ∀ p ∈ (runAccess db calls).projects, ∀ u, (pendingRequests p u).length ≤ 1 := by
  induction calls generalizing db with
  | nil => exact h
  | cons call rest ih => exact ih (handleAccess db call) (handleAccess_pendingOnce db call h)

/-- C22: in every state reached from a database without projects through
createProject, requestAccess and handleAccessRequest calls, every user has at most
one pending access request on every project. -/
theorem at_most_one_pending_request (users : List User) (calls : List AccessCall)
    (p : Project) (hp : p ∈ (runAccess (initialDb users) calls).projects) (userId : UserId) :
    (pendingRequests p userId).length ≤ 1 :=
  runAccess_pendingOnce calls (initialDb users) (fun q hq => by cases hq) p hp userId

/-- C22 on a run: after two requests, a rejection and a third request, the viewer 2
has one pending request. -/
theorem at_most_one_pending_request_witness :
    sampleAccessProject ∈ (runAccess (initialDb sampleDb.users) sampleAccessCalls).projects ∧
    (pendingRequests sampleAccessProject 2).length ≤ 1 :=
  ⟨by decide,
    at_most_one_pending_request sampleDb.users sampleAccessCalls sampleAccessProject
      (by decide) 2⟩

/-! ## Membership management -/

/-- C26: on a stored project, `removeUserFromProject` with the creator as target
fails for every caller, with 400 for the creator and 403 for anyone else, and
stores nothing; with any other target, a call by the creator answers 200 and
stores the access list without the entries of the target, so the target cannot
view the project, while the entries of every other user are as before. -/
theorem removeUserFromProject_guard_and_effect (db : Db) (callerId : UserId)
    (projectId : ProjectId) (target : UserId) (now : Nat) (project : Project)
    (hload : findProjectById db projectId = some project) :
    (target = project.creator →
      (removeUserFromProject db callerId projectId target now).status
        = (if callerId = project.creator then 400 else 403) ∧
      (removeUserFromProject db callerId projectId target now).db = db) ∧
    (target ≠ project.creator → callerId = project.creator →
      (removeUserFromProject db callerId projectId target now).status = 200 ∧
      ∃ stored,
        findProjectById (removeUserFromProject db callerId projectId target now).db projectId
          = some stored ∧
        stored.accessibleBy
          = project.accessibleBy.filter (fun access => decide (access.user ≠ target)) ∧
        (∀ e ∈ stored.accessibleBy, e.user ≠ target) ∧
        stored.hasAccess target "view" = false ∧
        ∀ u, u ≠ target →
          stored.accessibleBy.filter (fun access => decide (access.user = u))
            = project.accessibleBy.filter (fun access => decide (access.user = u))) := by
  constructor
  · intro htarget
    unfold removeUserFromProject
    simp only [hload]
    by_cases hc : project.creator = callerId
    · simp [hc, htarget]
    · have hc2 : ¬ callerId = project.creator := fun h => hc h.symm
      simp [hc, hc2]
  · intro htarget hcaller
    subst hcaller
    have hreply : (removeUserFromProject db project.creator projectId target now).status = 200 ∧
        (removeUserFromProject db project.creator projectId target now).db.projects =
          (Project.save db
            { project with accessibleBy :=
                project.accessibleBy.filter (fun access => decide (access.user ≠ target)) }
            now).projects := by
      unfold removeUserFromProject
      simp only [hload, ne_eq, not_true_eq_false, if_false, htarget]
      rw [logActivity_of_mem _ _ _ _ _ (by decide)]
      exact ⟨rfl, rfl⟩
    have hstored := findProjectById_of_projects_save db _ projectId project
      { project with accessibleBy :=
          project.accessibleBy.filter (fun access => decide (access.user ≠ target)) }
      now hload rfl hreply.2
    have hnone : ∀ e ∈ project.accessibleBy.filter (fun access => decide (access.user ≠ target)),
        e.user ≠ target := by
      intro e he
      simp only [List.mem_filter, decide_eq_true_eq] at he
      exact he.2
    refine ⟨hreply.1, _, hstored, rfl, hnone, ?_, ?_⟩
    · cases hview : Project.hasAccess
        { project with accessibleBy :=
            project.accessibleBy.filter (fun access => decide (access.user ≠ target)) }
        target "view" with
      | false => rfl
      | true =>
        obtain ⟨e, he, hu⟩ := (hasAccess_view_iff_mem _ target).1 hview
        exact absurd hu (hnone e he)
    · intro u hu
      simp only [List.filter_filter]
      apply List.filter_congr
      intro e _
      by_cases heu : e.user = u
      · simp [heu, hu]
      · simp [heu]

/-- C26 on a run: nobody can remove user 1, the creator of the sample project, and
user 1 can remove the editor 2. -/
theorem removeUserFromProject_guard_and_effect_witness :
    findProjectById requestDb 10 = some requestProject ∧
    (removeUserFromProject requestDb 2 10 1 9).status = 403 ∧
    (removeUserFromProject requestDb 1 10 1 9).status = 400 ∧
    (removeUserFromProject requestDb 1 10 2 9).status = 200 :=
  ⟨by decide,
    ((removeUserFromProject_guard_and_effect requestDb 2 10 1 9 requestProject
      (by decide)).1 rfl).1,
    ((removeUserFromProject_guard_and_effect requestDb 1 10 1 9 requestProject
      (by decide)).1 rfl).1,
    ((removeUserFromProject_guard_and_effect requestDb 1 10 2 9 requestProject
      (by decide)).2 (by decide) rfl).1⟩

/-- The reply of `addUserToProject` when the creator adds a user of the directory
as editor or viewer: 200, with the first entry of the user set to the type, or a
new entry appended when the user has none. -/
theorem addUserToProject_eq (db : Db) (projectId : ProjectId) (body : AddUserBody)
    (now : Nat) (project : Project) (userToAdd : User) (accessType : AccessType)
    (hload : findProjectById db projectId = some project)
    (hemail : truthy body.email = true)
    (huser : db.users.find? (fun u => decide (u.email = body.email.getD "")) = some userToAdd)
    (htype : (body.accessType = some "editor" ∧ accessType = AccessType.editor) ∨
      (body.accessType = some "viewer" ∧ accessType = AccessType.viewer)) :
    (addUserToProject db project.creator projectId body now).status = 200 ∧
    ((project.accessibleBy.find? (fun access => decide (access.user = userToAdd.id))).isSome
        = true →
      (addUserToProject db project.creator projectId body now).db.projects =
        (Project.save db
          { project with
              accessibleBy := updateFirst (fun access => decide (access.user = userToAdd.id))
                (fun access => { access with accessType := accessType, addedAt := now })
                project.accessibleBy } now).projects) ∧
    (project.accessibleBy.find? (fun access => decide (access.user = userToAdd.id)) = none →
      (addUserToProject db project.creator projectId body now).db.projects =
        (Project.save db
          { project with
              accessibleBy := project.accessibleBy ++
                [{ user := userToAdd.id, accessType := accessType, addedAt := now }] }
          now).projects) := by
  have hfacts : truthy body.accessType = true ∧
      (["editor", "viewer"].contains (body.accessType.getD "")) = true ∧
      AccessType.ofString? (body.accessType.getD "") = some accessType := by
    rcases htype with ⟨h, ht⟩ | ⟨h, ht⟩ <;> rw [h, ht] <;> decide
  obtain ⟨h1, h2, h3⟩ := hfacts
  unfold addUserToProject
  simp only [hemail, h1, h2, h3, hload, huser, Bool.not_true, Bool.or_self, Bool.false_eq_true,
    if_false, ne_eq, not_true_eq_false]
  cases hfind : project.accessibleBy.find?
      (fun access => decide (access.user = userToAdd.id)) with
  | none =>
    simp only [logActivity_of_mem _ _ _ _ _
      (show activityActions.contains "collaborator_added" = true from by decide)]
    exact ⟨trivial, fun h => by simp at h, fun _ => trivial⟩
  | some e =>
    simp only [logActivity_of_mem _ _ _ _ _
      (show activityActions.contains "collaborator_added" = true from by decide)]
    exact ⟨trivial, fun _ => trivial, fun h => by simp at h⟩

/-- An access type outside editor and viewer, or none at all, is refused with 400
before anything is read or stored. -/
theorem addUserToProject_bad_type (db : Db) (callerId : UserId) (projectId : ProjectId)
    (body : AddUserBody) (now : Nat)
    (hbad : ¬ (body.accessType = some "editor" ∨ body.accessType = some "viewer")) :
    (addUserToProject db callerId projectId body now).status = 400 ∧
    (addUserToProject db callerId projectId body now).db = db := by
  have hcontains : (["editor", "viewer"].contains (body.accessType.getD "")) = false := by
    cases hs : body.accessType with
    | none => rfl
    | some st =>
      rw [hs] at hbad
      simp only [Option.some.injEq] at hbad
      have h1 : ¬ st = "editor" := fun h => hbad (Or.inl h)
      have h2 : ¬ st = "viewer" := fun h => hbad (Or.inr h)
      simp [h1, h2]
  unfold addUserToProject
  split
  · exact ⟨rfl, rfl⟩
  · rw [hcontains]
    exact ⟨rfl, rfl⟩

/-- C27: when the creator adds a user of the directory with access type editor or
viewer, the answer is 200 and the stored access list is an upsert: a user with an
entry keeps the same users at the same positions and the looked-up entry has the
new type, a user without an entry gains one entry of that type at the end, the
entries of every other user are as before, and the user can edit exactly when the
type is editor.  Any other access type is refused with 400 and no change. -/
theorem addUserToProject_upsert (db : Db) (projectId : ProjectId) (body : AddUserBody)
    (now : Nat) (project : Project) (userToAdd : User) (accessType : AccessType)
    (hload : findProjectById db projectId = some project)
    (hemail : truthy body.email = true)
    (huser : db.users.find? (fun u => decide (u.email = body.email.getD "")) = some userToAdd)
    (htype : (body.accessType = some "editor" ∧ accessType = AccessType.editor) ∨
      (body.accessType = some "viewer" ∧ accessType = AccessType.viewer)) :
    ((addUserToProject db project.creator projectId body now).status = 200 ∧
      ∃ stored,
        findProjectById (addUserToProject db project.creator projectId body now).db projectId
          = some stored ∧
        (∃ e, stored.accessibleBy.find? (fun access => decide (access.user = userToAdd.id))
          = some e ∧ e.accessType = accessType) ∧
        ((project.accessibleBy.find? (fun access => decide (access.user = userToAdd.id))).isSome
            = true →
          stored.accessibleBy.map (fun access => access.user)
            = project.accessibleBy.map (fun access => access.user)) ∧
        (project.accessibleBy.find? (fun access => decide (access.user = userToAdd.id)) = none →
          stored.accessibleBy = project.accessibleBy ++
            [{ user := userToAdd.id, accessType := accessType, addedAt := now }]) ∧
        (∀ u, u ≠ userToAdd.id →
          stored.accessibleBy.filter (fun access => decide (access.user = u))
            = project.accessibleBy.filter (fun access => decide (access.user = u))) ∧
        (stored.hasAccess userToAdd.id "edit" = true ↔ accessType = AccessType.editor)) ∧
    (∀ (callerId : UserId) (other : AddUserBody),
      ¬ (other.accessType = some "editor" ∨ other.accessType = some "viewer") →
      (addUserToProject db callerId projectId other now).status = 400 ∧
      (addUserToProject db callerId projectId other now).db = db) := by
  refine ⟨?_, fun callerId other hbad => addUserToProject_bad_type db callerId projectId other now hbad⟩
  obtain ⟨hst, hsome, hnone⟩ := addUserToProject_eq db projectId body now project userToAdd
    accessType hload hemail huser htype
  have hedit : ∀ stored : Project, (∃ e, stored.accessibleBy.find?
      (fun access => decide (access.user = userToAdd.id)) = some e ∧ e.accessType = accessType) →
      (stored.hasAccess userToAdd.id "edit" = true ↔ accessType = AccessType.editor) := by
    rintro stored ⟨e, he, ht⟩
    rw [hasAccess_eq_find, he]
    rcases htype with ⟨_, h⟩ | ⟨_, h⟩ <;> simp [ht, h]
  refine ⟨hst, ?_⟩
  cases hfind : project.accessibleBy.find?
      (fun access => decide (access.user = userToAdd.id)) with
  | none =>
    have hstored := findProjectById_of_projects_save db _ projectId project
      { project with
          accessibleBy := project.accessibleBy ++
            [{ user := userToAdd.id, accessType := accessType, addedAt := now }] }
      now hload rfl (hnone hfind)
    have hentry : ∃ e : AccessEntry, List.find?
        (fun access : AccessEntry => decide (access.user = userToAdd.id))
        (project.accessibleBy ++ [(⟨userToAdd.id, accessType, now⟩ : AccessEntry)]) = some e ∧
        e.accessType = accessType :=
      ⟨⟨userToAdd.id, accessType, now⟩, by simp [List.find?_append, hfind], rfl⟩
    refine ⟨_, hstored, hentry, fun h => by simp at h, fun _ => rfl, ?_, hedit _ hentry⟩
    intro u hu
    simp only [List.filter_append]
    have hout : [({ user := userToAdd.id, accessType := accessType, addedAt := now } :
        AccessEntry)].filter (fun access => decide (access.user = u)) = [] := by
      rw [List.filter_eq_nil_iff]
      intro e he hpred
      simp only [List.mem_singleton] at he
      subst he
      simp only [decide_eq_true_eq] at hpred
      exact hu hpred.symm
    rw [hout, List.append_nil]
  | some existing =>
    have hstored := findProjectById_of_projects_save db _ projectId project
      { project with
          accessibleBy := updateFirst (fun access => decide (access.user = userToAdd.id))
            (fun access => { access with accessType := accessType, addedAt := now })
            project.accessibleBy }
      now hload rfl (hsome (by rw [hfind]; rfl))
    have hentry : ∃ e, (updateFirst (fun access => decide (access.user = userToAdd.id))
        (fun access => { access with accessType := accessType, addedAt := now })
        project.accessibleBy).find?
          (fun access => decide (access.user = userToAdd.id)) = some e ∧
        e.accessType = accessType := by
      rw [find?_updateFirst (fun access => decide (access.user = userToAdd.id))
        (fun access => { access with accessType := accessType, addedAt := now })
        project.accessibleBy (fun x hx => hx), hfind]
      exact ⟨_, rfl, rfl⟩
    refine ⟨_, hstored, hentry, fun _ => ?_, fun h => (by cases h), ?_,
      hedit { project with
          accessibleBy := updateFirst (fun access => decide (access.user = userToAdd.id))
            (fun access => { access with accessType := accessType, addedAt := now })
            project.accessibleBy } hentry⟩
    · exact map_updateFirst (fun access => decide (access.user = userToAdd.id))
        (fun access => { access with accessType := accessType, addedAt := now })
        (fun access => access.user) project.accessibleBy (fun _ => rfl)
    · intro u hu
      apply filter_updateFirst_of_disjoint
      intro x hx
      simp only [decide_eq_true_eq] at hx
      have hne : ¬ x.user = u := fun h => hu (h.symm.trans hx)
      simp [hne]

/-- C27 on a run: user 1 turns the viewer 3 of the sample project into an editor,
and an access type `creator` is refused. -/
theorem addUserToProject_upsert_witness :
    findProjectById requestDb 10 = some requestProject ∧
    requestDb.users.find? (fun u => decide (u.email = "c@x.io")) = some ⟨3, "c@x.io", "Cy"⟩ ∧
    (addUserToProject requestDb requestProject.creator 10 ⟨some "c@x.io", some "editor"⟩ 9).status
      = 200 ∧
    (addUserToProject requestDb 1 10 ⟨some "c@x.io", some "creator"⟩ 9).status = 400 :=
  ⟨by decide, by decide,
    (addUserToProject_upsert requestDb 10 ⟨some "c@x.io", some "editor"⟩ 9 requestProject
      ⟨3, "c@x.io", "Cy"⟩ AccessType.editor (by decide) (by decide) (by decide)
      (Or.inl ⟨rfl, rfl⟩)).1.1,
    ((addUserToProject_upsert requestDb 10 ⟨some "c@x.io", some "editor"⟩ 9 requestProject
      ⟨3, "c@x.io", "Cy"⟩ AccessType.editor (by decide) (by decide) (by decide)
      (Or.inl ⟨rfl, rfl⟩)).2 1 ⟨some "c@x.io", some "creator"⟩ (by decide)).1⟩

/-! ## Validation, storage keys and activity names -/

/-- C28, as the code behaves: a name that is not empty but is empty after trimming
passes the check of the controller, fails the schema validation inside
`Project.create`, and is answered 500 instead of 400; no project is created. -/
theorem createProject_blank_name (db : Db) (userId : UserId) (name : String)
    (description : Option String) (now : Nat) (newId : ProjectId)
    (hne : name ≠ "") (hblank : jsTrim name = "") :
    (createProject db userId ⟨some name, description⟩ now newId).status = 500 ∧
    (createProject db userId ⟨some name, description⟩ now newId).data = none ∧
    (createProject db userId ⟨some name, description⟩ now newId).db = db := by
  have htruthy : truthy (some name) = true := by simp [truthy, hne]
  unfold createProject
  simp only [htruthy, Bool.not_true, Bool.false_eq_true, if_false, Option.getD_some]
  unfold Project.create
  simp only [hblank, if_true]
  exact ⟨trivial, trivial, trivial⟩

/-- C28 on a run: a name of three spaces is answered 500, an empty name 400. -/
theorem createProject_blank_name_witness :
    ("   " : String) ≠ "" ∧ jsTrim "   " = "" ∧
    (createProject sampleDb 1 ⟨some "   ", none⟩ 0 10).status = 500 ∧
    (createProject sampleDb 1 ⟨some "", none⟩ 0 10).status = 400 :=
  ⟨by decide, by decide,
    (createProject_blank_name sampleDb 1 "   " none 0 10 (by decide) (by decide)).1,
    by decide⟩

/-- C29, as the code behaves: `deleteVersion` takes the key from the file URL and
never reads the stored key.  For version 106, whose key has a space, it asks
storage to delete the escaped text of the URL, while a revert deletes the stored
key; for version 107, served from another host, it passes no key at all, while a
rejection deletes the stored key. -/
theorem deleteVersion_ignores_stored_key :
    (deleteVersion mismatchDb workingS3 mismatchProject 1 106 9).deleteCalls
      = [some "projects/10/v2%20final.txt"] ∧
    (revertToVersion mismatchDb workingS3 mismatchProject 1 100 9).deleteCalls
      = [some "projects/10/v2 final.txt"] ∧
    (deleteVersion mismatchDb workingS3 mismatchProject 1 107 9).deleteCalls = [none] ∧
    (updateVersionStatus mismatchDb workingS3 mismatchProject 1 107
      ⟨some "rejected", none⟩ 9).deleteCalls = [some "projects/10/v3.txt"] := by
  refine ⟨by decide, by decide, by decide, by decide⟩

/-- C30, as the code behaves: `version_viewed`, `version_deleted` and
`version_reverted` are not actions of the Activity schema, the other nine names
are; `logActivity` refuses a `version_deleted` entry, and a delete and a revert
that did all their work on a working storage are answered 500. -/
theorem activity_enum_misses_version_actions :
    activityActions.contains "version_viewed" = false ∧
    activityActions.contains "version_deleted" = false ∧
    activityActions.contains "version_reverted" = false ∧
    (["project_created", "project_updated", "collaborator_added", "collaborator_removed",
      "access_requested", "access_granted", "version_uploaded", "version_approved",
      "version_rejected"].all (fun action => activityActions.contains action)) = true ∧
    logActivity lifecycleDb 10 1 "version_deleted" "Version 2 deleted" = none ∧
    (deleteVersion lifecycleDb workingS3 lifecycleProject 1 101 9).status = 500 ∧
    (revertToVersion lifecycleDb workingS3 lifecycleProject 1 100 9).status = 500 := by
  refine ⟨by decide, by decide, by decide, by decide, by decide, by decide, by decide⟩

end FileVault
